import Mathlib

/-!
# Verification of the grid pathfinding engine (`src/pathfinder.py`)

This file gives a shallow embedding, in Lean 4, of the search core of the
pathfinding visualizer: the `Node` model, the grid of tile classifications,
the four step functions `DFS`, `BFS`, `Greedy`, `AStar`, the path
reconstructor `reconstructPath`, and the grid-maintenance helpers
(`initGrid` for the default grid setup in `main`, `mouseWall` for the
wall-painting core of `mouseHandler`, `clear`, `reset`, `start`).

Conventions of the embedding:

* Python lists are Lean `List`s.  Python indexing `l[i]` (which accepts
  negative indices, wrapping once from the end, and raises `IndexError`
  out of range) is modelled by `pyIdx`/`pyGet`/`pySet`, all returning
  `Option`: `none` models an uncaught Python exception.
* The grid `GRID` is a `List (List Nat)`; cell values are exactly the
  integers the source stores: 0 path, 1 wall, 2 start, 3 end,
  4 open/frontier tile, 5 closed/visited tile, 6 final path.
* A Python `Node` object is the inductive `Node` below.  The `parent`
  reference is embedded structurally (each node value carries its whole
  discoverer chain); this is faithful because the source never mutates a
  node after it enters `closed`, and `parent` is only ever set to the
  node being expanded, which is appended to `closed` in the same step.
* The module-level globals `START`, `END`, `DIAGONAL` are gathered into a
  `Config` record; the mutable globals `GRID`, `open`, `closed` form the
  `SearchState` record.  (`open` is a Lean keyword, so the field is named
  `openL`.)
* Each algorithm returns `Option (StepRes × SearchState)`: the outer
  `none` models a raised exception, `StepRes` models the Python return
  value (`False` ↦ `failure`, `True` ↦ `success`, `None` ↦ `cont`).
* `Python`'s stable `list.sort(key=...)` is modelled by the stable
  insertion sort `sortByKey`; stability plus sortedness determines the
  output list uniquely, so any stable sort is a faithful model.
-/

/-- Python-style list index normalisation: a non-negative index must be
below the length; a negative index wraps once from the end.  `none`
models `IndexError`. -/
def pyIdx (len : Nat) (i : Int) : Option Nat :=
  if 0 ≤ i then
    if i < (len : Int) then some i.toNat else none
  else
    if 0 ≤ i + (len : Int) then some (i + (len : Int)).toNat else none

/-- Python `l[i]`. -/
def pyGet {α : Type} (l : List α) (i : Int) : Option α :=
  (pyIdx l.length i).bind l.get?

/-- Python `l[i] = v`. -/
def pySet {α : Type} (l : List α) (i : Int) (v : α) : Option (List α) :=
  (pyIdx l.length i).map (fun j => l.set j v)

/-- The tile classification grid `GRID`: a list of rows of cell values. -/
abbrev Grid := List (List Nat)

/-- Python `GRID[y][x]`. -/
def gridGet (g : Grid) (y x : Int) : Option Nat :=
  (pyGet g y).bind (fun row => pyGet row x)

/-- Python `GRID[y][x] = v`. -/
def gridSet (g : Grid) (y x : Int) (v : Nat) : Option Grid :=
  (pyGet g y).bind (fun row => (pySet row x v).bind (fun row2 => pySet g y row2))

/-- The `Node` class: coordinates, discoverer reference (`parent`), and the
two cost fields (both initialised to 0 by the constructor). -/
inductive Node : Type where
  | mk (y x : Int) (parent : Option Node) (gCost hCost : Nat)

/-- Decidable equality of node values (the derive handler does not cover
the nested `Option Node` field, so the instance is written out). -/
def Node.decEq : (a b : Node) → Decidable (a = b)
  | .mk y x none g h, .mk y' x' none g' h' =>
    if hc : y = y' ∧ x = x' ∧ g = g' ∧ h = h' then
      isTrue (by obtain ⟨e1, e2, e3, e4⟩ := hc; rw [e1, e2, e3, e4])
    else
      isFalse (fun e => by injection e with e1 e2 e3 e4 e5; exact hc ⟨e1, e2, e4, e5⟩)
  | .mk _ _ none _ _, .mk _ _ (some _) _ _ =>
    isFalse (fun e => by injection e with e1 e2 e3 e4 e5; exact Option.noConfusion e3)
  | .mk _ _ (some _) _ _, .mk _ _ none _ _ =>
    isFalse (fun e => by injection e with e1 e2 e3 e4 e5; exact Option.noConfusion e3)
  | .mk y x (some pa) g h, .mk y' x' (some pb) g' h' =>
    match Node.decEq pa pb with
    | isTrue hp =>
      if hc : y = y' ∧ x = x' ∧ g = g' ∧ h = h' then
        isTrue (by obtain ⟨e1, e2, e3, e4⟩ := hc; rw [e1, e2, e3, e4, hp])
      else
        isFalse (fun e => by injection e with e1 e2 e3 e4 e5; exact hc ⟨e1, e2, e4, e5⟩)
    | isFalse hp =>
      isFalse (fun e => by
        injection e with e1 e2 e3 e4 e5
        injection e3 with e6
        exact hp e6)

instance : DecidableEq Node := Node.decEq

def Node.y : Node → Int
  | .mk y _ _ _ _ => y

def Node.x : Node → Int
  | .mk _ x _ _ _ => x

def Node.parent : Node → Option Node
  | .mk _ _ p _ _ => p

def Node.gCost : Node → Nat
  | .mk _ _ _ g _ => g

def Node.hCost : Node → Nat
  | .mk _ _ _ _ h => h

/-- `Node.__eq__`: two nodes compare equal exactly when their coordinates
agree (the `isinstance` test is always true in this model, where both
arguments are nodes). -/
def nodeEq (a b : Node) : Bool :=
  a.y == b.y && a.x == b.x

/-- Python's `n in l` membership test on a list of nodes (driven by
`Node.__eq__`). -/
def memNode (n : Node) (l : List Node) : Bool :=
  l.any (fun m => nodeEq n m)

/-- `Node.fCost`. -/
def Node.fCost (n : Node) : Nat :=
  n.gCost + n.hCost

/-- `Node.getNeighbors`: up, right, down, left, then the four diagonals
when diagonal movement is enabled.  Each neighbor's parent is the node
itself; costs start at 0 (the constructor's defaults). -/
def getNeighbors (diagonal : Bool) (n : Node) : List Node :=
  let up := Node.mk (n.y - 1) n.x (some n) 0 0
  let right := Node.mk n.y (n.x + 1) (some n) 0 0
  let down := Node.mk (n.y + 1) n.x (some n) 0 0
  let left := Node.mk n.y (n.x - 1) (some n) 0 0
  if diagonal then
    let ur := Node.mk (n.y - 1) (n.x + 1) (some n) 0 0
    let dr := Node.mk (n.y + 1) (n.x + 1) (some n) 0 0
    let dl := Node.mk (n.y + 1) (n.x - 1) (some n) 0 0
    let ul := Node.mk (n.y - 1) (n.x - 1) (some n) 0 0
    [up, right, down, left, ur, dr, dl, ul]
  else
    [up, right, down, left]

/-- The module-level search configuration: the `START` and `END` nodes and
the `DIAGONAL` movement flag. -/
structure Config : Type where
  START : Node
  END : Node
  DIAGONAL : Bool
deriving DecidableEq

/-- The mutable global state a step works on: `GRID`, `open`, `closed`. -/
structure SearchState : Type where
  grid : Grid
  openL : List Node
  closed : List Node
deriving DecidableEq

/-- `isPath`: the tile under the node is not a wall.  `none` models an
`IndexError` on the grid access. -/
def isPath (g : Grid) (n : Node) : Option Bool :=
  (gridGet g n.y n.x).map (fun v => v != 1)

/-- `HCost`: diagonal distance `max |dy| |dx|` when diagonal movement is
allowed, Manhattan distance `|dy| + |dx|` otherwise. -/
def HCost (cfg : Config) (n : Node) : Nat :=
  let dy := (cfg.END.y - n.y).natAbs
  let dx := (cfg.END.x - n.x).natAbs
  if cfg.DIAGONAL then max dy dx else dy + dx

/-- Python `l.pop()` (for `DFS`): remove and return the last element. -/
def popLast (l : List Node) : Option (Node × List Node) :=
  match l.getLast? with
  | none => none
  | some n => some (n, l.dropLast)

/-- Python `l.pop(0)` (for `BFS`/`Greedy`/`AStar`): remove and return the
first element. -/
def popFront (l : List Node) : Option (Node × List Node) :=
  match l with
  | [] => none
  | n :: rest => some (n, rest)

/-- Insert a node into an already sorted list, after every element whose
key is `≤` its own key (this gives stability). -/
def insertByKey (key : Node → Nat) (n : Node) : List Node → List Node
  | [] => [n]
  | h :: t => if key n ≤ key h then n :: h :: t else h :: insertByKey key n t

/-- Stable sort by a numeric key, modelling Python's stable
`list.sort(key=...)`. -/
def sortByKey (key : Node → Nat) : List Node → List Node
  | [] => []
  | h :: t => insertByKey key h (sortByKey key t)

/-- The Python return values of a step: `False` (failure), `True`
(success), `None` (still searching). -/
inductive StepRes : Type where
  | failure
  | success
  | cont
deriving DecidableEq, Repr

/-- The neighbor admission body shared by `DFS` and `BFS`:
`if isPath(neighbor) and neighbor not in closed and neighbor not in open:
open.append(neighbor); GRID[...] = 4`. -/
def admitPlain (s : SearchState) (nb : Node) : Option SearchState :=
  match isPath s.grid nb with
  | none => none
  | some p =>
    if p && !(memNode nb s.closed) && !(memNode nb s.openL) then
      match gridSet s.grid nb.y nb.x 4 with
      | none => none
      | some g => some { grid := g, openL := s.openL ++ [nb], closed := s.closed }
    else
      some s

/-- The neighbor admission body of `Greedy`: as `admitPlain`, but the
admitted neighbor's `hCost` is computed first. -/
def admitGreedy (cfg : Config) (s : SearchState) (nb : Node) : Option SearchState :=
  match isPath s.grid nb with
  | none => none
  | some p =>
    if p && !(memNode nb s.closed) && !(memNode nb s.openL) then
      let nb2 := Node.mk nb.y nb.x nb.parent nb.gCost (HCost cfg nb)
      match gridSet s.grid nb.y nb.x 4 with
      | none => none
      | some g => some { grid := g, openL := s.openL ++ [nb2], closed := s.closed }
    else
      some s

/-- The neighbor admission body of `AStar`: a candidate not in `closed`
gets `gCost = curr.gCost + 1` and its `hCost`; if its coordinate is
already in `open`, every frontier entry with that coordinate and a
strictly larger `gCost` is replaced in place, otherwise the candidate is
appended and its tile marked 4. -/
def admitAStar (cfg : Config) (curr : Node) (s : SearchState) (nb : Node) :
    Option SearchState :=
  match isPath s.grid nb with
  | none => none
  | some p =>
    if p && !(memNode nb s.closed) then
      let nb2 := Node.mk nb.y nb.x nb.parent (curr.gCost + 1) (HCost cfg nb)
      if memNode nb2 s.openL then
        let newOpen := s.openL.map (fun o =>
          if nodeEq o nb2 && decide (nb2.gCost < o.gCost) then nb2 else o)
        some { grid := s.grid, openL := newOpen, closed := s.closed }
      else
        match gridSet s.grid nb.y nb.x 4 with
        | none => none
        | some g => some { grid := g, openL := s.openL ++ [nb2], closed := s.closed }
    else
      some s

/-- `DFS()`: pop the last frontier entry, close and mark it, stop on the
end node, otherwise admit its unvisited passable neighbors. -/
def DFS (cfg : Config) (s : SearchState) : Option (StepRes × SearchState) :=
  match popLast s.openL with
  | none => some (.failure, s)
  | some (curr, rest) =>
    match gridSet s.grid curr.y curr.x 5 with
    | none => none
    | some g =>
      let s1 : SearchState := { grid := g, openL := rest, closed := s.closed ++ [curr] }
      if nodeEq curr cfg.END then some (.success, s1)
      else
        match (getNeighbors cfg.DIAGONAL curr).foldlM admitPlain s1 with
        | none => none
        | some s2 => some (.cont, s2)

/-- `BFS()`: as `DFS` but popping the first frontier entry. -/
def BFS (cfg : Config) (s : SearchState) : Option (StepRes × SearchState) :=
  match popFront s.openL with
  | none => some (.failure, s)
  | some (curr, rest) =>
    match gridSet s.grid curr.y curr.x 5 with
    | none => none
    | some g =>
      let s1 : SearchState := { grid := g, openL := rest, closed := s.closed ++ [curr] }
      if nodeEq curr cfg.END then some (.success, s1)
      else
        match (getNeighbors cfg.DIAGONAL curr).foldlM admitPlain s1 with
        | none => none
        | some s2 => some (.cont, s2)

/-- `Greedy()`: stable-sort the frontier by `hCost`, then pop the first
entry; admission computes each neighbor's `hCost`. -/
def Greedy (cfg : Config) (s : SearchState) : Option (StepRes × SearchState) :=
  match popFront (sortByKey Node.hCost s.openL) with
  | none => some (.failure, s)
  | some (curr, rest) =>
    match gridSet s.grid curr.y curr.x 5 with
    | none => none
    | some g =>
      let s1 : SearchState := { grid := g, openL := rest, closed := s.closed ++ [curr] }
      if nodeEq curr cfg.END then some (.success, s1)
      else
        match (getNeighbors cfg.DIAGONAL curr).foldlM (admitGreedy cfg) s1 with
        | none => none
        | some s2 => some (.cont, s2)

/-- `AStar()`: stable-sort the frontier by `fCost`, pop the first entry,
and admit neighbors with the A* cost-relaxation rule. -/
def AStar (cfg : Config) (s : SearchState) : Option (StepRes × SearchState) :=
  match popFront (sortByKey Node.fCost s.openL) with
  | none => some (.failure, s)
  | some (curr, rest) =>
    match gridSet s.grid curr.y curr.x 5 with
    | none => none
    | some g =>
      let s1 : SearchState := { grid := g, openL := rest, closed := s.closed ++ [curr] }
      if nodeEq curr cfg.END then some (.success, s1)
      else
        match (getNeighbors cfg.DIAGONAL curr).foldlM (admitAStar cfg curr) s1 with
        | none => none
        | some s2 => some (.cont, s2)

/-- The four interchangeable strategies. -/
inductive Strat : Type where
  | dfs
  | bfs
  | greedy
  | astar
deriving DecidableEq, Repr

/-- Dispatch to the step function of the selected strategy (the
`ALGORITHM` global). -/
def strategyStep (strat : Strat) (cfg : Config) (s : SearchState) :
    Option (StepRes × SearchState) :=
  match strat with
  | .dfs => DFS cfg s
  | .bfs => BFS cfg s
  | .greedy => Greedy cfg s
  | .astar => AStar cfg s

/-- Iterate `n` calls of the selected step function, threading the state
(the driver's `found = ALGORITHM()` loop, ignoring the reported result). -/
def iterSteps (strat : Strat) (cfg : Config) : Nat → SearchState → Option SearchState
  | 0, s => some s
  | n + 1, s =>
    match strategyStep strat cfg s with
    | none => none
    | some (_, s') => iterSteps strat cfg n s'

/-- The loop body of `reconstructPath`: while the current node has a
parent, mark its tile 6, then look up the first closed node equal (by
coordinates) to the parent and continue from it.  `fuel` bounds the
number of iterations; running out of fuel (`none`) models the infinite
loop the Python `while` would enter if the parent were never found. -/
def reconWalk (closed : List Node) : Nat → Node → Grid → Option Grid
  | _, Node.mk _ _ none _ _, g => some g
  | 0, _, _ => none
  | fuel + 1, Node.mk y x (some p) gc hc, g =>
    match gridSet g y x 6 with
    | none => none
    | some g1 =>
      match closed.find? (fun node => nodeEq p node) with
      | none => none
      | some node => reconWalk closed fuel node g1

/-- The walk of `reconstructPath` as the list of nodes it passes through,
starting at the initially popped node and ending at the parentless node. -/
def chainWalk (closed : List Node) : Nat → Node → Option (List Node)
  | _, Node.mk y x none gc hc => some [Node.mk y x none gc hc]
  | 0, _ => none
  | fuel + 1, Node.mk y x (some p) gc hc =>
    match closed.find? (fun node => nodeEq p node) with
    | none => none
    | some node => (chainWalk closed fuel node).map (Node.mk y x (some p) gc hc :: ·)

/-- `reconstructPath()`: pop the last visited node, walk the discoverer
chain marking tiles 6, then re-assert the start and end tiles. -/
def reconstructPath (cfg : Config) (s : SearchState) : Option Grid :=
  match popLast s.closed with
  | none => none
  | some (curr, rest) =>
    match reconWalk rest rest.length curr s.grid with
    | none => none
    | some g1 =>
      match gridSet g1 cfg.START.y cfg.START.x 2 with
      | none => none
      | some g2 => gridSet g2 cfg.END.y cfg.END.x 3

/-- The interior coordinate pairs `(y, x)` with `1 ≤ y ≤ H-2`,
`1 ≤ x ≤ W-2`, enumerated column-major (`x` outer, `y` inner) as in the
source's `for x in range(1, GRID_WIDTH - 1): for y in range(1, ...)`
loops. -/
def interiorSweep (W H : Nat) : List (Int × Int) :=
  ((List.range (W - 2)).map (fun x => (x : Int) + 1)).flatMap
    (fun x => ((List.range (H - 2)).map (fun y => (y : Int) + 1)).map (fun y => (y, x)))

/-- The default grid of `main`: all 0, then each top/bottom border row
cell and each left/right border column cell is set to 1 by the two loops,
then the start tile `(1,1)` is set to 2 and the end tile `(H-2, W-2)` to
3 (via `setStart(1, 1)` and `setEnd(GRID_WIDTH - 2, GRID_HEIGHT - 2)`). -/
def initGrid (W H : Nat) : Option Grid :=
  let g0 : Grid := List.replicate H (List.replicate W 0)
  ((List.range W).foldlM (fun g x =>
      (gridSet g 0 (x : Int) 1).bind (fun ga => gridSet ga ((H : Int) - 1) (x : Int) 1)) g0).bind
    (fun g1 =>
      ((List.range H).foldlM (fun g y =>
          (gridSet g (y : Int) 0 1).bind (fun ga => gridSet ga (y : Int) ((W : Int) - 1) 1)) g1).bind
        (fun g2 =>
          (gridSet g2 1 1 2).bind (fun g3 => gridSet g3 ((H : Int) - 2) ((W : Int) - 2) 3)))

/-- `inGrid`: strict interior test. -/
def inGrid (W H : Nat) (x y : Int) : Bool :=
  (0 < x && x < (W : Int) - 1) && (0 < y && y < (H : Int) - 1)

/-- The grid mutation core of `mouseHandler`: paint a wall (left click,
`clickType = 1`) or a path (right click, `clickType = 3`) on an in-grid
tile currently holding 0 or 1. -/
def mouseWall (W H : Nat) (g : Grid) (y x : Int) (clickType : Nat) : Option Grid :=
  if inGrid W H x y then
    match gridGet g y x with
    | none => none
    | some v =>
      if v = 0 ∨ v = 1 then
        if clickType = 1 then gridSet g y x 1
        else if clickType = 3 then gridSet g y x 0
        else some g
      else some g
  else some g

/-- `clear()`: set every interior tile to 0, then re-assert the start and
end tiles. -/
def clear (cfg : Config) (W H : Nat) (g : Grid) : Option Grid :=
  match (interiorSweep W H).foldlM (fun g2 yx => gridSet g2 yx.1 yx.2 0) g with
  | none => none
  | some g1 =>
    match gridSet g1 cfg.START.y cfg.START.x 2 with
    | none => none
    | some g2 => gridSet g2 cfg.END.y cfg.END.x 3

/-- The grid sweep shared by `reset()` and `start()`: every interior tile
holding 4, 5 or 6 is set back to 0, then the start and end tiles are
re-asserted. -/
def resetSweep (cfg : Config) (W H : Nat) (g : Grid) : Option Grid :=
  match (interiorSweep W H).foldlM (fun g2 yx =>
      match gridGet g2 yx.1 yx.2 with
      | none => none
      | some v => if v = 4 ∨ v = 5 ∨ v = 6 then gridSet g2 yx.1 yx.2 0 else some g2) g with
  | none => none
  | some g1 =>
    match gridSet g1 cfg.START.y cfg.START.x 2 with
    | none => none
    | some g2 => gridSet g2 cfg.END.y cfg.END.x 3

/-- `reset()` / `start()` state effect: frontier reseeded with the start
node, visited emptied, search tiles wiped (the two functions differ only
in the final `searching` flag, which has no bearing on the search state). -/
def seedRun (cfg : Config) (W H : Nat) (g : Grid) : Option SearchState :=
  match resetSweep cfg W H g with
  | none => none
  | some g1 => some { grid := g1, openL := [cfg.START], closed := [] }

/-- A freshly seeded run: the frontier holds exactly the start node and
the visited sequence is empty (the state `start()` leaves behind). -/
def Seeded (cfg : Config) (s : SearchState) : Prop :=
  s.openL = [cfg.START] ∧ s.closed = []

/-! ## Derived notions used to state the claims -/

/-- The coordinate pairs of a list of nodes, in order (the identity under
which `Node.__eq__` compares). -/
def coordsOf (l : List Node) : List (Int × Int) :=
  l.map (fun n => (n.y, n.x))

/-- Length of the discoverer chain hanging off a node: 0 for a parentless
node, one more than the parent's depth otherwise.  This is the number of
edges of the backpointer chain from the node back to the start. -/
def Node.depth : Node → Nat
  | .mk _ _ none _ _ => 0
  | .mk _ _ (some p) _ _ => p.depth + 1

/-- The grid has `H` rows of `W` cells each. -/
def dimsOK (g : Grid) (W H : Nat) : Prop :=
  g.length = H ∧ ∀ row ∈ g, row.length = W

/-- `(y, x)` lies in the grid, i.e. in `[0, H-1] × [0, W-1]`. -/
def InBoundsC (W H : Nat) (y x : Int) : Prop :=
  0 ≤ y ∧ y < (H : Int) ∧ 0 ≤ x ∧ x < (W : Int)

/-- `(y, x)` lies strictly inside the border, i.e. in
`[1, H-2] × [1, W-2]` (the `inGrid` region). -/
def InteriorC (W H : Nat) (y x : Int) : Prop :=
  0 < y ∧ y < (H : Int) - 1 ∧ 0 < x ∧ x < (W : Int) - 1

/-- Every border cell of the grid holds a wall (value 1). -/
def BorderWalls (W H : Nat) (g : Grid) : Prop :=
  ∀ y x : Int, InBoundsC W H y x →
    (y = 0 ∨ y = (H : Int) - 1 ∨ x = 0 ∨ x = (W : Int) - 1) →
    gridGet g y x = some 1

/-- Orthogonal adjacency of coordinate pairs (the four unit moves). -/
def adjO (a b : Int × Int) : Prop :=
  (b.1 = a.1 - 1 ∧ b.2 = a.2) ∨ (b.1 = a.1 ∧ b.2 = a.2 + 1) ∨
  (b.1 = a.1 + 1 ∧ b.2 = a.2) ∨ (b.1 = a.1 ∧ b.2 = a.2 - 1)

/-- The cell at a coordinate pair exists and is not a wall. -/
def passableG (g : Grid) (c : Int × Int) : Prop :=
  ∃ v, gridGet g c.1 c.2 = some v ∧ v ≠ 1

/-- `ReachN g n a b`: there is a passable orthogonal path of `n` edges
from `a` to `b` (every cell on it, endpoints included, passable in `g`).
This is the specification-side notion of a "true shortest passable
orthogonal path": `IsLeast {n | ReachN g n a b} d` says `d` is its
length. -/
inductive ReachN (g : Grid) : Nat → (Int × Int) → (Int × Int) → Prop where
  | refl (a : Int × Int) (h : passableG g a) : ReachN g 0 a a
  | step (a b c : Int × Int) (n : Nat) (ha : passableG g a) (hadj : adjO a b)
      (hr : ReachN g n b c) : ReachN g (n + 1) a c

/-! ## Basic lemmas: nodes, membership, Python indexing -/

@[simp] theorem Node.y_mk (y x : Int) (p : Option Node) (g h : Nat) :
    (Node.mk y x p g h).y = y := rfl

@[simp] theorem Node.x_mk (y x : Int) (p : Option Node) (g h : Nat) :
    (Node.mk y x p g h).x = x := rfl

@[simp] theorem Node.parent_mk (y x : Int) (p : Option Node) (g h : Nat) :
    (Node.mk y x p g h).parent = p := rfl

@[simp] theorem Node.gCost_mk (y x : Int) (p : Option Node) (g h : Nat) :
    (Node.mk y x p g h).gCost = g := rfl

@[simp] theorem Node.hCost_mk (y x : Int) (p : Option Node) (g h : Nat) :
    (Node.mk y x p g h).hCost = h := rfl

theorem Node.depth_parent_none {n : Node} (h : n.parent = none) : n.depth = 0 := by
  cases n with
  | mk y x p g hh => cases p with
    | none => rfl
    | some q => simp [Node.parent] at h

theorem Node.depth_parent_some {n p : Node} (h : n.parent = some p) :
    n.depth = p.depth + 1 := by
  cases n with
  | mk y x q g hh => cases q with
    | none => simp [Node.parent] at h
    | some q => simp [Node.parent] at h; subst h; rfl

theorem nodeEq_iff {a b : Node} : nodeEq a b = true ↔ a.y = b.y ∧ a.x = b.x := by
  simp [nodeEq]

theorem nodeEq_refl (a : Node) : nodeEq a a = true := by simp [nodeEq]

theorem nodeEq_symm {a b : Node} (h : nodeEq a b = true) : nodeEq b a = true := by
  rw [nodeEq_iff] at h ⊢; exact ⟨h.1.symm, h.2.symm⟩

theorem memNode_iff {n : Node} {l : List Node} :
    memNode n l = true ↔ (n.y, n.x) ∈ coordsOf l := by
  simp only [memNode, List.any_eq_true, coordsOf, List.mem_map]
  constructor
  · rintro ⟨m, hm, he⟩
    rw [nodeEq_iff] at he
    exact ⟨m, hm, by rw [he.1, he.2]⟩
  · rintro ⟨m, hm, he⟩
    refine ⟨m, hm, ?_⟩
    rw [nodeEq_iff]
    have h1 := congrArg Prod.fst he
    have h2 := congrArg Prod.snd he
    simp only [] at h1 h2
    exact ⟨h1.symm, h2.symm⟩

theorem memNode_append {n : Node} {l l2 : List Node} :
    memNode n (l ++ l2) = (memNode n l || memNode n l2) := by
  simp [memNode]

theorem coordsOf_append (l l2 : List Node) :
    coordsOf (l ++ l2) = coordsOf l ++ coordsOf l2 := by
  simp [coordsOf]

theorem pyIdx_of_nonneg {len : Nat} {i : Int} (h0 : 0 ≤ i) (h1 : i < (len : Int)) :
    pyIdx len i = some i.toNat := by
  unfold pyIdx
  rw [if_pos h0, if_pos h1]

theorem pyGet_of_nonneg {α : Type} {l : List α} {i : Int} (h0 : 0 ≤ i)
    (h1 : i < (l.length : Int)) : pyGet l i = l.get? i.toNat := by
  unfold pyGet
  rw [pyIdx_of_nonneg h0 h1, Option.some_bind]

theorem pySet_of_nonneg {α : Type} {l : List α} {i : Int} {v : α} (h0 : 0 ≤ i)
    (h1 : i < (l.length : Int)) : pySet l i v = some (l.set i.toNat v) := by
  unfold pySet
  rw [pyIdx_of_nonneg h0 h1, Option.map_some']

theorem pyGet_isSome_bounds {α : Type} {l : List α} {i : Int} {a : α} (h0 : 0 ≤ i)
    (h : pyGet l i = some a) : i < (l.length : Int) := by
  by_contra hge
  push_neg at hge
  unfold pyGet pyIdx at h
  rw [if_pos h0, if_neg (not_lt.mpr hge)] at h
  simp at h

theorem pyGet_inv {α : Type} {l : List α} {i : Int} {a : α} (h0 : 0 ≤ i)
    (h : pyGet l i = some a) : i < (l.length : Int) ∧ l.get? i.toNat = some a := by
  have hb := pyGet_isSome_bounds h0 h
  rw [pyGet_of_nonneg h0 hb] at h
  exact ⟨hb, h⟩

theorem pySet_inv {α : Type} {l : List α} {i : Int} {v : α} {l2 : List α} (h0 : 0 ≤ i)
    (h : pySet l i v = some l2) : i < (l.length : Int) ∧ l2 = l.set i.toNat v := by
  by_cases hb : i < (l.length : Int)
  · rw [pySet_of_nonneg h0 hb] at h
    exact ⟨hb, (Option.some_inj.mp h).symm⟩
  · exfalso
    unfold pySet pyIdx at h
    rw [if_pos h0, if_neg hb] at h
    simp at h

/-- Inversion of a successful `gridSet` at non-negative coordinates. -/
theorem gridSet_inv {g : Grid} {y x : Int} {v : Nat} {g2 : Grid} (h0y : 0 ≤ y)
    (h0x : 0 ≤ x) (h : gridSet g y x v = some g2) :
    ∃ row, pyGet g y = some row ∧ y < (g.length : Int) ∧ x < (row.length : Int) ∧
      g2 = g.set y.toNat (row.set x.toNat v) := by
  unfold gridSet at h
  cases hrow : pyGet g y with
  | none => rw [hrow] at h; simp at h
  | some row =>
    rw [hrow, Option.some_bind] at h
    cases hrow2 : pySet row x v with
    | none => rw [hrow2] at h; simp at h
    | some row2 =>
      rw [hrow2, Option.some_bind] at h
      obtain ⟨hxb, hrow2eq⟩ := pySet_inv h0x hrow2
      obtain ⟨hyb, hg2⟩ := pySet_inv h0y h
      exact ⟨row, rfl, hyb, hxb, by rw [hg2, hrow2eq]⟩

theorem toNat_inj_of_nonneg {a b : Int} (ha : 0 ≤ a) (hb : 0 ≤ b)
    (h : a.toNat = b.toNat) : a = b := by
  omega

/-- Reading back the cell just written. -/
theorem gridGet_gridSet_self {g : Grid} {y x : Int} {v : Nat} {g2 : Grid} (h0y : 0 ≤ y)
    (h0x : 0 ≤ x) (h : gridSet g y x v = some g2) : gridGet g2 y x = some v := by
  obtain ⟨row, hrow, hyb, hxb, hg2⟩ := gridSet_inv h0y h0x h
  obtain ⟨_, hget⟩ := pyGet_inv h0y hrow
  unfold gridGet
  have hlen : g2.length = g.length := by rw [hg2, List.length_set]
  have hyb2 : y < (g2.length : Int) := by rw [hlen]; exact hyb
  rw [pyGet_of_nonneg h0y hyb2, hg2]
  have hyn : y.toNat < g.length := by omega
  rw [List.get?_set_eq_of_lt _ hyn, Option.some_bind]
  have hxlen : ((row.set x.toNat v).length : Int) = (row.length : Int) := by
    rw [List.length_set]
  rw [pyGet_of_nonneg h0x (by rw [hxlen]; exact hxb)]
  have hxn : x.toNat < row.length := by omega
  rw [List.get?_set_eq_of_lt _ hxn]

/-- A written grid is unchanged at every other non-negative coordinate. -/
theorem gridGet_gridSet_ne {g : Grid} {y x : Int} {v : Nat} {g2 : Grid} (h0y : 0 ≤ y)
    (h0x : 0 ≤ x) (h : gridSet g y x v = some g2) {y2 x2 : Int} (h0y2 : 0 ≤ y2)
    (h0x2 : 0 ≤ x2) (hne : ¬(y2 = y ∧ x2 = x)) : gridGet g2 y2 x2 = gridGet g y2 x2 := by
  obtain ⟨row, hrow, hyb, hxb, hg2⟩ := gridSet_inv h0y h0x h
  obtain ⟨_, hget⟩ := pyGet_inv h0y hrow
  unfold gridGet
  have hlen : g2.length = g.length := by rw [hg2, List.length_set]
  by_cases hyy : y2 < (g.length : Int)
  · rw [pyGet_of_nonneg h0y2 (by rw [hlen]; exact hyy), pyGet_of_nonneg h0y2 hyy]
    by_cases hyeq : y2 = y
    · subst hyeq
      have hx2ne : x2 ≠ x := fun hx => hne ⟨rfl, hx⟩
      rw [hg2]
      have hyn : y2.toNat < g.length := by omega
      rw [List.get?_set_eq_of_lt _ hyn]
      rw [hget, Option.some_bind, Option.some_bind]
      unfold pyGet
      have hrl : (row.set x.toNat v).length = row.length := List.length_set ..
      rw [hrl]
      cases hpi : pyIdx row.length x2 with
      | none => rfl
      | some j =>
        have hj : j = x2.toNat := by
          unfold pyIdx at hpi
          rw [if_pos h0x2] at hpi
          by_cases hxb2 : x2 < (row.length : Int)
          · rw [if_pos hxb2] at hpi; exact (Option.some_inj.mp hpi).symm
          · rw [if_neg hxb2] at hpi; simp at hpi
        subst hj
        rw [Option.some_bind, Option.some_bind]
        have hne2 : x2.toNat ≠ x.toNat := fun hx =>
          hx2ne (toNat_inj_of_nonneg h0x2 h0x hx)
        rw [List.get?_set_ne _ _ (fun hc => hne2 hc.symm)]
    · have hne2 : y2.toNat ≠ y.toNat := fun hy => hyeq (toNat_inj_of_nonneg h0y2 h0y hy)
      rw [hg2, List.get?_set_ne _ _ (fun hc => hne2 hc.symm)]
  · unfold pyGet pyIdx
    rw [hlen]
    rw [if_pos h0y2, if_neg (by omega)]
    rfl

/-- A written grid keeps its dimensions. -/
theorem gridSet_dims {g : Grid} {y x : Int} {v : Nat} {g2 : Grid} {W H : Nat}
    (h0y : 0 ≤ y) (h0x : 0 ≤ x) (h : gridSet g y x v = some g2) (hd : dimsOK g W H) :
    dimsOK g2 W H := by
  obtain ⟨row, hrow, hyb, hxb, hg2⟩ := gridSet_inv h0y h0x h
  obtain ⟨_, hget⟩ := pyGet_inv h0y hrow
  constructor
  · rw [hg2, List.length_set]; exact hd.1
  · intro r hr
    rw [hg2] at hr
    rcases List.mem_or_eq_of_mem_set hr with hmem | heq
    · exact hd.2 r hmem
    · rw [heq, List.length_set]
      exact hd.2 row (List.get?_mem hget)

/-- An in-bounds cell of a well-dimensioned grid can be read... -/
theorem gridGet_total {g : Grid} {W H : Nat} (hd : dimsOK g W H) {y x : Int}
    (hb : InBoundsC W H y x) : ∃ v, gridGet g y x = some v := by
  obtain ⟨h0y, hyH, h0x, hxW⟩ := hb
  have hyb : y < (g.length : Int) := by rw [hd.1]; exact hyH
  unfold gridGet
  rw [pyGet_of_nonneg h0y hyb]
  have hyn : y.toNat < g.length := by omega
  obtain ⟨row, hrow⟩ : ∃ row, g.get? y.toNat = some row :=
    ⟨g.get ⟨y.toNat, hyn⟩, List.get?_eq_get hyn⟩
  rw [hrow, Option.some_bind]
  have hrl : row.length = W := hd.2 row (List.get?_mem hrow)
  have hxb : x < (row.length : Int) := by rw [hrl]; exact hxW
  rw [pyGet_of_nonneg h0x hxb]
  have hxn : x.toNat < row.length := by omega
  exact ⟨row.get ⟨x.toNat, hxn⟩, List.get?_eq_get hxn⟩

/-! ## Sorting, popping and neighbor generation -/

theorem insertByKey_perm (key : Node → Nat) (n : Node) (l : List Node) :
    (insertByKey key n l).Perm (n :: l) := by
  induction l with
  | nil => simp [insertByKey]
  | cons h t ih =>
    unfold insertByKey
    by_cases hle : key n ≤ key h
    · rw [if_pos hle]
    · rw [if_neg hle]
      exact (List.Perm.cons h ih).trans (List.Perm.swap n h t)

theorem sortByKey_perm (key : Node → Nat) (l : List Node) :
    (sortByKey key l).Perm l := by
  induction l with
  | nil => simp [sortByKey]
  | cons h t ih =>
    unfold sortByKey
    exact ((insertByKey_perm key h (sortByKey key t)).trans (List.Perm.cons h ih))

theorem insertByKey_sorted (key : Node → Nat) (n : Node) (l : List Node)
    (hs : List.Pairwise (fun a b => key a ≤ key b) l) :
    List.Pairwise (fun a b => key a ≤ key b) (insertByKey key n l) := by
  induction l with
  | nil => simp [insertByKey]
  | cons h t ih =>
    unfold insertByKey
    by_cases hle : key n ≤ key h
    · rw [if_pos hle]
      refine List.Pairwise.cons ?_ hs
      intro b hb
      rcases List.mem_cons.mp hb with hb2 | hb2
      · subst hb2; exact hle
      · exact le_trans hle ((List.pairwise_cons.mp hs).1 b hb2)
    · rw [if_neg hle]
      rw [List.pairwise_cons] at hs
      refine List.Pairwise.cons ?_ (ih hs.2)
      intro b hb
      have hmem := (insertByKey_perm key n t).mem_iff.mp hb
      rcases List.mem_cons.mp hmem with hb2 | hb2
      · subst hb2; exact le_of_not_le hle
      · exact hs.1 b hb2

theorem sortByKey_sorted (key : Node → Nat) (l : List Node) :
    List.Pairwise (fun a b => key a ≤ key b) (sortByKey key l) := by
  induction l with
  | nil => simp [sortByKey]
  | cons h t ih => exact insertByKey_sorted key h (sortByKey key t) ih

/-- The head of the stable sort is the first occurrence of the minimal
key: it achieves the minimum, and every strictly earlier element of the
input list has a strictly larger key. -/
theorem sortByKey_head (key : Node → Nat) (l : List Node) (curr : Node)
    (rest : List Node) (h : sortByKey key l = curr :: rest) :
    (∀ m ∈ l, key curr ≤ key m) ∧
    ∃ i : Nat, l.get? i = some curr ∧
      ∀ j, j < i → ∀ a, l.get? j = some a → key curr < key a := by
  induction l generalizing curr rest with
  | nil => simp [sortByKey] at h
  | cons hd t ih =>
    rw [show sortByKey key (hd :: t) = insertByKey key hd (sortByKey key t) from rfl] at h
    cases hst : sortByKey key t with
    | nil =>
      have ht : t = [] := List.eq_nil_of_length_eq_zero (by
        have hpl := (sortByKey_perm key t).length_eq
        rw [hst] at hpl
        exact hpl.symm)
      subst ht
      rw [hst] at h
      unfold insertByKey at h
      have hcurr : hd = curr := by injection h
      subst hcurr
      refine ⟨fun m hm => ?_, 0, rfl, fun j hj a ha => absurd hj (Nat.not_lt_zero j)⟩
      rcases List.mem_cons.mp hm with hm2 | hm2
      · rw [hm2]
      · simp at hm2
    | cons m t2 =>
      rw [hst] at h
      unfold insertByKey at h
      obtain ⟨hmin, i, hi, hstrict⟩ := ih m t2 hst
      by_cases hle : key hd ≤ key m
      · rw [if_pos hle] at h
        have hcurr : hd = curr := by injection h
        subst hcurr
        refine ⟨fun mm hmm => ?_, 0, rfl, fun j hj a ha => absurd hj (Nat.not_lt_zero j)⟩
        rcases List.mem_cons.mp hmm with hmm2 | hmm2
        · rw [hmm2]
        · exact le_trans hle (hmin mm hmm2)
      · rw [if_neg hle] at h
        have hcurr : m = curr := by injection h
        subst hcurr
        refine ⟨fun mm hmm => ?_, i + 1, ?_, fun j hj a ha => ?_⟩
        · rcases List.mem_cons.mp hmm with hmm2 | hmm2
          · subst hmm2; exact le_of_not_le hle
          · exact hmin mm hmm2
        · rw [List.get?_cons_succ]; exact hi
        · cases j with
          | zero =>
            rw [List.get?_cons_zero] at ha
            have hahd : hd = a := by injection ha
            subst hahd
            exact lt_of_not_le hle
          | succ j2 =>
            rw [List.get?_cons_succ] at ha
            exact hstrict j2 (by omega) a ha

theorem sortByKey_ne_nil (key : Node → Nat) {l : List Node} (h : l ≠ []) :
    sortByKey key l ≠ [] := by
  intro hc
  have := (sortByKey_perm key l).length_eq
  rw [hc] at this
  exact h (List.eq_nil_of_length_eq_zero this.symm)

theorem popLast_perm {l : List Node} {curr : Node} {rest : List Node}
    (h : popLast l = some (curr, rest)) : l.Perm (curr :: rest) ∧ curr ∈ l := by
  unfold popLast at h
  cases hl : l.getLast? with
  | none => rw [hl] at h; simp at h
  | some n =>
    rw [hl] at h
    injection h with h2
    injection h2 with hn hr
    subst hn
    subst hr
    have hne : l ≠ [] := by
      intro hc
      rw [hc] at hl
      simp at hl
    have hlast : l.getLast hne = n := by
      rw [List.getLast?_eq_getLast l hne] at hl
      injection hl
    have hsplit : l.dropLast ++ [n] = l := by
      conv_rhs => rw [← List.dropLast_append_getLast hne]
      rw [hlast]
    constructor
    · have hperm : (l.dropLast ++ [n]).Perm (n :: l.dropLast) := List.perm_append_comm
      rw [hsplit] at hperm
      exact hperm
    · rw [← hsplit]
      exact List.mem_append_right _ (List.mem_singleton.mpr rfl)

/-- ... and written. -/
theorem gridSet_total {g : Grid} {W H : Nat} (hd : dimsOK g W H) {y x : Int}
    (hb : InBoundsC W H y x) (v : Nat) : ∃ g2, gridSet g y x v = some g2 := by
  obtain ⟨h0y, hyH, h0x, hxW⟩ := hb
  have hyb : y < (g.length : Int) := by rw [hd.1]; exact hyH
  unfold gridSet
  rw [pyGet_of_nonneg h0y hyb]
  have hyn : y.toNat < g.length := by omega
  obtain ⟨row, hrow⟩ : ∃ row, g.get? y.toNat = some row :=
    ⟨g.get ⟨y.toNat, hyn⟩, List.get?_eq_get hyn⟩
  rw [hrow, Option.some_bind]
  have hrl : row.length = W := hd.2 row (List.get?_mem hrow)
  have hxb : x < (row.length : Int) := by rw [hrl]; exact hxW
  rw [pySet_of_nonneg h0x hxb, Option.some_bind]
  unfold pySet
  rw [pyIdx_of_nonneg h0y hyb, Option.map_some']
  exact ⟨_, rfl⟩

/-! ## Neighbor generation lemmas -/

theorem coordsOf_getNeighbors_false (curr : Node) :
    coordsOf (getNeighbors false curr) =
      [(curr.y - 1, curr.x), (curr.y, curr.x + 1), (curr.y + 1, curr.x),
       (curr.y, curr.x - 1)] := by
  simp [getNeighbors, coordsOf]

theorem coordsOf_getNeighbors_true (curr : Node) :
    coordsOf (getNeighbors true curr) =
      [(curr.y - 1, curr.x), (curr.y, curr.x + 1), (curr.y + 1, curr.x),
       (curr.y, curr.x - 1), (curr.y - 1, curr.x + 1), (curr.y + 1, curr.x + 1),
       (curr.y + 1, curr.x - 1), (curr.y - 1, curr.x - 1)] := by
  simp [getNeighbors, coordsOf]

theorem getNeighbors_spec (d : Bool) (curr : Node) :
    ∀ nb ∈ getNeighbors d curr, nb.parent = some curr ∧
      curr.y - 1 ≤ nb.y ∧ nb.y ≤ curr.y + 1 ∧ curr.x - 1 ≤ nb.x ∧ nb.x ≤ curr.x + 1 := by
  intro nb h
  cases d
  · simp only [getNeighbors, Bool.false_eq_true, if_false, List.mem_cons,
      List.not_mem_nil, or_false] at h
    rcases h with h | h | h | h <;> subst h <;>
      exact ⟨rfl, by simp only [Node.y_mk, Node.x_mk]; omega,
        by simp only [Node.y_mk, Node.x_mk]; omega,
        by simp only [Node.y_mk, Node.x_mk]; omega,
        by simp only [Node.y_mk, Node.x_mk]; omega⟩
  · simp only [getNeighbors, if_true, List.mem_cons, List.not_mem_nil, or_false] at h
    rcases h with h | h | h | h | h | h | h | h <;> subst h <;>
      exact ⟨rfl, by simp only [Node.y_mk, Node.x_mk]; omega,
        by simp only [Node.y_mk, Node.x_mk]; omega,
        by simp only [Node.y_mk, Node.x_mk]; omega,
        by simp only [Node.y_mk, Node.x_mk]; omega⟩

theorem getNeighbors_inBounds {W H : Nat} {d : Bool} {curr : Node}
    (hc : InteriorC W H curr.y curr.x) :
    ∀ nb ∈ getNeighbors d curr, InBoundsC W H nb.y nb.x := by
  intro nb h
  obtain ⟨_, h1, h2, h3, h4⟩ := getNeighbors_spec d curr nb h
  obtain ⟨c1, c2, c3, c4⟩ := hc
  exact ⟨by omega, by omega, by omega, by omega⟩

theorem getNeighbors_coords_nodup (d : Bool) (curr : Node) :
    (coordsOf (getNeighbors d curr)).Nodup := by
  cases d
  · rw [coordsOf_getNeighbors_false]
    simp [List.nodup_cons, Prod.ext_iff]
    omega
  · rw [coordsOf_getNeighbors_true]
    simp [List.nodup_cons, Prod.ext_iff]
    omega

/-- With diagonal movement off, the generated neighbor coordinates are
exactly the orthogonally adjacent coordinates. -/
theorem getNeighbors_false_adj (curr : Node) (c : Int × Int) :
    c ∈ coordsOf (getNeighbors false curr) ↔ adjO (curr.y, curr.x) c := by
  rw [coordsOf_getNeighbors_false]
  simp [adjO, Prod.ext_iff]

/-! ## Reads after writes, `isPath` and `memNode` congruences -/

theorem gridGet_norm (g : Grid) (y x : Int) :
    gridGet g y x = (pyIdx g.length y).bind
      (fun j => (g.get? j).bind
        (fun row => (pyIdx row.length x).bind row.get?)) := by
  unfold gridGet pyGet
  exact Option.bind_assoc _ _ _

/-- Any read of a written grid either sees the old grid unchanged or sees
the written value at the written cell (possibly through Python's negative
index wrap). -/
theorem gridGet_gridSet_cases {g : Grid} {y x : Int} {v : Nat} {g2 : Grid}
    (h0y : 0 ≤ y) (h0x : 0 ≤ x) (h : gridSet g y x v = some g2) (y2 x2 : Int) :
    gridGet g2 y2 x2 = gridGet g y2 x2 ∨
      (gridGet g2 y2 x2 = some v ∧ gridGet g y2 x2 = gridGet g y x) := by
  obtain ⟨row, hrow, hyb, hxb, hg2⟩ := gridSet_inv h0y h0x h
  obtain ⟨_, hget⟩ := pyGet_inv h0y hrow
  have hyn : y.toNat < g.length := by omega
  have hxn : x.toNat < row.length := by omega
  have hlen : g2.length = g.length := by rw [hg2, List.length_set]
  have hyx : gridGet g y x = row.get? x.toNat := by
    rw [gridGet_norm, pyIdx_of_nonneg h0y hyb, Option.some_bind, hget,
      Option.some_bind, pyIdx_of_nonneg h0x hxb, Option.some_bind]
  rw [gridGet_norm g2, gridGet_norm g, hlen, hyx]
  cases hj : pyIdx g.length y2 with
  | none => left; rfl
  | some j =>
    simp only [Option.some_bind]
    by_cases hjy : j = y.toNat
    · subst hjy
      rw [hg2, List.get?_set_eq_of_lt _ hyn, hget]
      simp only [Option.some_bind, List.length_set]
      cases hk : pyIdx row.length x2 with
      | none => left; rfl
      | some k =>
        simp only [Option.some_bind]
        by_cases hkx : k = x.toNat
        · subst hkx
          right
          exact ⟨List.get?_set_eq_of_lt _ hxn, rfl⟩
        · left
          rw [List.get?_set_ne _ _ (fun hc => hkx hc.symm)]
    · rw [hg2, List.get?_set_ne _ _ (fun hc => hjy hc.symm)]
      left
      rfl

/-- `isPath` only looks at the node's coordinates. -/
theorem isPath_coords {g : Grid} {n m : Node} (hy : n.y = m.y) (hx : n.x = m.x) :
    isPath g n = isPath g m := by
  unfold isPath
  rw [hy, hx]

/-- Writing a non-wall value over a non-wall cell does not change the
passability of any node. -/
theorem isPath_gridSet_nonwall {g : Grid} {y x : Int} {v : Nat} {g2 : Grid}
    (h0y : 0 ≤ y) (h0x : 0 ≤ x) (h : gridSet g y x v = some g2) (hv : v ≠ 1)
    {w : Nat} (hold : gridGet g y x = some w) (hw : w ≠ 1) :
    ∀ n : Node, isPath g2 n = isPath g n := by
  intro n
  unfold isPath
  rcases gridGet_gridSet_cases h0y h0x h n.y n.x with hc | ⟨hc1, hc2⟩
  · rw [hc]
  · rw [hc1, hc2, hold]
    simp only [Option.map_some']
    have hv2 : (v != 1) = true := by simp [hv]
    have hw2 : (w != 1) = true := by simp [hw]
    rw [hv2, hw2]

theorem memNode_of_mem {n : Node} {l : List Node} (h : n ∈ l) : memNode n l = true := by
  unfold memNode
  rw [List.any_eq_true]
  exact ⟨n, h, nodeEq_refl n⟩

theorem memNode_coords {n m : Node} (hy : n.y = m.y) (hx : n.x = m.x) (l : List Node) :
    memNode n l = memNode m l := by
  unfold memNode
  congr 1
  funext a
  unfold nodeEq
  rw [hy, hx]

theorem memNode_false_coords {n : Node} {l : List Node}
    (h : memNode n l = false) {m : Node} (hm : m ∈ l) : ¬(m.y = n.y ∧ m.x = n.x) := by
  rintro ⟨hy, hx⟩
  have hmem : memNode n l = true := by
    unfold memNode
    rw [List.any_eq_true]
    exact ⟨m, hm, by rw [nodeEq_iff]; exact ⟨hy.symm, hx.symm⟩⟩
  rw [h] at hmem
  exact Bool.false_ne_true hmem

/-! ## The admission fold: shared specification -/

/-- What one pass of the neighbor-admission loop guarantees: starting
from state `t` and processing the candidate list `L`, the loop appends
the sublist `A` of admitted nodes to the frontier, leaves the visited
list alone, marks exactly the admitted tiles 4, and admits a candidate
precisely when it is passable and in neither collection. -/
structure AdmitPost (L : List Node) (t : SearchState) (A : List Node)
    (t2 : SearchState) : Prop where
  closed_eq : t2.closed = t.closed
  open_eq : t2.openL = t.openL ++ A
  a_src : ∀ nb2 ∈ A, ∃ nb ∈ L, nb2.y = nb.y ∧ nb2.x = nb.x ∧ nb2.parent = nb.parent
  a_pass : ∀ nb2 ∈ A, isPath t.grid nb2 = some true
  a_not_closed : ∀ nb2 ∈ A, memNode nb2 t.closed = false
  a_not_open : ∀ nb2 ∈ A, memNode nb2 t.openL = false
  a_nodup : (coordsOf A).Nodup
  complete : ∀ nb ∈ L, isPath t.grid nb = some true → memNode nb t.closed = false →
    memNode nb t2.openL = true
  dims2 : ∀ W2 H2 : Nat, dimsOK t.grid W2 H2 → dimsOK t2.grid W2 H2
  pass2 : ∀ n : Node, isPath t2.grid n = isPath t.grid n
  grid_mark : ∀ nb2 ∈ A, gridGet t2.grid nb2.y nb2.x = some 4
  grid_other : ∀ y x : Int, 0 ≤ y → 0 ≤ x →
    (∀ nb2 ∈ A, ¬(nb2.y = y ∧ nb2.x = x)) → gridGet t2.grid y x = gridGet t.grid y x

theorem admitPost_nil (t : SearchState) : AdmitPost [] t [] t := by
  constructor
  · rfl
  · exact (List.append_nil _).symm
  · intro nb2 h; exact absurd h (List.not_mem_nil _)
  · intro nb2 h; exact absurd h (List.not_mem_nil _)
  · intro nb2 h; exact absurd h (List.not_mem_nil _)
  · intro nb2 h; exact absurd h (List.not_mem_nil _)
  · exact List.nodup_nil
  · intro nb hnb hp hc
    exact absurd hnb (List.not_mem_nil _)
  · intro W2 H2 hd; exact hd
  · intro n; rfl
  · intro nb2 h; exact absurd h (List.not_mem_nil _)
  · intro y x h0y h0x hno; rfl

theorem isPath_some_true {g : Grid} {n : Node} (h : isPath g n = some true) :
    ∃ w, gridGet g n.y n.x = some w ∧ w ≠ 1 := by
  unfold isPath at h
  cases hg : gridGet g n.y n.x with
  | none => rw [hg] at h; simp at h
  | some w =>
    rw [hg] at h
    simp only [Option.map_some'] at h
    injection h with h2
    exact ⟨w, rfl, by simpa using h2⟩

theorem isPath_of_nonwall {g : Grid} {n : Node} {w : Nat}
    (hg : gridGet g n.y n.x = some w) (hw : w ≠ 1) : isPath g n = some true := by
  unfold isPath
  rw [hg, Option.map_some']
  simp [hw]

/-- Skipped candidate: extending the candidate list with a candidate the
loop does not admit (because it is already on the frontier). -/
theorem admitPost_skip {L2 : List Node} {t : SearchState} {A : List Node}
    {t2 : SearchState} {nb : Node} (post : AdmitPost L2 t A t2)
    (hskip : isPath t.grid nb = some true → memNode nb t.closed = false →
      memNode nb t2.openL = true) : AdmitPost (nb :: L2) t A t2 := by
  constructor
  · exact post.closed_eq
  · exact post.open_eq
  · intro nb2 h
    obtain ⟨m, hm, he⟩ := post.a_src nb2 h
    exact ⟨m, List.mem_cons_of_mem _ hm, he⟩
  · exact post.a_pass
  · exact post.a_not_closed
  · exact post.a_not_open
  · exact post.a_nodup
  · intro m hm hp hc
    rcases List.mem_cons.mp hm with hm2 | hm2
    · subst hm2; exact hskip hp hc
    · exact post.complete m hm2 hp hc
  · exact post.dims2
  · exact post.pass2
  · exact post.grid_mark
  · exact post.grid_other

/-- Admitted candidate: extending the run of the loop with an admitted
candidate at its front.  The node `m` actually appended shares the
candidate's coordinates and parent but may carry updated cost fields
(`Greedy` computes `hCost` before appending). -/
theorem admitPost_admit {L2 : List Node} {t : SearchState} {nb m : Node} {g2 : Grid}
    {A2 : List Node} {t2 : SearchState} (h0y : 0 ≤ nb.y) (h0x : 0 ≤ nb.x)
    (hmy : m.y = nb.y) (hmx : m.x = nb.x) (hmp : m.parent = nb.parent)
    (hpass : isPath t.grid nb = some true) (hnc : memNode nb t.closed = false)
    (hno : memNode nb t.openL = false) (hset : gridSet t.grid nb.y nb.x 4 = some g2)
    (post : AdmitPost L2 ⟨g2, t.openL ++ [m], t.closed⟩ A2 t2) :
    AdmitPost (nb :: L2) t (m :: A2) t2 := by
  obtain ⟨w, hold, hw⟩ := isPath_some_true hpass
  have hpp : ∀ n : Node, isPath g2 n = isPath t.grid n :=
    isPath_gridSet_nonwall h0y h0x hset (by omega) hold hw
  have hmmem : m ∈ t.openL ++ [m] := List.mem_append_right _ (List.mem_singleton.mpr rfl)
  have hA2ne : ∀ a ∈ A2, ¬(a.y = nb.y ∧ a.x = nb.x) := by
    intro a ha hc
    exact memNode_false_coords (post.a_not_open a ha) hmmem
      ⟨by rw [hmy, hc.1], by rw [hmx, hc.2]⟩
  constructor
  · exact post.closed_eq
  · rw [post.open_eq]
    show (t.openL ++ [m]) ++ A2 = t.openL ++ m :: A2
    rw [List.append_assoc]
    rfl
  · intro nb2 h
    rcases List.mem_cons.mp h with h2 | h2
    · subst h2; exact ⟨nb, List.mem_cons_self _ _, hmy, hmx, hmp⟩
    · obtain ⟨a, ha, he⟩ := post.a_src nb2 h2
      exact ⟨a, List.mem_cons_of_mem _ ha, he⟩
  · intro nb2 h
    rcases List.mem_cons.mp h with h2 | h2
    · subst h2; rw [isPath_coords hmy hmx]; exact hpass
    · rw [← hpp nb2]; exact post.a_pass nb2 h2
  · intro nb2 h
    rcases List.mem_cons.mp h with h2 | h2
    · subst h2; rw [memNode_coords hmy hmx]; exact hnc
    · exact post.a_not_closed nb2 h2
  · intro nb2 h
    rcases List.mem_cons.mp h with h2 | h2
    · subst h2; rw [memNode_coords hmy hmx]; exact hno
    · have hfa := post.a_not_open nb2 h2
      rw [memNode_append] at hfa
      exact (Bool.or_eq_false_iff.mp hfa).1
  · rw [show coordsOf (m :: A2) = (m.y, m.x) :: coordsOf A2 from rfl, List.nodup_cons]
    constructor
    · intro hc
      obtain ⟨a, ha, he⟩ := List.mem_map.mp hc
      have h1 := congrArg Prod.fst he
      have h2 := congrArg Prod.snd he
      simp only [] at h1 h2
      exact hA2ne a ha ⟨by rw [h1, hmy], by rw [h2, hmx]⟩
    · exact post.a_nodup
  · intro a ha hp hc
    rcases List.mem_cons.mp ha with ha2 | ha2
    · subst ha2
      rw [← memNode_coords hmy hmx, post.open_eq, memNode_append, memNode_of_mem hmmem]
      rfl
    · exact post.complete a ha2 (by rw [hpp]; exact hp) hc
  · intro W2 H2 hd
    exact post.dims2 W2 H2 (gridSet_dims h0y h0x hset hd)
  · intro n
    exact (post.pass2 n).trans (hpp n)
  · intro nb2 h
    rcases List.mem_cons.mp h with h2 | h2
    · subst h2
      rw [hmy, hmx, post.grid_other nb.y nb.x h0y h0x hA2ne]
      exact gridGet_gridSet_self h0y h0x hset
    · exact post.grid_mark nb2 h2
  · intro y x h0y2 h0x2 hno2
    have hnb2 : ¬(m.y = y ∧ m.x = x) := hno2 m (List.mem_cons_self _ _)
    have hA2 : ∀ a ∈ A2, ¬(a.y = y ∧ a.x = x) := fun a ha =>
      hno2 a (List.mem_cons_of_mem _ ha)
    rw [post.grid_other y x h0y2 h0x2 hA2]
    refine gridGet_gridSet_ne h0y h0x hset h0y2 h0x2 (fun hc => hnb2 ?_)
    exact ⟨by rw [hmy, hc.1], by rw [hmx, hc.2]⟩

theorem admitPlain_fold {W H : Nat} (L : List Node) (t : SearchState)
    (hdims : dimsOK t.grid W H) (hL : ∀ nb ∈ L, InBoundsC W H nb.y nb.x) :
    ∃ A t2, L.foldlM admitPlain t = some t2 ∧ AdmitPost L t A t2 := by
  induction L generalizing t with
  | nil => exact ⟨[], t, rfl, admitPost_nil t⟩
  | cons nb L2 ih =>
    have hb := hL nb (List.mem_cons_self _ _)
    obtain ⟨v, hv⟩ := gridGet_total hdims hb
    have hpth : isPath t.grid nb = some (v != 1) := by unfold isPath; rw [hv]; rfl
    by_cases hcond : ((v != 1) && !(memNode nb t.closed) && !(memNode nb t.openL)) = true
    · have hcond2 := hcond
      simp only [Bool.and_eq_true, Bool.not_eq_true'] at hcond2
      obtain ⟨⟨h1, h2⟩, h3⟩ := hcond2
      have hpass : isPath t.grid nb = some true := by rw [hpth, h1]
      obtain ⟨g2, hset⟩ := gridSet_total hdims hb 4
      have hstep : admitPlain t nb = some ⟨g2, t.openL ++ [nb], t.closed⟩ := by
        simp [admitPlain, hpth, h1, h2, h3, hset]
      have hdims2 : dimsOK g2 W H := gridSet_dims hb.1 hb.2.2.1 hset hdims
      obtain ⟨A2, t2, hfold, post⟩ := ih ⟨g2, t.openL ++ [nb], t.closed⟩ hdims2
        (fun a ha => hL a (List.mem_cons_of_mem _ ha))
      refine ⟨nb :: A2, t2, ?_,
        admitPost_admit hb.1 hb.2.2.1 rfl rfl rfl hpass h2 h3 hset post⟩
      rw [List.foldlM_cons, hstep]
      exact hfold
    · have hcondf : ((v != 1) && !(memNode nb t.closed) && !(memNode nb t.openL)) = false :=
        Bool.eq_false_iff.mpr hcond
      have hstep : admitPlain t nb = some t := by
        simp only [admitPlain, hpth, hcondf, Bool.false_eq_true, if_false]
      obtain ⟨A2, t2, hfold, post⟩ := ih t hdims
        (fun a ha => hL a (List.mem_cons_of_mem _ ha))
      refine ⟨A2, t2, ?_, admitPost_skip post ?_⟩
      · rw [List.foldlM_cons, hstep]; exact hfold
      · intro hp hc
        have h1 : (v != 1) = true := by
          rw [hpth] at hp
          exact Option.some_inj.mp hp
        have h3 : memNode nb t.openL = true := by
          rw [h1, hc] at hcondf
          simpa using hcondf
        rw [post.open_eq, memNode_append, h3]
        rfl

theorem admitGreedy_fold {W H : Nat} (cfg : Config) (L : List Node) (t : SearchState)
    (hdims : dimsOK t.grid W H) (hL : ∀ nb ∈ L, InBoundsC W H nb.y nb.x) :
    ∃ A t2, L.foldlM (admitGreedy cfg) t = some t2 ∧ AdmitPost L t A t2 := by
  induction L generalizing t with
  | nil => exact ⟨[], t, rfl, admitPost_nil t⟩
  | cons nb L2 ih =>
    have hb := hL nb (List.mem_cons_self _ _)
    obtain ⟨v, hv⟩ := gridGet_total hdims hb
    have hpth : isPath t.grid nb = some (v != 1) := by unfold isPath; rw [hv]; rfl
    by_cases hcond : ((v != 1) && !(memNode nb t.closed) && !(memNode nb t.openL)) = true
    · have hcond2 := hcond
      simp only [Bool.and_eq_true, Bool.not_eq_true'] at hcond2
      obtain ⟨⟨h1, h2⟩, h3⟩ := hcond2
      have hpass : isPath t.grid nb = some true := by rw [hpth, h1]
      obtain ⟨g2, hset⟩ := gridSet_total hdims hb 4
      have hstep : admitGreedy cfg t nb =
          some ⟨g2, t.openL ++ [Node.mk nb.y nb.x nb.parent nb.gCost (HCost cfg nb)],
            t.closed⟩ := by
        simp [admitGreedy, hpth, h1, h2, h3, hset]
      have hdims2 : dimsOK g2 W H := gridSet_dims hb.1 hb.2.2.1 hset hdims
      obtain ⟨A2, t2, hfold, post⟩ :=
        ih ⟨g2, t.openL ++ [Node.mk nb.y nb.x nb.parent nb.gCost (HCost cfg nb)],
          t.closed⟩ hdims2 (fun a ha => hL a (List.mem_cons_of_mem _ ha))
      refine ⟨Node.mk nb.y nb.x nb.parent nb.gCost (HCost cfg nb) :: A2, t2, ?_,
        admitPost_admit hb.1 hb.2.2.1 rfl rfl rfl hpass h2 h3 hset post⟩
      rw [List.foldlM_cons, hstep]
      exact hfold
    · have hcondf : ((v != 1) && !(memNode nb t.closed) && !(memNode nb t.openL)) = false :=
        Bool.eq_false_iff.mpr hcond
      have hstep : admitGreedy cfg t nb = some t := by
        simp only [admitGreedy, hpth, hcondf, Bool.false_eq_true, if_false]
      obtain ⟨A2, t2, hfold, post⟩ := ih t hdims
        (fun a ha => hL a (List.mem_cons_of_mem _ ha))
      refine ⟨A2, t2, ?_, admitPost_skip post ?_⟩
      · rw [List.foldlM_cons, hstep]; exact hfold
      · intro hp hc
        have h1 : (v != 1) = true := by
          rw [hpth] at hp
          exact Option.some_inj.mp hp
        have h3 : memNode nb t.openL = true := by
          rw [h1, hc] at hcondf
          simpa using hcondf
        rw [post.open_eq, memNode_append, h3]
        rfl

/-! ## The A* admission fold -/

theorem bool_eq_of_iff {a b : Bool} (h : a = true ↔ b = true) : a = b := by
  cases a <;> cases b <;> simp_all

theorem memNode_eq_of_coordsOf {l l2 : List Node} (h : coordsOf l = coordsOf l2)
    (n : Node) : memNode n l = memNode n l2 := by
  refine bool_eq_of_iff ?_
  rw [memNode_iff, memNode_iff, h]

theorem coordsOf_map_preserve {l : List Node} {f : Node → Node}
    (hf : ∀ o ∈ l, (f o).y = o.y ∧ (f o).x = o.x) : coordsOf (l.map f) = coordsOf l := by
  unfold coordsOf
  rw [List.map_map]
  exact List.map_congr_left (fun o ho => by
    have := hf o ho
    simp only [Function.comp_apply, this.1, this.2])

/-- The A* candidate value built from a raw neighbor `nb` of `curr`:
`gCost = curr.gCost + 1`, heuristic recomputed. -/
def aStarCand (cfg : Config) (curr nb : Node) : Node :=
  Node.mk nb.y nb.x nb.parent (curr.gCost + 1) (HCost cfg nb)

/-- What the A* neighbor loop guarantees.  Unlike the other strategies it
may also replace frontier entries in place, so the frontier is described
by its coordinate sequence (unchanged, then the admissions) plus a
provenance fact for every entry. -/
structure AStarPost (cfg : Config) (curr : Node) (L : List Node) (t : SearchState)
    (A : List Node) (t2 : SearchState) : Prop where
  closed_eq : t2.closed = t.closed
  open_coords : coordsOf t2.openL = coordsOf t.openL ++ coordsOf A
  open_src : ∀ o ∈ t2.openL, o ∈ t.openL ∨ ∃ nb ∈ L, o = aStarCand cfg curr nb
  a_src : ∀ nb2 ∈ A, ∃ nb ∈ L, nb2 = aStarCand cfg curr nb
  a_pass : ∀ nb2 ∈ A, isPath t.grid nb2 = some true
  a_not_closed : ∀ nb2 ∈ A, memNode nb2 t.closed = false
  a_not_open : ∀ nb2 ∈ A, memNode nb2 t.openL = false
  a_nodup : (coordsOf A).Nodup
  complete : ∀ nb ∈ L, isPath t.grid nb = some true → memNode nb t.closed = false →
    memNode nb t2.openL = true
  dims2 : ∀ W2 H2 : Nat, dimsOK t.grid W2 H2 → dimsOK t2.grid W2 H2
  pass2 : ∀ n : Node, isPath t2.grid n = isPath t.grid n
  grid_mark : ∀ nb2 ∈ A, gridGet t2.grid nb2.y nb2.x = some 4
  grid_other : ∀ y x : Int, 0 ≤ y → 0 ≤ x →
    (∀ nb2 ∈ A, ¬(nb2.y = y ∧ nb2.x = x)) → gridGet t2.grid y x = gridGet t.grid y x

theorem aStarPost_nil (cfg : Config) (curr : Node) (t : SearchState) :
    AStarPost cfg curr [] t [] t := by
  constructor
  · rfl
  · exact (List.append_nil _).symm
  · intro o ho; exact Or.inl ho
  · intro nb2 h; exact absurd h (List.not_mem_nil _)
  · intro nb2 h; exact absurd h (List.not_mem_nil _)
  · intro nb2 h; exact absurd h (List.not_mem_nil _)
  · intro nb2 h; exact absurd h (List.not_mem_nil _)
  · exact List.nodup_nil
  · intro nb hnb
    exact absurd hnb (List.not_mem_nil _)
  · intro W2 H2 hd; exact hd
  · intro n; rfl
  · intro nb2 h; exact absurd h (List.not_mem_nil _)
  · intro y x h0y h0x hno; rfl

theorem aStarPost_skip {cfg : Config} {curr : Node} {L2 : List Node} {t : SearchState}
    {A : List Node} {t2 : SearchState} {nb : Node}
    (post : AStarPost cfg curr L2 t A t2)
    (hskip : isPath t.grid nb = some true → memNode nb t.closed = false →
      memNode nb t2.openL = true) : AStarPost cfg curr (nb :: L2) t A t2 := by
  constructor
  · exact post.closed_eq
  · exact post.open_coords
  · intro o ho
    rcases post.open_src o ho with h | ⟨a, ha, he⟩
    · exact Or.inl h
    · exact Or.inr ⟨a, List.mem_cons_of_mem _ ha, he⟩
  · intro nb2 h
    obtain ⟨a, ha, he⟩ := post.a_src nb2 h
    exact ⟨a, List.mem_cons_of_mem _ ha, he⟩
  · exact post.a_pass
  · exact post.a_not_closed
  · exact post.a_not_open
  · exact post.a_nodup
  · intro a ha hp hc
    rcases List.mem_cons.mp ha with ha2 | ha2
    · subst ha2; exact hskip hp hc
    · exact post.complete a ha2 hp hc
  · exact post.dims2
  · exact post.pass2
  · exact post.grid_mark
  · exact post.grid_other

theorem aStarPost_replace {cfg : Config} {curr : Node} {L2 : List Node} {t : SearchState}
    {A : List Node} {t2 : SearchState} {nb : Node}
    (hpass : isPath t.grid nb = some true)
    (hmem : memNode (aStarCand cfg curr nb) t.openL = true)
    (post : AStarPost cfg curr L2
      ⟨t.grid, t.openL.map (fun o =>
        if nodeEq o (aStarCand cfg curr nb) &&
            decide ((aStarCand cfg curr nb).gCost < o.gCost) then
          aStarCand cfg curr nb else o), t.closed⟩ A t2) :
    AStarPost cfg curr (nb :: L2) t A t2 := by
  set nb2 := aStarCand cfg curr nb with hnb2
  set f : Node → Node := fun o =>
    if nodeEq o nb2 && decide (nb2.gCost < o.gCost) then nb2 else o with hf
  have hfcoords : ∀ o ∈ t.openL, (f o).y = o.y ∧ (f o).x = o.x := by
    intro o ho
    simp only [hf]
    by_cases hg : (nodeEq o nb2 && decide (nb2.gCost < o.gCost)) = true
    · rw [if_pos hg]
      have hg2 := hg
      rw [Bool.and_eq_true] at hg2
      have hco := nodeEq_iff.mp hg2.1
      exact ⟨hco.1.symm, hco.2.symm⟩
    · rw [if_neg hg]
      exact ⟨rfl, rfl⟩
  have hcoords : coordsOf (t.openL.map f) = coordsOf t.openL :=
    coordsOf_map_preserve hfcoords
  constructor
  · exact post.closed_eq
  · rw [post.open_coords]
    show coordsOf (t.openL.map f) ++ coordsOf A = coordsOf t.openL ++ coordsOf A
    rw [hcoords]
  · intro o ho
    rcases post.open_src o ho with h | ⟨a, ha, he⟩
    · obtain ⟨o0, ho0, hfo⟩ := List.mem_map.mp h
      by_cases hg : (nodeEq o0 nb2 && decide (nb2.gCost < o0.gCost)) = true
      · right
        refine ⟨nb, List.mem_cons_self _ _, ?_⟩
        rw [← hfo]
        show (if nodeEq o0 nb2 && decide (nb2.gCost < o0.gCost) then nb2 else o0) = _
        rw [if_pos hg]
      · left
        have hfo0 : f o0 = o0 := by
          simp only [hf]
          rw [if_neg hg]
        rw [← hfo, hfo0]
        exact ho0
    · exact Or.inr ⟨a, List.mem_cons_of_mem _ ha, he⟩
  · intro a ha
    obtain ⟨b, hb, he⟩ := post.a_src a ha
    exact ⟨b, List.mem_cons_of_mem _ hb, he⟩
  · exact post.a_pass
  · exact post.a_not_closed
  · intro a ha
    rw [← memNode_eq_of_coordsOf hcoords a]
    exact post.a_not_open a ha
  · exact post.a_nodup
  · intro a ha hp hc
    rcases List.mem_cons.mp ha with ha2 | ha2
    · subst ha2
      rw [memNode_iff]
      rw [show coordsOf t2.openL = coordsOf (t.openL.map f) ++ coordsOf A
        from post.open_coords, hcoords]
      refine List.mem_append_left _ ?_
      have := memNode_iff.mp hmem
      exact this
    · exact post.complete a ha2 hp hc
  · exact post.dims2
  · exact post.pass2
  · exact post.grid_mark
  · exact post.grid_other

theorem aStarPost_append {cfg : Config} {curr : Node} {L2 : List Node} {t : SearchState}
    {A2 : List Node} {t2 : SearchState} {nb : Node} {g2 : Grid}
    (h0y : 0 ≤ nb.y) (h0x : 0 ≤ nb.x)
    (hpass : isPath t.grid nb = some true) (hnc : memNode nb t.closed = false)
    (hno : memNode (aStarCand cfg curr nb) t.openL = false)
    (hset : gridSet t.grid nb.y nb.x 4 = some g2)
    (post : AStarPost cfg curr L2
      ⟨g2, t.openL ++ [aStarCand cfg curr nb], t.closed⟩ A2 t2) :
    AStarPost cfg curr (nb :: L2) t (aStarCand cfg curr nb :: A2) t2 := by
  set nb2 := aStarCand cfg curr nb with hnb2
  obtain ⟨w, hold, hw⟩ := isPath_some_true hpass
  have hpp : ∀ n : Node, isPath g2 n = isPath t.grid n :=
    isPath_gridSet_nonwall h0y h0x hset (by omega) hold hw
  have hmmem : nb2 ∈ t.openL ++ [nb2] := List.mem_append_right _ (List.mem_singleton.mpr rfl)
  have hA2ne : ∀ a ∈ A2, ¬(a.y = nb.y ∧ a.x = nb.x) := by
    intro a ha hc
    exact memNode_false_coords (post.a_not_open a ha) hmmem ⟨hc.1.symm, hc.2.symm⟩
  constructor
  · exact post.closed_eq
  · rw [post.open_coords]
    show coordsOf (t.openL ++ [nb2]) ++ coordsOf A2 = _
    rw [coordsOf_append, List.append_assoc]
    rfl
  · intro o ho
    rcases post.open_src o ho with h | ⟨a, ha, he⟩
    · rcases List.mem_append.mp h with h2 | h2
      · exact Or.inl h2
      · right
        exact ⟨nb, List.mem_cons_self _ _, List.mem_singleton.mp h2⟩
    · exact Or.inr ⟨a, List.mem_cons_of_mem _ ha, he⟩
  · intro a ha
    rcases List.mem_cons.mp ha with ha2 | ha2
    · exact ⟨nb, List.mem_cons_self _ _, ha2⟩
    · obtain ⟨b, hb, he⟩ := post.a_src a ha2
      exact ⟨b, List.mem_cons_of_mem _ hb, he⟩
  · intro a ha
    rcases List.mem_cons.mp ha with ha2 | ha2
    · subst ha2
      rw [isPath_coords (show nb2.y = nb.y from rfl) (show nb2.x = nb.x from rfl)]
      exact hpass
    · rw [← hpp a]; exact post.a_pass a ha2
  · intro a ha
    rcases List.mem_cons.mp ha with ha2 | ha2
    · subst ha2
      rw [memNode_coords (show nb2.y = nb.y from rfl) (show nb2.x = nb.x from rfl)]
      exact hnc
    · exact post.a_not_closed a ha2
  · intro a ha
    rcases List.mem_cons.mp ha with ha2 | ha2
    · subst ha2; exact hno
    · have hfa := post.a_not_open a ha2
      rw [show (⟨g2, t.openL ++ [nb2], t.closed⟩ : SearchState).openL
        = t.openL ++ [nb2] from rfl, memNode_append] at hfa
      exact (Bool.or_eq_false_iff.mp hfa).1
  · rw [show coordsOf (nb2 :: A2) = (nb2.y, nb2.x) :: coordsOf A2 from rfl,
      List.nodup_cons]
    constructor
    · intro hc
      obtain ⟨a, ha, he⟩ := List.mem_map.mp hc
      have h1 := congrArg Prod.fst he
      have h2 := congrArg Prod.snd he
      simp only [] at h1 h2
      exact hA2ne a ha ⟨h1, h2⟩
    · exact post.a_nodup
  · intro a ha hp hc
    rcases List.mem_cons.mp ha with ha2 | ha2
    · subst ha2
      rw [← memNode_coords (show nb2.y = a.y from rfl) (show nb2.x = a.x from rfl),
        memNode_iff, post.open_coords]
      refine List.mem_append_left _ ?_
      rw [← memNode_iff]
      exact memNode_of_mem hmmem
    · exact post.complete a ha2 (by rw [hpp]; exact hp) hc
  · intro W2 H2 hd
    exact post.dims2 W2 H2 (gridSet_dims h0y h0x hset hd)
  · intro n
    exact (post.pass2 n).trans (hpp n)
  · intro a ha
    rcases List.mem_cons.mp ha with ha2 | ha2
    · rw [ha2]
      rw [show nb2.y = nb.y from rfl, show nb2.x = nb.x from rfl,
        post.grid_other nb.y nb.x h0y h0x hA2ne]
      exact gridGet_gridSet_self h0y h0x hset
    · exact post.grid_mark a ha2
  · intro y x h0y2 h0x2 hno2
    have hnb3 : ¬(nb2.y = y ∧ nb2.x = x) := hno2 nb2 (List.mem_cons_self _ _)
    have hA3 : ∀ a ∈ A2, ¬(a.y = y ∧ a.x = x) := fun a ha =>
      hno2 a (List.mem_cons_of_mem _ ha)
    rw [post.grid_other y x h0y2 h0x2 hA3]
    exact gridGet_gridSet_ne h0y h0x hset h0y2 h0x2
      (fun hc => hnb3 ⟨hc.1.symm, hc.2.symm⟩)

theorem admitAStar_fold {W H : Nat} (cfg : Config) (curr : Node) (L : List Node)
    (t : SearchState) (hdims : dimsOK t.grid W H)
    (hL : ∀ nb ∈ L, InBoundsC W H nb.y nb.x) :
    ∃ A t2, L.foldlM (admitAStar cfg curr) t = some t2 ∧ AStarPost cfg curr L t A t2 := by
  induction L generalizing t with
  | nil => exact ⟨[], t, rfl, aStarPost_nil cfg curr t⟩
  | cons nb L2 ih =>
    have hb := hL nb (List.mem_cons_self _ _)
    have hL2 : ∀ a ∈ L2, InBoundsC W H a.y a.x :=
      fun a ha => hL a (List.mem_cons_of_mem _ ha)
    obtain ⟨v, hv⟩ := gridGet_total hdims hb
    have hpth : isPath t.grid nb = some (v != 1) := by unfold isPath; rw [hv]; rfl
    by_cases h1 : (v != 1) = true
    · by_cases h2 : memNode nb t.closed = true
      · have hstep : admitAStar cfg curr t nb = some t := by
          simp [admitAStar, hpth, h1, h2]
        obtain ⟨A, t2, hfold, post⟩ := ih t hdims hL2
        refine ⟨A, t2, ?_, aStarPost_skip post ?_⟩
        · rw [List.foldlM_cons, hstep]; exact hfold
        · intro hp hc
          rw [hc] at h2
          simp at h2
      · have h2f : memNode nb t.closed = false := Bool.eq_false_iff.mpr h2
        have hpass : isPath t.grid nb = some true := by rw [hpth, h1]
        by_cases h3 : memNode (aStarCand cfg curr nb) t.openL = true
        · have hstep : admitAStar cfg curr t nb = some ⟨t.grid, t.openL.map (fun o =>
              if nodeEq o (aStarCand cfg curr nb) &&
                  decide ((aStarCand cfg curr nb).gCost < o.gCost) then
                aStarCand cfg curr nb else o), t.closed⟩ := by
            simp only [admitAStar, aStarCand, hpth, h1, h2f]
            simp only [Bool.not_false, Bool.and_self, if_true]
            have h3b : memNode (Node.mk nb.y nb.x nb.parent (curr.gCost + 1)
              (HCost cfg nb)) t.openL = true := h3
            rw [h3b]
            simp [aStarCand]
          obtain ⟨A, t2, hfold, post⟩ := ih ⟨t.grid, t.openL.map (fun o =>
              if nodeEq o (aStarCand cfg curr nb) &&
                  decide ((aStarCand cfg curr nb).gCost < o.gCost) then
                aStarCand cfg curr nb else o), t.closed⟩ hdims hL2
          refine ⟨A, t2, ?_, aStarPost_replace hpass h3 post⟩
          rw [List.foldlM_cons, hstep]
          exact hfold
        · have h3f : memNode (aStarCand cfg curr nb) t.openL = false :=
            Bool.eq_false_iff.mpr h3
          obtain ⟨g2, hset⟩ := gridSet_total hdims hb 4
          have hstep : admitAStar cfg curr t nb =
              some ⟨g2, t.openL ++ [aStarCand cfg curr nb], t.closed⟩ := by
            simp only [admitAStar, aStarCand, hpth, h1, h2f]
            simp only [Bool.not_false, Bool.and_self, if_true]
            have h3b : memNode (Node.mk nb.y nb.x nb.parent (curr.gCost + 1)
              (HCost cfg nb)) t.openL = false := h3f
            rw [h3b]
            simp [aStarCand, hset]
          have hdims2 : dimsOK g2 W H := gridSet_dims hb.1 hb.2.2.1 hset hdims
          obtain ⟨A2, t2, hfold, post⟩ :=
            ih ⟨g2, t.openL ++ [aStarCand cfg curr nb], t.closed⟩ hdims2 hL2
          refine ⟨aStarCand cfg curr nb :: A2, t2, ?_,
            aStarPost_append hb.1 hb.2.2.1 hpass h2f h3f hset post⟩
          rw [List.foldlM_cons, hstep]
          exact hfold
    · have h1f : (v != 1) = false := Bool.eq_false_iff.mpr h1
      have hstep : admitAStar cfg curr t nb = some t := by
        simp [admitAStar, hpth, h1f]
      obtain ⟨A, t2, hfold, post⟩ := ih t hdims hL2
      refine ⟨A, t2, ?_, aStarPost_skip post ?_⟩
      · rw [List.foldlM_cons, hstep]; exact hfold
      · intro hp hc
        rw [hpth] at hp
        have hcontr := Option.some_inj.mp hp
        rw [hcontr] at h1f
        simp at h1f

/-! ## Step characterization lemmas -/

theorem DFS_fail (cfg : Config) (s : SearchState) (h : s.openL = []) :
    DFS cfg s = some (.failure, s) := by
  unfold DFS popLast
  rw [h]
  rfl

theorem BFS_fail (cfg : Config) (s : SearchState) (h : s.openL = []) :
    BFS cfg s = some (.failure, s) := by
  unfold BFS popFront
  rw [h]

theorem Greedy_fail (cfg : Config) (s : SearchState) (h : s.openL = []) :
    Greedy cfg s = some (.failure, s) := by
  unfold Greedy popFront
  rw [h]
  rfl

theorem AStar_fail (cfg : Config) (s : SearchState) (h : s.openL = []) :
    AStar cfg s = some (.failure, s) := by
  unfold AStar popFront
  rw [h]
  rfl

theorem DFS_step_spec {W H : Nat} (cfg : Config) (s : SearchState)
    (hdims : dimsOK s.grid W H) (hint : ∀ n ∈ s.openL, InteriorC W H n.y n.x)
    {curr : Node} {rest : List Node} (hpop : popLast s.openL = some (curr, rest)) :
    ∃ g1, gridSet s.grid curr.y curr.x 5 = some g1 ∧
      ((nodeEq curr cfg.END = true ∧
          DFS cfg s = some (.success, ⟨g1, rest, s.closed ++ [curr]⟩)) ∨
       (nodeEq curr cfg.END = false ∧
        ∃ A s2, DFS cfg s = some (.cont, s2) ∧
          AdmitPost (getNeighbors cfg.DIAGONAL curr) ⟨g1, rest, s.closed ++ [curr]⟩ A s2)) := by
  have hcurr : curr ∈ s.openL := (popLast_perm hpop).2
  have hci := hint curr hcurr
  obtain ⟨i1, i2, i3, i4⟩ := hci
  have hci : InteriorC W H curr.y curr.x := ⟨i1, i2, i3, i4⟩
  have hcb : InBoundsC W H curr.y curr.x := ⟨by omega, by omega, by omega, by omega⟩
  obtain ⟨g1, hset⟩ := gridSet_total hdims hcb 5
  have hdims1 : dimsOK g1 W H := gridSet_dims hcb.1 hcb.2.2.1 hset hdims
  refine ⟨g1, hset, ?_⟩
  by_cases hEnd : nodeEq curr cfg.END = true
  · left
    refine ⟨hEnd, ?_⟩
    simp only [DFS, hpop, hset, hEnd, if_true]
  · right
    have hEndf : nodeEq curr cfg.END = false := Bool.eq_false_iff.mpr hEnd
    obtain ⟨A, s2, hfold, post⟩ := admitPlain_fold (W := W) (H := H)
      (getNeighbors cfg.DIAGONAL curr) ⟨g1, rest, s.closed ++ [curr]⟩ hdims1
      (getNeighbors_inBounds hci)
    refine ⟨hEndf, A, s2, ?_, post⟩
    simp only [DFS, hpop, hset, hEndf, Bool.false_eq_true, if_false, hfold]

theorem BFS_step_spec {W H : Nat} (cfg : Config) (s : SearchState)
    (hdims : dimsOK s.grid W H) (hint : ∀ n ∈ s.openL, InteriorC W H n.y n.x)
    {curr : Node} {rest : List Node} (hpop : s.openL = curr :: rest) :
    ∃ g1, gridSet s.grid curr.y curr.x 5 = some g1 ∧
      ((nodeEq curr cfg.END = true ∧
          BFS cfg s = some (.success, ⟨g1, rest, s.closed ++ [curr]⟩)) ∨
       (nodeEq curr cfg.END = false ∧
        ∃ A s2, BFS cfg s = some (.cont, s2) ∧
          AdmitPost (getNeighbors cfg.DIAGONAL curr) ⟨g1, rest, s.closed ++ [curr]⟩ A s2)) := by
  have hcurr : curr ∈ s.openL := by rw [hpop]; exact List.mem_cons_self _ _
  have hci := hint curr hcurr
  obtain ⟨i1, i2, i3, i4⟩ := hci
  have hci : InteriorC W H curr.y curr.x := ⟨i1, i2, i3, i4⟩
  have hcb : InBoundsC W H curr.y curr.x := ⟨by omega, by omega, by omega, by omega⟩
  obtain ⟨g1, hset⟩ := gridSet_total hdims hcb 5
  have hdims1 : dimsOK g1 W H := gridSet_dims hcb.1 hcb.2.2.1 hset hdims
  refine ⟨g1, hset, ?_⟩
  by_cases hEnd : nodeEq curr cfg.END = true
  · left
    refine ⟨hEnd, ?_⟩
    simp only [BFS, hpop, popFront, hset, hEnd, if_true]
  · right
    have hEndf : nodeEq curr cfg.END = false := Bool.eq_false_iff.mpr hEnd
    obtain ⟨A, s2, hfold, post⟩ := admitPlain_fold (W := W) (H := H)
      (getNeighbors cfg.DIAGONAL curr) ⟨g1, rest, s.closed ++ [curr]⟩ hdims1
      (getNeighbors_inBounds hci)
    refine ⟨hEndf, A, s2, ?_, post⟩
    simp only [BFS, hpop, popFront, hset, hEndf, Bool.false_eq_true, if_false, hfold]

theorem Greedy_step_spec {W H : Nat} (cfg : Config) (s : SearchState)
    (hdims : dimsOK s.grid W H) (hint : ∀ n ∈ s.openL, InteriorC W H n.y n.x)
    {curr : Node} {rest : List Node}
    (hpop : sortByKey Node.hCost s.openL = curr :: rest) :
    ∃ g1, gridSet s.grid curr.y curr.x 5 = some g1 ∧
      ((nodeEq curr cfg.END = true ∧
          Greedy cfg s = some (.success, ⟨g1, rest, s.closed ++ [curr]⟩)) ∨
       (nodeEq curr cfg.END = false ∧
        ∃ A s2, Greedy cfg s = some (.cont, s2) ∧
          AdmitPost (getNeighbors cfg.DIAGONAL curr) ⟨g1, rest, s.closed ++ [curr]⟩ A s2)) := by
  have hcurr : curr ∈ s.openL := by
    have := (sortByKey_perm Node.hCost s.openL).mem_iff.mp
      (by rw [hpop]; exact List.mem_cons_self _ _)
    exact this
  have hci := hint curr hcurr
  obtain ⟨i1, i2, i3, i4⟩ := hci
  have hci : InteriorC W H curr.y curr.x := ⟨i1, i2, i3, i4⟩
  have hcb : InBoundsC W H curr.y curr.x := ⟨by omega, by omega, by omega, by omega⟩
  obtain ⟨g1, hset⟩ := gridSet_total hdims hcb 5
  have hdims1 : dimsOK g1 W H := gridSet_dims hcb.1 hcb.2.2.1 hset hdims
  refine ⟨g1, hset, ?_⟩
  by_cases hEnd : nodeEq curr cfg.END = true
  · left
    refine ⟨hEnd, ?_⟩
    simp only [Greedy, hpop, popFront, hset, hEnd, if_true]
  · right
    have hEndf : nodeEq curr cfg.END = false := Bool.eq_false_iff.mpr hEnd
    obtain ⟨A, s2, hfold, post⟩ := admitGreedy_fold (W := W) (H := H) cfg
      (getNeighbors cfg.DIAGONAL curr) ⟨g1, rest, s.closed ++ [curr]⟩ hdims1
      (getNeighbors_inBounds hci)
    refine ⟨hEndf, A, s2, ?_, post⟩
    simp only [Greedy, hpop, popFront, hset, hEndf, Bool.false_eq_true, if_false, hfold]

theorem AStar_step_spec {W H : Nat} (cfg : Config) (s : SearchState)
    (hdims : dimsOK s.grid W H) (hint : ∀ n ∈ s.openL, InteriorC W H n.y n.x)
    {curr : Node} {rest : List Node}
    (hpop : sortByKey Node.fCost s.openL = curr :: rest) :
    ∃ g1, gridSet s.grid curr.y curr.x 5 = some g1 ∧
      ((nodeEq curr cfg.END = true ∧
          AStar cfg s = some (.success, ⟨g1, rest, s.closed ++ [curr]⟩)) ∨
       (nodeEq curr cfg.END = false ∧
        ∃ A s2, AStar cfg s = some (.cont, s2) ∧
          AStarPost cfg curr (getNeighbors cfg.DIAGONAL curr)
            ⟨g1, rest, s.closed ++ [curr]⟩ A s2)) := by
  have hcurr : curr ∈ s.openL := by
    have := (sortByKey_perm Node.fCost s.openL).mem_iff.mp
      (by rw [hpop]; exact List.mem_cons_self _ _)
    exact this
  have hci := hint curr hcurr
  obtain ⟨i1, i2, i3, i4⟩ := hci
  have hci : InteriorC W H curr.y curr.x := ⟨i1, i2, i3, i4⟩
  have hcb : InBoundsC W H curr.y curr.x := ⟨by omega, by omega, by omega, by omega⟩
  obtain ⟨g1, hset⟩ := gridSet_total hdims hcb 5
  have hdims1 : dimsOK g1 W H := gridSet_dims hcb.1 hcb.2.2.1 hset hdims
  refine ⟨g1, hset, ?_⟩
  by_cases hEnd : nodeEq curr cfg.END = true
  · left
    refine ⟨hEnd, ?_⟩
    simp only [AStar, hpop, popFront, hset, hEnd, if_true]
  · right
    have hEndf : nodeEq curr cfg.END = false := Bool.eq_false_iff.mpr hEnd
    obtain ⟨A, s2, hfold, post⟩ := admitAStar_fold (W := W) (H := H) cfg curr
      (getNeighbors cfg.DIAGONAL curr) ⟨g1, rest, s.closed ++ [curr]⟩ hdims1
      (getNeighbors_inBounds hci)
    refine ⟨hEndf, A, s2, ?_, post⟩
    simp only [AStar, hpop, popFront, hset, hEndf, Bool.false_eq_true, if_false, hfold]

/-! ## The run invariant -/

/-- The visited list is parent-closed: every visited node's discoverer
sits strictly earlier in the list, and only the start node has none. -/
def ClosedParentInv (cfg : Config) (closed : List Node) : Prop :=
  ∀ i : Fin closed.length,
    ((closed.get i).parent = none → nodeEq (closed.get i) cfg.START = true) ∧
    ∀ p, (closed.get i).parent = some p →
      ∃ j : Fin closed.length, j.val < i.val ∧ closed.get j = p

/-- Invariant maintained by every strategy along a run.  `g0` is the grid
the run was seeded with; the runtime grid differs from it only in
search coloring (4/5), never in walls. -/
structure RunInv (g0 : Grid) (cfg : Config) (W H : Nat) (s : SearchState) : Prop where
  dims : dimsOK s.grid W H
  border : BorderWalls W H s.grid
  wallEq : ∀ y x : Int, InBoundsC W H y x →
    (gridGet s.grid y x = some 1 ↔ gridGet g0 y x = some 1)
  no6 : ∀ y x : Int, InBoundsC W H y x → ¬(gridGet s.grid y x = some 6)
  openInt : ∀ n ∈ s.openL, InteriorC W H n.y n.x
  closedInt : ∀ n ∈ s.closed, InteriorC W H n.y n.x
  nodups : (coordsOf s.openL ++ coordsOf s.closed).Nodup
  openPass : ∀ n ∈ s.openL, ¬(gridGet g0 n.y n.x = some 1)
  openParent : ∀ n ∈ s.openL, (n.parent = none → nodeEq n cfg.START = true) ∧
    ∀ p, n.parent = some p → p ∈ s.closed
  closedParent : ClosedParentInv cfg s.closed

theorem interior_not_border {W H : Nat} {cy cx y x : Int} (hci : InteriorC W H cy cx)
    (hb : y = 0 ∨ y = (H : Int) - 1 ∨ x = 0 ∨ x = (W : Int) - 1) :
    ¬(y = cy ∧ x = cx) := by
  obtain ⟨i1, i2, i3, i4⟩ := hci
  rintro ⟨rfl, rfl⟩
  omega

/-- Extending the visited list with a node whose parent (if any) is
already visited preserves the index-ordered parent invariant. -/
theorem closedParent_append {cfg : Config} {closed : List Node} {curr : Node}
    (hc : ClosedParentInv cfg closed)
    (hcurr : (curr.parent = none → nodeEq curr cfg.START = true) ∧
      ∀ p, curr.parent = some p → p ∈ closed) :
    ClosedParentInv cfg (closed ++ [curr]) := by
  intro i
  have hlen : (closed ++ [curr]).length = closed.length + 1 := by
    rw [List.length_append, List.length_singleton]
  by_cases hi : i.val < closed.length
  · have hget : (closed ++ [curr]).get i = closed.get ⟨i.val, hi⟩ := by
      rw [List.get_append i.val hi]
    rw [hget]
    obtain ⟨ha, hb2⟩ := hc ⟨i.val, hi⟩
    refine ⟨ha, fun p hp => ?_⟩
    obtain ⟨j, hj, hjp⟩ := hb2 p hp
    refine ⟨⟨j.val, by rw [hlen]; omega⟩, hj, ?_⟩
    rw [List.get_append j.val j.isLt]
    exact hjp
  · have hiv : i.val = closed.length := by
      have hil := i.isLt
      omega
    have hieq : i = ⟨closed.length, by rw [hlen]; omega⟩ := by
      apply Fin.ext
      exact hiv
    have hget : (closed ++ [curr]).get i = curr := by
      rw [hieq]
      simp [List.get_eq_getElem, List.getElem_concat_length]
    rw [hget]
    obtain ⟨ha, hb2⟩ := hcurr
    refine ⟨ha, fun p hp => ?_⟩
    obtain ⟨j, hjp⟩ := List.mem_iff_get.mp (hb2 p hp)
    refine ⟨⟨j.val, by rw [hlen]; omega⟩, by show j.val < i.val; omega, ?_⟩
    rw [List.get_append j.val j.isLt]
    exact hjp

/-- The invariant survives popping `curr` off the frontier, marking its
tile 5 and appending it to the visited list. -/
theorem runInv_mark {g0 : Grid} {cfg : Config} {W H : Nat} {s : SearchState}
    {curr : Node} {rest : List Node} {g1 : Grid} (inv : RunInv g0 cfg W H s)
    (hperm : s.openL.Perm (curr :: rest))
    (hset : gridSet s.grid curr.y curr.x 5 = some g1) :
    RunInv g0 cfg W H ⟨g1, rest, s.closed ++ [curr]⟩ := by
  have hcurr : curr ∈ s.openL := hperm.mem_iff.mpr (List.mem_cons_self _ _)
  have hrest : ∀ n ∈ rest, n ∈ s.openL := fun n hn =>
    hperm.mem_iff.mpr (List.mem_cons_of_mem _ hn)
  have hci := inv.openInt curr hcurr
  obtain ⟨i1, i2, i3, i4⟩ := hci
  have hci : InteriorC W H curr.y curr.x := ⟨i1, i2, i3, i4⟩
  have h0y : (0:Int) ≤ curr.y := by omega
  have h0x : (0:Int) ≤ curr.x := by omega
  constructor
  · exact gridSet_dims h0y h0x hset inv.dims
  · intro y x hb hbord
    rw [gridGet_gridSet_ne h0y h0x hset hb.1 hb.2.2.1 (interior_not_border hci hbord)]
    exact inv.border y x hb hbord
  · intro y x hb
    by_cases hc : y = curr.y ∧ x = curr.x
    · obtain ⟨rfl, rfl⟩ := hc
      rw [gridGet_gridSet_self h0y h0x hset]
      constructor
      · intro h5; injection h5; omega
      · intro h0
        exact absurd h0 (inv.openPass curr hcurr)
    · rw [gridGet_gridSet_ne h0y h0x hset hb.1 hb.2.2.1 hc]
      exact inv.wallEq y x hb
  · intro y x hb
    by_cases hc : y = curr.y ∧ x = curr.x
    · obtain ⟨rfl, rfl⟩ := hc
      rw [gridGet_gridSet_self h0y h0x hset]
      intro h5; injection h5; omega
    · rw [gridGet_gridSet_ne h0y h0x hset hb.1 hb.2.2.1 hc]
      exact inv.no6 y x hb
  · intro n hn
    exact inv.openInt n (hrest n hn)
  · intro n hn
    rcases List.mem_append.mp hn with h | h
    · exact inv.closedInt n h
    · rw [List.mem_singleton.mp h]
      exact ⟨i1, i2, i3, i4⟩
  · have hp : (coordsOf s.openL ++ coordsOf s.closed).Perm
        (coordsOf rest ++ (coordsOf s.closed ++ [(curr.y, curr.x)])) := by
      have h1 := hperm.map (fun n : Node => (n.y, n.x))
      have h2 := h1.append_right (coordsOf s.closed)
      have h3 := (List.perm_append_singleton (curr.y, curr.x)
        (coordsOf rest ++ coordsOf s.closed)).symm
      have h4 := h2.trans h3
      rw [List.append_assoc] at h4
      exact h4
    show (coordsOf rest ++ coordsOf (s.closed ++ [curr])).Nodup
    rw [coordsOf_append]
    exact hp.nodup_iff.mp inv.nodups
  · intro n hn
    exact inv.openPass n (hrest n hn)
  · intro n hn
    obtain ⟨ha, hb2⟩ := inv.openParent n (hrest n hn)
    exact ⟨ha, fun p hp => List.mem_append_left _ (hb2 p hp)⟩
  · exact closedParent_append inv.closedParent (inv.openParent curr hcurr)

/-- A passable in-bounds cell of a border-walled grid is interior. -/
theorem interior_of_passable {W H : Nat} {g : Grid} {y x : Int} {w : Nat}
    (hb : InBoundsC W H y x) (hborder : BorderWalls W H g)
    (hv : gridGet g y x = some w) (hw : w ≠ 1) : InteriorC W H y x := by
  obtain ⟨b1, b2, b3, b4⟩ := hb
  by_contra hni
  have hline : y = 0 ∨ y = (H : Int) - 1 ∨ x = 0 ∨ x = (W : Int) - 1 := by
    unfold InteriorC at hni
    omega
  have h1 := hborder y x ⟨b1, b2, b3, b4⟩ hline
  rw [hv] at h1
  injection h1 with h2
  exact hw h2

/-- The run invariant survives the admission loop of `DFS`/`BFS`/`Greedy`. -/
theorem runInv_post {g0 : Grid} {cfg : Config} {W H : Nat} {t : SearchState}
    {curr : Node} {L A : List Node} {s2 : SearchState} (inv1 : RunInv g0 cfg W H t)
    (post : AdmitPost L t A s2) (hL : ∀ nb ∈ L, InBoundsC W H nb.y nb.x)
    (hLpar : ∀ nb ∈ L, nb.parent = some curr) (hcurr : curr ∈ t.closed) :
    RunInv g0 cfg W H s2 := by
  have hAbounds : ∀ m ∈ A, InBoundsC W H m.y m.x := by
    intro m hm
    obtain ⟨nb, hnb, hy, hx, _⟩ := post.a_src m hm
    have := hL nb hnb
    rw [hy, hx]
    exact this
  have hApass : ∀ m ∈ A, ∃ w, gridGet t.grid m.y m.x = some w ∧ w ≠ 1 := by
    intro m hm
    exact isPath_some_true (post.a_pass m hm)
  have hAint : ∀ m ∈ A, InteriorC W H m.y m.x := by
    intro m hm
    obtain ⟨w, hw1, hw2⟩ := hApass m hm
    exact interior_of_passable (hAbounds m hm) inv1.border hw1 hw2
  have hAnotborder : ∀ y x : Int, InBoundsC W H y x →
      (y = 0 ∨ y = (H : Int) - 1 ∨ x = 0 ∨ x = (W : Int) - 1) →
      ∀ m ∈ A, ¬(m.y = y ∧ m.x = x) := by
    intro y x hb hline m hm hc
    have hi := hAint m hm
    rw [hc.1, hc.2] at hi
    obtain ⟨i1, i2, i3, i4⟩ := hi
    omega
  constructor
  · exact post.dims2 W H inv1.dims
  · intro y x hb hline
    rw [post.grid_other y x hb.1 hb.2.2.1 (hAnotborder y x hb hline)]
    exact inv1.border y x hb hline
  · intro y x hb
    by_cases hc : ∃ m ∈ A, m.y = y ∧ m.x = x
    · obtain ⟨m, hm, hcy, hcx⟩ := hc
      have hmark := post.grid_mark m hm
      rw [hcy, hcx] at hmark
      rw [hmark]
      obtain ⟨w, hw1, hw2⟩ := hApass m hm
      rw [hcy, hcx] at hw1
      constructor
      · intro h4; injection h4; omega
      · intro h0
        have h01 := (inv1.wallEq y x hb).mpr h0
        rw [hw1] at h01
        injection h01 with h2
        exact (hw2 h2).elim
    · push_neg at hc
      rw [post.grid_other y x hb.1 hb.2.2.1 (fun m hm hcc => hc m hm hcc.1 hcc.2)]
      exact inv1.wallEq y x hb
  · intro y x hb
    by_cases hc : ∃ m ∈ A, m.y = y ∧ m.x = x
    · obtain ⟨m, hm, hcy, hcx⟩ := hc
      have hmark := post.grid_mark m hm
      rw [hcy, hcx] at hmark
      rw [hmark]
      intro h4; injection h4; omega
    · push_neg at hc
      rw [post.grid_other y x hb.1 hb.2.2.1 (fun m hm hcc => hc m hm hcc.1 hcc.2)]
      exact inv1.no6 y x hb
  · intro n hn
    rw [post.open_eq] at hn
    rcases List.mem_append.mp hn with h | h
    · exact inv1.openInt n h
    · exact hAint n h
  · rw [post.closed_eq]
    exact inv1.closedInt
  · rw [post.open_eq, post.closed_eq, coordsOf_append]
    have hperm : List.Perm ((coordsOf t.openL ++ coordsOf A) ++ coordsOf t.closed)
        ((coordsOf t.openL ++ coordsOf t.closed) ++ coordsOf A) := by
      rw [List.append_assoc, List.append_assoc]
      exact List.Perm.append_left _ (List.perm_append_comm)
    rw [hperm.nodup_iff]
    rw [List.nodup_append]
    refine ⟨inv1.nodups, post.a_nodup, ?_⟩
    intro c hc1 hc2
    obtain ⟨m, hm, hme⟩ := List.mem_map.mp hc2
    rcases List.mem_append.mp hc1 with h | h
    · have : memNode m t.openL = true := memNode_iff.mpr (by rw [hme]; exact h)
      rw [post.a_not_open m hm] at this
      exact Bool.false_ne_true this
    · have : memNode m t.closed = true := memNode_iff.mpr (by rw [hme]; exact h)
      rw [post.a_not_closed m hm] at this
      exact Bool.false_ne_true this
  · intro n hn
    rw [post.open_eq] at hn
    rcases List.mem_append.mp hn with h | h
    · exact inv1.openPass n h
    · obtain ⟨w, hw1, hw2⟩ := hApass n h
      intro h0
      have := (inv1.wallEq n.y n.x (hAbounds n h)).mpr h0
      rw [hw1] at this
      injection this with h2
      exact hw2 h2
  · intro n hn
    rw [post.open_eq] at hn
    rcases List.mem_append.mp hn with h | h
    · obtain ⟨ha, hb2⟩ := inv1.openParent n h
      exact ⟨ha, fun p hp => by rw [post.closed_eq]; exact hb2 p hp⟩
    · obtain ⟨nb, hnb, hy, hx, hp⟩ := post.a_src n h
      rw [hp, hLpar nb hnb]
      refine ⟨fun hnone => by injection hnone, fun p hp2 => ?_⟩
      have : p = curr := by injection hp2 with h3; exact h3.symm
      rw [this, post.closed_eq]
      exact hcurr
  · rw [post.closed_eq]
    exact inv1.closedParent

/-- The run invariant survives the A* admission loop. -/
theorem runInv_postA {g0 : Grid} {cfg : Config} {W H : Nat} {t : SearchState}
    {curr : Node} {L A : List Node} {s2 : SearchState} (inv1 : RunInv g0 cfg W H t)
    (post : AStarPost cfg curr L t A s2) (hL : ∀ nb ∈ L, InBoundsC W H nb.y nb.x)
    (hLpar : ∀ nb ∈ L, nb.parent = some curr) (hcurr : curr ∈ t.closed) :
    RunInv g0 cfg W H s2 := by
  have hAbounds : ∀ m ∈ A, InBoundsC W H m.y m.x := by
    intro m hm
    obtain ⟨nb, hnb, he⟩ := post.a_src m hm
    rw [he]
    exact hL nb hnb
  have hApass : ∀ m ∈ A, ∃ w, gridGet t.grid m.y m.x = some w ∧ w ≠ 1 := by
    intro m hm
    exact isPath_some_true (post.a_pass m hm)
  have hAint : ∀ m ∈ A, InteriorC W H m.y m.x := by
    intro m hm
    obtain ⟨w, hw1, hw2⟩ := hApass m hm
    exact interior_of_passable (hAbounds m hm) inv1.border hw1 hw2
  have hAnotborder : ∀ y x : Int, InBoundsC W H y x →
      (y = 0 ∨ y = (H : Int) - 1 ∨ x = 0 ∨ x = (W : Int) - 1) →
      ∀ m ∈ A, ¬(m.y = y ∧ m.x = x) := by
    intro y x hb hline m hm hc
    have hi := hAint m hm
    rw [hc.1, hc.2] at hi
    obtain ⟨i1, i2, i3, i4⟩ := hi
    omega
  have hcoordsplit : ∀ n ∈ s2.openL,
      ((n.y, n.x) ∈ coordsOf t.openL) ∨ ((n.y, n.x) ∈ coordsOf A) := by
    intro n hn
    have : (n.y, n.x) ∈ coordsOf s2.openL := List.mem_map.mpr ⟨n, hn, rfl⟩
    rw [post.open_coords] at this
    exact List.mem_append.mp this
  constructor
  · exact post.dims2 W H inv1.dims
  · intro y x hb hline
    rw [post.grid_other y x hb.1 hb.2.2.1 (hAnotborder y x hb hline)]
    exact inv1.border y x hb hline
  · intro y x hb
    by_cases hc : ∃ m ∈ A, m.y = y ∧ m.x = x
    · obtain ⟨m, hm, hcy, hcx⟩ := hc
      have hmark := post.grid_mark m hm
      rw [hcy, hcx] at hmark
      rw [hmark]
      obtain ⟨w, hw1, hw2⟩ := hApass m hm
      rw [hcy, hcx] at hw1
      constructor
      · intro h4; injection h4; omega
      · intro h0
        have h01 := (inv1.wallEq y x hb).mpr h0
        rw [hw1] at h01
        injection h01 with h2
        exact (hw2 h2).elim
    · push_neg at hc
      rw [post.grid_other y x hb.1 hb.2.2.1 (fun m hm hcc => hc m hm hcc.1 hcc.2)]
      exact inv1.wallEq y x hb
  · intro y x hb
    by_cases hc : ∃ m ∈ A, m.y = y ∧ m.x = x
    · obtain ⟨m, hm, hcy, hcx⟩ := hc
      have hmark := post.grid_mark m hm
      rw [hcy, hcx] at hmark
      rw [hmark]
      intro h4; injection h4; omega
    · push_neg at hc
      rw [post.grid_other y x hb.1 hb.2.2.1 (fun m hm hcc => hc m hm hcc.1 hcc.2)]
      exact inv1.no6 y x hb
  · intro n hn
    rcases hcoordsplit n hn with h | h
    · obtain ⟨m, hm, hme⟩ := List.mem_map.mp h
      have hmy : m.y = n.y := congrArg Prod.fst hme
      have hmx : m.x = n.x := congrArg Prod.snd hme
      rw [← hmy, ← hmx]
      exact inv1.openInt m hm
    · obtain ⟨m, hm, hme⟩ := List.mem_map.mp h
      have hmy : m.y = n.y := congrArg Prod.fst hme
      have hmx : m.x = n.x := congrArg Prod.snd hme
      rw [← hmy, ← hmx]
      exact hAint m hm
  · rw [post.closed_eq]
    exact inv1.closedInt
  · have hco : coordsOf s2.openL ++ coordsOf s2.closed =
        (coordsOf t.openL ++ coordsOf A) ++ coordsOf t.closed := by
      rw [post.open_coords, post.closed_eq]
    rw [hco]
    have hperm : List.Perm ((coordsOf t.openL ++ coordsOf A) ++ coordsOf t.closed)
        ((coordsOf t.openL ++ coordsOf t.closed) ++ coordsOf A) := by
      rw [List.append_assoc, List.append_assoc]
      exact List.Perm.append_left _ (List.perm_append_comm)
    rw [hperm.nodup_iff]
    rw [List.nodup_append]
    refine ⟨inv1.nodups, post.a_nodup, ?_⟩
    intro c hc1 hc2
    obtain ⟨m, hm, hme⟩ := List.mem_map.mp hc2
    rcases List.mem_append.mp hc1 with h | h
    · have : memNode m t.openL = true := memNode_iff.mpr (by rw [hme]; exact h)
      rw [post.a_not_open m hm] at this
      exact Bool.false_ne_true this
    · have : memNode m t.closed = true := memNode_iff.mpr (by rw [hme]; exact h)
      rw [post.a_not_closed m hm] at this
      exact Bool.false_ne_true this
  · intro n hn
    rcases hcoordsplit n hn with h | h
    · obtain ⟨m, hm, hme⟩ := List.mem_map.mp h
      have hmy : m.y = n.y := congrArg Prod.fst hme
      have hmx : m.x = n.x := congrArg Prod.snd hme
      rw [← hmy, ← hmx]
      exact inv1.openPass m hm
    · obtain ⟨m, hm, hme⟩ := List.mem_map.mp h
      have hmy : m.y = n.y := congrArg Prod.fst hme
      have hmx : m.x = n.x := congrArg Prod.snd hme
      rw [← hmy, ← hmx]
      obtain ⟨w, hw1, hw2⟩ := hApass m hm
      intro h0
      have h01 := (inv1.wallEq m.y m.x (hAbounds m hm)).mpr h0
      rw [hw1] at h01
      injection h01 with h2
      exact hw2 h2
  · intro n hn
    rcases post.open_src n hn with h | ⟨nb, hnb, he⟩
    · obtain ⟨ha, hb2⟩ := inv1.openParent n h
      exact ⟨ha, fun p hp => by rw [post.closed_eq]; exact hb2 p hp⟩
    · rw [he]
      show ((aStarCand cfg curr nb).parent = none → _) ∧ _
      rw [show (aStarCand cfg curr nb).parent = nb.parent from rfl, hLpar nb hnb]
      refine ⟨fun hnone => by injection hnone, fun p hp2 => ?_⟩
      have hpc : p = curr := by injection hp2 with h3; exact h3.symm
      rw [hpc, post.closed_eq]
      exact hcurr
  · rw [post.closed_eq]
    exact inv1.closedParent

theorem coords_sub_of_perm {l : List Node} {curr : Node} {rest : List Node}
    (hperm : l.Perm (curr :: rest)) : ∀ c ∈ coordsOf rest, c ∈ coordsOf l := by
  intro c hc
  have hp := hperm.map (fun n : Node => (n.y, n.x))
  exact hp.mem_iff.mpr (List.mem_cons_of_mem _ hc)

/-- Extras shared by the success case of every strategy. -/
theorem step_assemble_succ {g0 : Grid} {cfg : Config} {W H : Nat} {s : SearchState}
    {curr : Node} {rest : List Node} {g1 : Grid} (inv : RunInv g0 cfg W H s)
    (hperm : s.openL.Perm (curr :: rest))
    (hset : gridSet s.grid curr.y curr.x 5 = some g1) :
    RunInv g0 cfg W H ⟨g1, rest, s.closed ++ [curr]⟩ ∧
    gridGet g1 curr.y curr.x = some 5 ∧
    (∀ nb : Node, memNode nb rest = true → memNode nb s.openL = false →
      gridGet g1 nb.y nb.x = some 4) := by
  have hcurr : curr ∈ s.openL := hperm.mem_iff.mpr (List.mem_cons_self _ _)
  obtain ⟨i1, i2, i3, i4⟩ := inv.openInt curr hcurr
  have h0y : (0:Int) ≤ curr.y := by omega
  have h0x : (0:Int) ≤ curr.x := by omega
  refine ⟨runInv_mark inv hperm hset, gridGet_gridSet_self h0y h0x hset, ?_⟩
  intro nb hm1 hm2
  have hc : (nb.y, nb.x) ∈ coordsOf s.openL :=
    coords_sub_of_perm hperm _ (memNode_iff.mp hm1)
  rw [memNode_iff.mpr hc] at hm2
  exact absurd hm2 (by simp)

/-- Extras shared by the continuing case of `DFS`/`BFS`/`Greedy`. -/
theorem step_assemble_plain {g0 : Grid} {cfg : Config} {W H : Nat} {s : SearchState}
    {curr : Node} {rest : List Node} {g1 : Grid} {A : List Node} {s2 : SearchState}
    (inv : RunInv g0 cfg W H s) (hperm : s.openL.Perm (curr :: rest))
    (hset : gridSet s.grid curr.y curr.x 5 = some g1)
    (post : AdmitPost (getNeighbors cfg.DIAGONAL curr)
      ⟨g1, rest, s.closed ++ [curr]⟩ A s2) :
    RunInv g0 cfg W H s2 ∧ s2.closed = s.closed ++ [curr] ∧
    gridGet s2.grid curr.y curr.x = some 5 ∧
    (∀ nb : Node, memNode nb s2.openL = true → memNode nb s.openL = false →
      gridGet s2.grid nb.y nb.x = some 4) := by
  have hcurr : curr ∈ s.openL := hperm.mem_iff.mpr (List.mem_cons_self _ _)
  obtain ⟨i1, i2, i3, i4⟩ := inv.openInt curr hcurr
  have hci : InteriorC W H curr.y curr.x := ⟨i1, i2, i3, i4⟩
  have h0y : (0:Int) ≤ curr.y := by omega
  have h0x : (0:Int) ≤ curr.x := by omega
  have inv1 : RunInv g0 cfg W H ⟨g1, rest, s.closed ++ [curr]⟩ := runInv_mark inv hperm hset
  have hcmem : curr ∈ s.closed ++ [curr] :=
    List.mem_append_right _ (List.mem_singleton.mpr rfl)
  have hAne : ∀ m ∈ A, ¬(m.y = curr.y ∧ m.x = curr.x) := by
    intro m hm hc
    exact memNode_false_coords (post.a_not_closed m hm) hcmem ⟨hc.1.symm, hc.2.symm⟩
  refine ⟨runInv_post inv1 post (getNeighbors_inBounds hci)
    (fun nb h => (getNeighbors_spec _ _ nb h).1) hcmem, post.closed_eq, ?_, ?_⟩
  · rw [post.grid_other curr.y curr.x h0y h0x hAne]
    exact gridGet_gridSet_self h0y h0x hset
  · intro nb hm1 hm2
    rw [post.open_eq] at hm1
    rw [memNode_append] at hm1
    rcases Bool.or_eq_true_iff.mp hm1 with h | h
    · have hc : (nb.y, nb.x) ∈ coordsOf s.openL :=
        coords_sub_of_perm hperm _ (memNode_iff.mp h)
      rw [memNode_iff.mpr hc] at hm2
      exact absurd hm2 (by simp)
    · obtain ⟨m, hm, hme⟩ := List.mem_map.mp (memNode_iff.mp h)
      have hmy : m.y = nb.y := congrArg Prod.fst hme
      have hmx : m.x = nb.x := congrArg Prod.snd hme
      rw [← hmy, ← hmx]
      exact post.grid_mark m hm

/-- Extras of the continuing case of `AStar`. -/
theorem step_assemble_astar {g0 : Grid} {cfg : Config} {W H : Nat} {s : SearchState}
    {curr : Node} {rest : List Node} {g1 : Grid} {A : List Node} {s2 : SearchState}
    (inv : RunInv g0 cfg W H s) (hperm : s.openL.Perm (curr :: rest))
    (hset : gridSet s.grid curr.y curr.x 5 = some g1)
    (post : AStarPost cfg curr (getNeighbors cfg.DIAGONAL curr)
      ⟨g1, rest, s.closed ++ [curr]⟩ A s2) :
    RunInv g0 cfg W H s2 ∧ s2.closed = s.closed ++ [curr] ∧
    gridGet s2.grid curr.y curr.x = some 5 ∧
    (∀ nb : Node, memNode nb s2.openL = true → memNode nb s.openL = false →
      gridGet s2.grid nb.y nb.x = some 4) := by
  have hcurr : curr ∈ s.openL := hperm.mem_iff.mpr (List.mem_cons_self _ _)
  obtain ⟨i1, i2, i3, i4⟩ := inv.openInt curr hcurr
  have hci : InteriorC W H curr.y curr.x := ⟨i1, i2, i3, i4⟩
  have h0y : (0:Int) ≤ curr.y := by omega
  have h0x : (0:Int) ≤ curr.x := by omega
  have inv1 : RunInv g0 cfg W H ⟨g1, rest, s.closed ++ [curr]⟩ := runInv_mark inv hperm hset
  have hcmem : curr ∈ s.closed ++ [curr] :=
    List.mem_append_right _ (List.mem_singleton.mpr rfl)
  have hAne : ∀ m ∈ A, ¬(m.y = curr.y ∧ m.x = curr.x) := by
    intro m hm hc
    exact memNode_false_coords (post.a_not_closed m hm) hcmem ⟨hc.1.symm, hc.2.symm⟩
  refine ⟨runInv_postA inv1 post (getNeighbors_inBounds hci)
    (fun nb h => (getNeighbors_spec _ _ nb h).1) hcmem, post.closed_eq, ?_, ?_⟩
  · rw [post.grid_other curr.y curr.x h0y h0x hAne]
    exact gridGet_gridSet_self h0y h0x hset
  · intro nb hm1 hm2
    have hcmem2 : (nb.y, nb.x) ∈ coordsOf s2.openL := memNode_iff.mp hm1
    rw [post.open_coords] at hcmem2
    rcases List.mem_append.mp hcmem2 with h | h
    · have hc : (nb.y, nb.x) ∈ coordsOf s.openL := coords_sub_of_perm hperm _ h
      rw [memNode_iff.mpr hc] at hm2
      exact absurd hm2 (by simp)
    · obtain ⟨m, hm, hme⟩ := List.mem_map.mp h
      have hmy : m.y = nb.y := congrArg Prod.fst hme
      have hmx : m.x = nb.x := congrArg Prod.snd hme
      rw [← hmy, ← hmx]
      exact post.grid_mark m hm

/-- One call of any strategy on an invariant state returns a result (never
raises), preserves the invariant, and either reports failure on an empty
frontier without touching the state, or pops one frontier node: the
popped node joins the visited list, its tile is marked 5, success is
reported exactly when it is the end node, and every newly admitted
frontier coordinate is marked 4. -/
theorem runInv_step {g0 : Grid} {cfg : Config} {W H : Nat} {s : SearchState}
    (strat : Strat) (inv : RunInv g0 cfg W H s) :
    ∃ r s2, strategyStep strat cfg s = some (r, s2) ∧ RunInv g0 cfg W H s2 ∧
      ((r = StepRes.failure ∧ s2 = s ∧ s.openL = []) ∨
       (r ≠ StepRes.failure ∧ ∃ curr, curr ∈ s.openL ∧
         s2.closed = s.closed ++ [curr] ∧
         gridGet s2.grid curr.y curr.x = some 5 ∧
         (r = StepRes.success ↔ nodeEq curr cfg.END = true) ∧
         (∀ nb : Node, memNode nb s2.openL = true → memNode nb s.openL = false →
           gridGet s2.grid nb.y nb.x = some 4))) := by
  cases strat
  case dfs =>
    by_cases hsl : s.openL = []
    · exact ⟨.failure, s, DFS_fail cfg s hsl, inv, Or.inl ⟨rfl, rfl, hsl⟩⟩
    · obtain ⟨curr, rest, hpop⟩ : ∃ curr rest, popLast s.openL = some (curr, rest) := by
        unfold popLast
        cases hgl : s.openL.getLast? with
        | none =>
          rw [List.getLast?_eq_getLast s.openL hsl] at hgl
          exact absurd hgl (by simp)
        | some n => exact ⟨n, s.openL.dropLast, rfl⟩
      obtain ⟨hperm, hcurr⟩ := popLast_perm hpop
      obtain ⟨g1, hset, hcases⟩ := DFS_step_spec cfg s inv.dims inv.openInt hpop
      rcases hcases with ⟨hEnd, heq⟩ | ⟨hEndf, A, s2, heq, post⟩
      · obtain ⟨hinv2, h5, h4⟩ := step_assemble_succ inv hperm hset
        exact ⟨.success, _, heq, hinv2,
          Or.inr ⟨by simp, curr, hcurr, rfl, h5, by simp [hEnd], h4⟩⟩
      · obtain ⟨hinv2, hcl, h5, h4⟩ := step_assemble_plain inv hperm hset post
        exact ⟨.cont, s2, heq, hinv2,
          Or.inr ⟨by simp, curr, hcurr, hcl, h5, by simp [hEndf], h4⟩⟩
  case bfs =>
    by_cases hsl : s.openL = []
    · exact ⟨.failure, s, BFS_fail cfg s hsl, inv, Or.inl ⟨rfl, rfl, hsl⟩⟩
    · obtain ⟨curr, rest, hpop⟩ : ∃ curr rest, s.openL = curr :: rest := by
        cases h2 : s.openL with
        | nil => exact absurd h2 hsl
        | cons a l2 => exact ⟨a, l2, rfl⟩
      have hperm : s.openL.Perm (curr :: rest) := by rw [hpop]
      have hcurr : curr ∈ s.openL := by rw [hpop]; exact List.mem_cons_self _ _
      obtain ⟨g1, hset, hcases⟩ := BFS_step_spec cfg s inv.dims inv.openInt hpop
      rcases hcases with ⟨hEnd, heq⟩ | ⟨hEndf, A, s2, heq, post⟩
      · obtain ⟨hinv2, h5, h4⟩ := step_assemble_succ inv hperm hset
        exact ⟨.success, _, heq, hinv2,
          Or.inr ⟨by simp, curr, hcurr, rfl, h5, by simp [hEnd], h4⟩⟩
      · obtain ⟨hinv2, hcl, h5, h4⟩ := step_assemble_plain inv hperm hset post
        exact ⟨.cont, s2, heq, hinv2,
          Or.inr ⟨by simp, curr, hcurr, hcl, h5, by simp [hEndf], h4⟩⟩
  case greedy =>
    by_cases hsl : s.openL = []
    · exact ⟨.failure, s, Greedy_fail cfg s hsl, inv, Or.inl ⟨rfl, rfl, hsl⟩⟩
    · obtain ⟨curr, rest, hsort⟩ :
          ∃ curr rest, sortByKey Node.hCost s.openL = curr :: rest := by
        cases h2 : sortByKey Node.hCost s.openL with
        | nil => exact absurd h2 (sortByKey_ne_nil Node.hCost hsl)
        | cons a l2 => exact ⟨a, l2, rfl⟩
      have hperm : s.openL.Perm (curr :: rest) := by
        rw [← hsort]
        exact (sortByKey_perm Node.hCost s.openL).symm
      have hcurr : curr ∈ s.openL := hperm.mem_iff.mpr (List.mem_cons_self _ _)
      obtain ⟨g1, hset, hcases⟩ := Greedy_step_spec cfg s inv.dims inv.openInt hsort
      rcases hcases with ⟨hEnd, heq⟩ | ⟨hEndf, A, s2, heq, post⟩
      · obtain ⟨hinv2, h5, h4⟩ := step_assemble_succ inv hperm hset
        exact ⟨.success, _, heq, hinv2,
          Or.inr ⟨by simp, curr, hcurr, rfl, h5, by simp [hEnd], h4⟩⟩
      · obtain ⟨hinv2, hcl, h5, h4⟩ := step_assemble_plain inv hperm hset post
        exact ⟨.cont, s2, heq, hinv2,
          Or.inr ⟨by simp, curr, hcurr, hcl, h5, by simp [hEndf], h4⟩⟩
  case astar =>
    by_cases hsl : s.openL = []
    · exact ⟨.failure, s, AStar_fail cfg s hsl, inv, Or.inl ⟨rfl, rfl, hsl⟩⟩
    · obtain ⟨curr, rest, hsort⟩ :
          ∃ curr rest, sortByKey Node.fCost s.openL = curr :: rest := by
        cases h2 : sortByKey Node.fCost s.openL with
        | nil => exact absurd h2 (sortByKey_ne_nil Node.fCost hsl)
        | cons a l2 => exact ⟨a, l2, rfl⟩
      have hperm : s.openL.Perm (curr :: rest) := by
        rw [← hsort]
        exact (sortByKey_perm Node.fCost s.openL).symm
      have hcurr : curr ∈ s.openL := hperm.mem_iff.mpr (List.mem_cons_self _ _)
      obtain ⟨g1, hset, hcases⟩ := AStar_step_spec cfg s inv.dims inv.openInt hsort
      rcases hcases with ⟨hEnd, heq⟩ | ⟨hEndf, A, s2, heq, post⟩
      · obtain ⟨hinv2, h5, h4⟩ := step_assemble_succ inv hperm hset
        exact ⟨.success, _, heq, hinv2,
          Or.inr ⟨by simp, curr, hcurr, rfl, h5, by simp [hEnd], h4⟩⟩
      · obtain ⟨hinv2, hcl, h5, h4⟩ := step_assemble_astar inv hperm hset post
        exact ⟨.cont, s2, heq, hinv2,
          Or.inr ⟨by simp, curr, hcurr, hcl, h5, by simp [hEndf], h4⟩⟩

/-! ## Seeding and iteration -/

/-- Conditions on the configuration and the seeded grid that `start()`
establishes: correct dimensions, the permanent border wall, no leftover
final-path coloring, and a start node that is interior, passable and
parentless. -/
def SeedOK (cfg : Config) (W H : Nat) (g0 : Grid) : Prop :=
  dimsOK g0 W H ∧ BorderWalls W H g0 ∧
  (∀ y x : Int, InBoundsC W H y x → ¬(gridGet g0 y x = some 6)) ∧
  InteriorC W H cfg.START.y cfg.START.x ∧
  ¬(gridGet g0 cfg.START.y cfg.START.x = some 1) ∧
  cfg.START.parent = none

theorem runInv_seed {cfg : Config} {W H : Nat} {g0 : Grid} (h : SeedOK cfg W H g0) :
    RunInv g0 cfg W H ⟨g0, [cfg.START], []⟩ := by
  obtain ⟨hdims, hborder, hno6, hint, hpass, hparent⟩ := h
  constructor
  · exact hdims
  · exact hborder
  · intro y x hb; exact Iff.rfl
  · intro y x hb; exact hno6 y x hb
  · intro n hn
    rw [List.mem_singleton.mp hn]
    exact hint
  · intro n hn; exact absurd hn (List.not_mem_nil _)
  · show ((cfg.START.y, cfg.START.x) :: ([] ++ [])).Nodup
    exact List.nodup_singleton _
  · intro n hn
    rw [List.mem_singleton.mp hn]
    exact hpass
  · intro n hn
    rw [List.mem_singleton.mp hn]
    refine ⟨fun _ => nodeEq_refl _, fun p hp => ?_⟩
    rw [hparent] at hp
    exact absurd hp (by simp)
  · intro i
    exact absurd i.isLt (by simp)

theorem runInv_iter {g0 : Grid} {cfg : Config} {W H : Nat} (strat : Strat)
    (n : Nat) : ∀ {s : SearchState}, RunInv g0 cfg W H s →
    ∃ s2, iterSteps strat cfg n s = some s2 ∧ RunInv g0 cfg W H s2 := by
  induction n with
  | zero => exact fun inv => ⟨_, rfl, inv⟩
  | succ m ih =>
    intro s inv
    obtain ⟨r, s1, hstep, inv1, _⟩ := runInv_step strat inv
    obtain ⟨s2, hiter, inv2⟩ := ih inv1
    refine ⟨s2, ?_, inv2⟩
    show iterSteps strat cfg (m + 1) s = some s2
    unfold iterSteps
    rw [hstep]
    exact hiter

/-! ## Bounded grid checks (used to discharge hypotheses on fixtures) -/

/-- Executable check that every in-bounds cell exists and satisfies `p`. -/
def cellsCheck (W H : Nat) (p : Int → Int → Nat → Bool) (g : Grid) : Bool :=
  (List.range H).all (fun y => (List.range W).all (fun x =>
    match gridGet g (y : Int) (x : Int) with
    | none => false
    | some v => p (y : Int) (x : Int) v))

theorem cellsCheck_spec {W H : Nat} {p : Int → Int → Nat → Bool} {g : Grid}
    (h : cellsCheck W H p g = true) :
    ∀ y x : Int, InBoundsC W H y x → ∃ v, gridGet g y x = some v ∧ p y x v = true := by
  intro y x hb
  obtain ⟨b1, b2, b3, b4⟩ := hb
  have hy : y.toNat ∈ List.range H := List.mem_range.mpr (by omega)
  have hx : x.toNat ∈ List.range W := List.mem_range.mpr (by omega)
  have hyy : ((y.toNat : Nat) : Int) = y := Int.toNat_of_nonneg b1
  have hxx : ((x.toNat : Nat) : Int) = x := Int.toNat_of_nonneg b3
  have h1 := List.all_eq_true.mp h y.toNat hy
  have h2 := List.all_eq_true.mp h1 x.toNat hx
  simp only [hyy, hxx] at h2
  cases hg : gridGet g y x with
  | none =>
    simp [hg] at h2
  | some v =>
    simp only [hg] at h2
    exact ⟨v, rfl, h2⟩

/-- Executable sufficient condition for `BorderWalls`. -/
def borderCheck (W H : Nat) (g : Grid) : Bool :=
  cellsCheck W H (fun y x v =>
    if y = 0 ∨ y = (H : Int) - 1 ∨ x = 0 ∨ x = (W : Int) - 1 then v == 1 else true) g

theorem borderWalls_of_check {W H : Nat} {g : Grid} (h : borderCheck W H g = true) :
    BorderWalls W H g := by
  intro y x hb hline
  obtain ⟨v, hv, hp⟩ := cellsCheck_spec h y x hb
  rw [if_pos hline] at hp
  rw [hv]
  have hv1 : v = 1 := by simpa using hp
  rw [hv1]

/-- Executable sufficient condition for the no-6 hypothesis. -/
def no6Check (W H : Nat) (g : Grid) : Bool :=
  cellsCheck W H (fun _ _ v => v != 6) g

theorem no6_of_check {W H : Nat} {g : Grid} (h : no6Check W H g = true) :
    ∀ y x : Int, InBoundsC W H y x → ¬(gridGet g y x = some 6) := by
  intro y x hb hc
  obtain ⟨v, hv, hp⟩ := cellsCheck_spec h y x hb
  rw [hv] at hc
  injection hc with hc2
  rw [hc2] at hp
  simp at hp

/-! ## Fixtures used by the witnesses -/

/-- A 4×4 instance of the application's default grid: border walls, start
`(1,1)`, end `(2,2)`, the remaining interior open. -/
def demoGrid : Grid := [[1, 1, 1, 1], [1, 2, 0, 1], [1, 0, 3, 1], [1, 1, 1, 1]]

/-- Configuration on `demoGrid` with diagonal movement off. -/
def demoCfg : Config := ⟨Node.mk 1 1 none 0 0, Node.mk 2 2 none 0 0, false⟩

/-- The freshly seeded state on `demoGrid`. -/
def demoState : SearchState := ⟨demoGrid, [demoCfg.START], []⟩

theorem demo_seedOK : SeedOK demoCfg 4 4 demoGrid := by
  refine ⟨⟨rfl, ?_⟩, borderWalls_of_check (by decide), no6_of_check (by decide),
    ⟨by decide, by decide, by decide, by decide⟩, by decide, rfl⟩
  decide

/-! ## Claim C5 -/

/-- **C5.**  For every strategy (DFS, BFS, Greedy, A*) and every number of
`step()` calls starting from a freshly seeded run on a well-formed
bordered grid (the state `start()` leaves behind), each coordinate
appears in the Visited sequence at most once. -/
theorem claim_no_revisit (strat : Strat) (cfg : Config) (W H : Nat) {g0 : Grid}
    {s0 sn : SearchState} (hseed : Seeded cfg s0) (hg : s0.grid = g0)
    (hok : SeedOK cfg W H g0) (n : Nat)
    (hrun : iterSteps strat cfg n s0 = some sn) :
    (coordsOf sn.closed).Nodup := by
  obtain ⟨ho, hc⟩ := hseed
  obtain ⟨g, ol, cl⟩ := s0
  simp only [] at ho hc hg
  subst hg
  subst ho
  subst hc
  obtain ⟨s2, hit, inv2⟩ := runInv_iter strat n (runInv_seed hok)
  rw [hrun] at hit
  rw [Option.some_inj.mp hit]
  exact List.Nodup.of_append_right inv2.nodups

theorem claim_no_revisit_witness :
    ∃ sn, iterSteps Strat.bfs demoCfg 3 demoState = some sn ∧
      (coordsOf sn.closed).Nodup := by
  have h : ∃ sn, iterSteps Strat.bfs demoCfg 3 demoState = some sn := by
    cases hv : iterSteps Strat.bfs demoCfg 3 demoState with
    | none => exact absurd hv (by decide)
    | some s => exact ⟨s, rfl⟩
  obtain ⟨sn, hsn⟩ := h
  exact ⟨sn, hsn,
    claim_no_revisit Strat.bfs demoCfg 4 4 ⟨rfl, rfl⟩ rfl demo_seedOK 3 hsn⟩

/-! ## Claim C9 -/

/-- **C9.**  `Node.__eq__` compares exactly the two coordinates: `a == b`
iff `a`'s row and column equal `b`'s, and the result is unchanged under
arbitrary replacement of the `gCost`, `hCost` and `parent` fields of
either side. -/
theorem claim_node_identity :
    (∀ a b : Node, nodeEq a b = true ↔ a.y = b.y ∧ a.x = b.x) ∧
    (∀ (y x y2 x2 : Int) (p p2 q q2 : Option Node) (g h g2 h2 g3 h3 g4 h4 : Nat),
      nodeEq (Node.mk y x p g h) (Node.mk y2 x2 p2 g2 h2) =
        nodeEq (Node.mk y x q g3 h3) (Node.mk y2 x2 q2 g4 h4)) := by
  constructor
  · intro a b
    exact nodeEq_iff
  · intro y x y2 x2 p p2 q q2 g h g2 h2 g3 h3 g4 h4
    rfl

/-! ## Claim C8 (corrected): stepping after Failure -/

/-- Grid whose interior walls seal the start off from the end. -/
def demoWalledGrid : Grid := [[1, 1, 1, 1], [1, 2, 1, 1], [1, 1, 3, 1], [1, 1, 1, 1]]

/-- Seeded state on `demoWalledGrid`. -/
def demoWalledState : SearchState := ⟨demoWalledGrid, [demoCfg.START], []⟩

/-- **C8, counterexample.**  After a step that returned Failure (empty
frontier), invoking the step function again returns the ordinary value
`Failure` once more, with the state unchanged — no error is raised (the
model's error outcome would be `none`; `InvalidRunState` does not exist
in the program). -/
theorem claim_failure_error_counterexample :
    ∃ s1 s2, strategyStep Strat.bfs demoCfg demoWalledState = some (.cont, s1) ∧
      strategyStep Strat.bfs demoCfg s1 = some (.failure, s2) ∧
      strategyStep Strat.bfs demoCfg s2 = some (.failure, s2) := by
  refine ⟨⟨[[1, 1, 1, 1], [1, 5, 1, 1], [1, 1, 3, 1], [1, 1, 1, 1]],
    [], [Node.mk 1 1 none 0 0]⟩, _, rfl, rfl, rfl⟩

/-- **C8, amended.**  Re-invoking `step()` after a `Failure` result (the
frontier is empty and stays empty) returns `Failure` again for every
strategy, rather than raising an error. -/
theorem claim_failure_idempotent (strat : Strat) (cfg : Config) (s : SearchState)
    (h : s.openL = []) : strategyStep strat cfg s = some (.failure, s) := by
  cases strat
  case dfs => exact DFS_fail cfg s h
  case bfs => exact BFS_fail cfg s h
  case greedy => exact Greedy_fail cfg s h
  case astar => exact AStar_fail cfg s h

theorem claim_failure_idempotent_witness :
    strategyStep Strat.dfs demoCfg ⟨demoGrid, [], []⟩ =
      some (.failure, ⟨demoGrid, [], []⟩) :=
  claim_failure_idempotent Strat.dfs demoCfg ⟨demoGrid, [], []⟩ rfl

/-! ## Claim C1 (corrected): expansion markings -/

/-- **C1, counterexample.**  On the default-style grid, the very first
BFS step overwrites the Start tile with the Visited classification (5),
and the second step overwrites the End tile with the Frontier
classification (4), contradicting the claim that the Start and End cells
are never overwritten and that the End tile's classification is
preserved on admission. -/
theorem claim_markings_counterexample :
    ∃ s1 s2, iterSteps Strat.bfs demoCfg 1 demoState = some s1 ∧
      gridGet s1.grid demoCfg.START.y demoCfg.START.x = some 5 ∧
      iterSteps Strat.bfs demoCfg 2 demoState = some s2 ∧
      gridGet s2.grid demoCfg.END.y demoCfg.END.x = some 4 := by
  refine ⟨_, _, rfl, by decide, rfl, by decide⟩

/-- **C1, amended.**  On every step that pops a node (any strategy, any
state reachable in a run), the removed node's tile is marked Visited (5)
— including when the removed node is the Start or End node — and every
newly admitted frontier coordinate is marked Frontier (4) — including
the End tile (the reconstruction and reset paths restore the Start and
End tiles afterwards). -/
theorem claim_markings_amended {g0 : Grid} {cfg : Config} {W H : Nat}
    {s : SearchState} (strat : Strat) (inv : RunInv g0 cfg W H s)
    {r : StepRes} {s2 : SearchState}
    (hstep : strategyStep strat cfg s = some (r, s2)) (hr : r ≠ StepRes.failure) :
    ∃ curr, curr ∈ s.openL ∧ s2.closed = s.closed ++ [curr] ∧
      gridGet s2.grid curr.y curr.x = some 5 ∧
      ∀ nb : Node, memNode nb s2.openL = true → memNode nb s.openL = false →
        gridGet s2.grid nb.y nb.x = some 4 := by
  obtain ⟨r2, s3, hstep2, _, hout⟩ := runInv_step strat inv
  rw [hstep] at hstep2
  have hpair := Option.some_inj.mp hstep2
  have hr2 : r = r2 := congrArg Prod.fst hpair
  have hs2 : s2 = s3 := congrArg Prod.snd hpair
  subst hr2
  subst hs2
  rcases hout with ⟨hf, _, _⟩ | ⟨_, curr, hc, hcl, h5, _, h4⟩
  · exact absurd hf hr
  · exact ⟨curr, hc, hcl, h5, h4⟩

theorem claim_markings_amended_witness :
    ∃ s1, strategyStep Strat.bfs demoCfg demoState = some (.cont, s1) ∧
      ∃ curr, curr ∈ demoState.openL ∧ s1.closed = demoState.closed ++ [curr] ∧
        gridGet s1.grid curr.y curr.x = some 5 ∧
        ∀ nb : Node, memNode nb s1.openL = true →
          memNode nb demoState.openL = false → gridGet s1.grid nb.y nb.x = some 4 := by
  have hs1 : strategyStep Strat.bfs demoCfg demoState = some (.cont,
      ⟨[[1, 1, 1, 1], [1, 5, 4, 1], [1, 4, 3, 1], [1, 1, 1, 1]],
        [Node.mk 1 2 (some (Node.mk 1 1 none 0 0)) 0 0,
         Node.mk 2 1 (some (Node.mk 1 1 none 0 0)) 0 0],
        [Node.mk 1 1 none 0 0]⟩) := by decide
  exact ⟨_, hs1, claim_markings_amended Strat.bfs (runInv_seed demo_seedOK) hs1 (by simp)⟩

/-! ## Claim C4: best-first removal policy -/

theorem admitGreedy_closed {cfg : Config} {t : SearchState} {nb : Node}
    {t2 : SearchState} (h : admitGreedy cfg t nb = some t2) : t2.closed = t.closed := by
  unfold admitGreedy at h
  cases hp : isPath t.grid nb with
  | none => rw [hp] at h; exact absurd h (by simp)
  | some p =>
    rw [hp] at h
    simp only [] at h
    split at h
    · split at h
      · exact absurd h (by simp)
      · injection h with h2
        rw [← h2]
    · injection h with h2
      rw [← h2]

theorem admitAStar_closed {cfg : Config} {curr : Node} {t : SearchState} {nb : Node}
    {t2 : SearchState} (h : admitAStar cfg curr t nb = some t2) :
    t2.closed = t.closed := by
  unfold admitAStar at h
  cases hp : isPath t.grid nb with
  | none => rw [hp] at h; exact absurd h (by simp)
  | some p =>
    rw [hp] at h
    simp only [] at h
    split at h
    · split at h
      · injection h with h2
        rw [← h2]
      · split at h
        · exact absurd h (by simp)
        · injection h with h2
          rw [← h2]
    · injection h with h2
      rw [← h2]

theorem foldlM_closed_greedy (cfg : Config) :
    ∀ (L : List Node) (t t2 : SearchState),
      L.foldlM (admitGreedy cfg) t = some t2 → t2.closed = t.closed := by
  intro L
  induction L with
  | nil =>
    intro t t2 h
    injection h with h2
    rw [← h2]
  | cons nb L2 ih =>
    intro t t2 h
    rw [List.foldlM_cons] at h
    cases hstep : admitGreedy cfg t nb with
    | none => rw [hstep] at h; exact absurd h (by simp)
    | some t1 =>
      rw [hstep] at h
      have h2 := ih t1 t2 h
      rw [h2, admitGreedy_closed hstep]

theorem foldlM_closed_astar (cfg : Config) (curr : Node) :
    ∀ (L : List Node) (t t2 : SearchState),
      L.foldlM (admitAStar cfg curr) t = some t2 → t2.closed = t.closed := by
  intro L
  induction L with
  | nil =>
    intro t t2 h
    injection h with h2
    rw [← h2]
  | cons nb L2 ih =>
    intro t t2 h
    rw [List.foldlM_cons] at h
    cases hstep : admitAStar cfg curr t nb with
    | none => rw [hstep] at h; exact absurd h (by simp)
    | some t1 =>
      rw [hstep] at h
      have h2 := ih t1 t2 h
      rw [h2, admitAStar_closed hstep]

/-- **C4.**  On a Greedy step with a non-empty frontier, the removed node
(the one appended to Visited) is the head of the stable sort of the
frontier by `hCost`: it attains the minimum `hCost`, and it is the first
occurrence among equal minimums (every strictly earlier frontier entry
has a strictly larger `hCost`).  On an A* step the same holds with the
key `gCost + hCost` (`fCost`). -/
theorem claim_best_first_pop (cfg : Config) (s : SearchState) (hne : s.openL ≠ []) :
    (∀ r s2, Greedy cfg s = some (r, s2) →
      ∃ curr rest, sortByKey Node.hCost s.openL = curr :: rest ∧
        s2.closed = s.closed ++ [curr] ∧
        (∀ m ∈ s.openL, curr.hCost ≤ m.hCost) ∧
        ∃ i, s.openL.get? i = some curr ∧
          ∀ j, j < i → ∀ a, s.openL.get? j = some a → curr.hCost < a.hCost) ∧
    (∀ r s2, AStar cfg s = some (r, s2) →
      ∃ curr rest, sortByKey Node.fCost s.openL = curr :: rest ∧
        s2.closed = s.closed ++ [curr] ∧
        (∀ m ∈ s.openL, curr.fCost ≤ m.fCost) ∧
        ∃ i, s.openL.get? i = some curr ∧
          ∀ j, j < i → ∀ a, s.openL.get? j = some a → curr.fCost < a.fCost) := by
  constructor
  · intro r s2 hstep
    obtain ⟨curr, rest, hsort⟩ :
        ∃ curr rest, sortByKey Node.hCost s.openL = curr :: rest := by
      cases h2 : sortByKey Node.hCost s.openL with
      | nil => exact absurd h2 (sortByKey_ne_nil Node.hCost hne)
      | cons a l2 => exact ⟨a, l2, rfl⟩
    obtain ⟨hmin, i, hi, hstrict⟩ := sortByKey_head Node.hCost s.openL curr rest hsort
    refine ⟨curr, rest, hsort, ?_, hmin, i, hi, hstrict⟩
    unfold Greedy at hstep
    rw [hsort] at hstep
    simp only [popFront] at hstep
    cases hset : gridSet s.grid curr.y curr.x 5 with
    | none => rw [hset] at hstep; exact absurd hstep (by simp)
    | some g1 =>
      simp only [hset] at hstep
      split at hstep
      · injection hstep with h2
        injection h2 with hr2 hs2
        rw [← hs2]
      · cases hfold : (getNeighbors cfg.DIAGONAL curr).foldlM (admitGreedy cfg)
            ⟨g1, rest, s.closed ++ [curr]⟩ with
        | none =>
          simp only [hfold] at hstep
          exact absurd hstep (by simp)
        | some s3 =>
          simp only [hfold] at hstep
          injection hstep with h2
          injection h2 with hr3 hs3
          rw [← hs3]
          exact foldlM_closed_greedy cfg _ _ _ hfold
  · intro r s2 hstep
    obtain ⟨curr, rest, hsort⟩ :
        ∃ curr rest, sortByKey Node.fCost s.openL = curr :: rest := by
      cases h2 : sortByKey Node.fCost s.openL with
      | nil => exact absurd h2 (sortByKey_ne_nil Node.fCost hne)
      | cons a l2 => exact ⟨a, l2, rfl⟩
    obtain ⟨hmin, i, hi, hstrict⟩ := sortByKey_head Node.fCost s.openL curr rest hsort
    refine ⟨curr, rest, hsort, ?_, hmin, i, hi, hstrict⟩
    unfold AStar at hstep
    rw [hsort] at hstep
    simp only [popFront] at hstep
    cases hset : gridSet s.grid curr.y curr.x 5 with
    | none => rw [hset] at hstep; exact absurd hstep (by simp)
    | some g1 =>
      simp only [hset] at hstep
      split at hstep
      · injection hstep with h2
        injection h2 with hr2 hs2
        rw [← hs2]
      · cases hfold : (getNeighbors cfg.DIAGONAL curr).foldlM (admitAStar cfg curr)
            ⟨g1, rest, s.closed ++ [curr]⟩ with
        | none =>
          simp only [hfold] at hstep
          exact absurd hstep (by simp)
        | some s3 =>
          simp only [hfold] at hstep
          injection hstep with h2
          injection h2 with hr3 hs3
          rw [← hs3]
          exact foldlM_closed_astar cfg curr _ _ _ hfold

theorem claim_best_first_pop_witness :
    ∃ r s2, Greedy demoCfg demoState = some (r, s2) ∧
      ∃ curr rest, sortByKey Node.hCost demoState.openL = curr :: rest ∧
        s2.closed = demoState.closed ++ [curr] ∧
        (∀ m ∈ demoState.openL, curr.hCost ≤ m.hCost) ∧
        ∃ i, demoState.openL.get? i = some curr ∧
          ∀ j, j < i → ∀ a, demoState.openL.get? j = some a → curr.hCost < a.hCost := by
  have hstep : Greedy demoCfg demoState = some (.cont,
      ⟨[[1, 1, 1, 1], [1, 5, 4, 1], [1, 4, 3, 1], [1, 1, 1, 1]],
        [Node.mk 1 2 (some (Node.mk 1 1 none 0 0)) 0 1,
         Node.mk 2 1 (some (Node.mk 1 1 none 0 0)) 0 1],
        [Node.mk 1 1 none 0 0]⟩) := by decide
  exact ⟨_, _, hstep,
    (claim_best_first_pop demoCfg demoState (by decide)).1 _ _ hstep⟩

/-! ## Claim C3: A* cost relaxation -/

/-- **C3.**  In an A* step's admission body: (a) a candidate whose
coordinate is already in Visited is always discarded, regardless of cost;
(b) for a passable candidate not in Visited whose coordinate already has
a frontier entry, the candidate's `gCost` is `curr.gCost + 1` (unit edge
weight, independent of the movement model), the grid and Visited are
untouched, the frontier keeps its length, and each frontier entry is
replaced in place at its own position by the candidate exactly when its
coordinate matches and its `gCost` is strictly larger; entries with a
non-matching coordinate or a `gCost ≤ curr.gCost + 1` are left as they
were. -/
theorem claim_astar_relax (cfg : Config) (curr : Node) (s : SearchState) (nb : Node)
    (p : Bool) (hp : isPath s.grid nb = some p) :
    (memNode nb s.closed = true → admitAStar cfg curr s nb = some s) ∧
    (p = true → memNode nb s.closed = false →
      memNode (aStarCand cfg curr nb) s.openL = true →
      (aStarCand cfg curr nb).gCost = curr.gCost + 1 ∧
      ∃ s2, admitAStar cfg curr s nb = some s2 ∧ s2.grid = s.grid ∧
        s2.closed = s.closed ∧ s2.openL.length = s.openL.length ∧
        ∀ i (hi : i < s.openL.length) (hi2 : i < s2.openL.length),
          (nodeEq (s.openL.get ⟨i, hi⟩) (aStarCand cfg curr nb) = true →
            (curr.gCost + 1 < (s.openL.get ⟨i, hi⟩).gCost →
              s2.openL.get ⟨i, hi2⟩ = aStarCand cfg curr nb) ∧
            (¬(curr.gCost + 1 < (s.openL.get ⟨i, hi⟩).gCost) →
              s2.openL.get ⟨i, hi2⟩ = s.openL.get ⟨i, hi⟩)) ∧
          (nodeEq (s.openL.get ⟨i, hi⟩) (aStarCand cfg curr nb) = false →
            s2.openL.get ⟨i, hi2⟩ = s.openL.get ⟨i, hi⟩)) := by
  constructor
  · intro hcl
    unfold admitAStar
    rw [hp]
    simp only [hcl, Bool.not_true, Bool.and_false, Bool.false_eq_true, if_false]
  · intro hpt hcl hopen
    subst hpt
    refine ⟨rfl, ?_⟩
    have hstep : admitAStar cfg curr s nb = some ⟨s.grid, s.openL.map (fun o =>
        if nodeEq o (aStarCand cfg curr nb) &&
            decide ((aStarCand cfg curr nb).gCost < o.gCost) then
          aStarCand cfg curr nb else o), s.closed⟩ := by
      simp only [admitAStar, aStarCand, hp, hcl]
      simp only [Bool.not_false, Bool.and_self, Bool.and_true, if_true]
      have h3b : memNode (Node.mk nb.y nb.x nb.parent (curr.gCost + 1)
        (HCost cfg nb)) s.openL = true := hopen
      rw [h3b]
      simp [aStarCand]
    refine ⟨_, hstep, rfl, rfl, by rw [List.length_map], ?_⟩
    intro i hi hi2
    have hget : (s.openL.map (fun o =>
        if nodeEq o (aStarCand cfg curr nb) &&
            decide ((aStarCand cfg curr nb).gCost < o.gCost) then
          aStarCand cfg curr nb else o)).get ⟨i, by rw [List.length_map]; exact hi⟩ =
        (fun o => if nodeEq o (aStarCand cfg curr nb) &&
            decide ((aStarCand cfg curr nb).gCost < o.gCost) then
          aStarCand cfg curr nb else o) (s.openL.get ⟨i, hi⟩) := List.get_map ..
    constructor
    · intro hmatch
      constructor
      · intro hlt
        rw [hget]
        simp only [hmatch, Bool.true_and]
        rw [if_pos (by simpa [aStarCand] using hlt)]
      · intro hnlt
        rw [hget]
        simp only [hmatch, Bool.true_and]
        rw [if_neg (by simpa [aStarCand] using hnlt)]
    · intro hmatch
      rw [hget]
      simp only [hmatch, Bool.false_and, Bool.false_eq_true, if_false]

def relaxCurr : Node := Node.mk 2 1 (some (Node.mk 1 1 none 0 0)) 1 1

def relaxNb : Node := Node.mk 2 2 (some relaxCurr) 0 0

def relaxState : SearchState := ⟨demoGrid, [Node.mk 2 2 none 5 0], []⟩

theorem claim_astar_relax_witness :
    (aStarCand demoCfg relaxCurr relaxNb).gCost = relaxCurr.gCost + 1 ∧
    ∃ s2, admitAStar demoCfg relaxCurr relaxState relaxNb = some s2 ∧
      s2.grid = relaxState.grid ∧ s2.closed = relaxState.closed ∧
      s2.openL.length = relaxState.openL.length ∧
      ∀ i (hi : i < relaxState.openL.length) (hi2 : i < s2.openL.length),
        (nodeEq (relaxState.openL.get ⟨i, hi⟩)
            (aStarCand demoCfg relaxCurr relaxNb) = true →
          (relaxCurr.gCost + 1 < (relaxState.openL.get ⟨i, hi⟩).gCost →
            s2.openL.get ⟨i, hi2⟩ = aStarCand demoCfg relaxCurr relaxNb) ∧
          (¬(relaxCurr.gCost + 1 < (relaxState.openL.get ⟨i, hi⟩).gCost) →
            s2.openL.get ⟨i, hi2⟩ = relaxState.openL.get ⟨i, hi⟩)) ∧
        (nodeEq (relaxState.openL.get ⟨i, hi⟩)
            (aStarCand demoCfg relaxCurr relaxNb) = false →
          s2.openL.get ⟨i, hi2⟩ = relaxState.openL.get ⟨i, hi⟩) :=
  (claim_astar_relax demoCfg relaxCurr relaxState relaxNb true (by decide)).2 rfl
    (by decide) (by decide)

/-! ## Claim C10: border walls and in-bounds accesses -/

/-- `WINDOW_HEIGHT = 600` from the source's constants. -/
def WINDOW_HEIGHT : Nat := 600

/-- `DEFAULT_TILE_SIZE = 20` (`TILE_SIZE` at startup). -/
def DEFAULT_TILE_SIZE : Nat := 20

/-- `GRID_WIDTH = WINDOW_HEIGHT // TILE_SIZE = 30`. -/
def GRID_WIDTH : Nat := WINDOW_HEIGHT / DEFAULT_TILE_SIZE

/-- `GRID_HEIGHT = WINDOW_HEIGHT // TILE_SIZE = 30`. -/
def GRID_HEIGHT : Nat := WINDOW_HEIGHT / DEFAULT_TILE_SIZE

/-- The concrete 30×30 grid `main` builds. -/
def initGrid30 : Grid := (initGrid GRID_WIDTH GRID_HEIGHT).getD []

/-- Every coordinate pair swept by `clear`/`reset` is interior. -/
theorem interiorSweep_mem {W H : Nat} {yx : Int × Int} (h : yx ∈ interiorSweep W H) :
    InteriorC W H yx.1 yx.2 := by
  unfold interiorSweep at h
  simp at h
  obtain ⟨a, ⟨a1, ha1, rfl⟩, b, ⟨b1, hb1, rfl⟩, hyx⟩ := h
  have hy : yx.1 = (b1 : Int) + 1 := by rw [← hyx]
  have hx : yx.2 = (a1 : Int) + 1 := by rw [← hyx]
  exact ⟨by omega, by omega, by omega, by omega⟩

/-- A write at an interior cell leaves every border cell as it was. -/
theorem border_write_int {W H : Nat} {g : Grid} {y x : Int} {v : Nat} {g2 : Grid}
    (hint : InteriorC W H y x) (hset : gridSet g y x v = some g2)
    (hb : BorderWalls W H g) : BorderWalls W H g2 := by
  obtain ⟨i1, i2, i3, i4⟩ := hint
  intro yb xb hbb hline
  obtain ⟨b1, b2, b3, b4⟩ := hbb
  rw [gridGet_gridSet_ne (by omega) (by omega) hset b1 b3
    (interior_not_border ⟨i1, i2, i3, i4⟩ hline)]
  exact hb yb xb ⟨b1, b2, b3, b4⟩ hline

/-- A fold whose body only ever writes interior cells preserves the
border walls. -/
theorem foldlM_border_pres {W H : Nat} (f : Grid → (Int × Int) → Option Grid)
    (hf : ∀ g yx g2, InteriorC W H yx.1 yx.2 → f g yx = some g2 →
      BorderWalls W H g → BorderWalls W H g2) :
    ∀ (l : List (Int × Int)), (∀ yx ∈ l, InteriorC W H yx.1 yx.2) →
      ∀ g g2, l.foldlM f g = some g2 → BorderWalls W H g → BorderWalls W H g2 := by
  intro l
  induction l with
  | nil =>
    intro _ g g2 h hb
    injection h with h2
    rw [← h2]
    exact hb
  | cons a l2 ih =>
    intro hl g g2 h hb
    rw [List.foldlM_cons] at h
    cases hstep : f g a with
    | none => rw [hstep] at h; exact absurd h (by simp)
    | some g1 =>
      rw [hstep] at h
      exact ih (fun yx hm => hl yx (List.mem_cons_of_mem a hm)) g1 g2 h
        (hf g a g1 (hl a (List.mem_cons_self a l2)) hstep hb)

/-- `inGrid` asserts exactly `InteriorC` (with the argument order of the
source: `x` first). -/
theorem inGrid_interior {W H : Nat} {x y : Int} (h : inGrid W H x y = true) :
    InteriorC W H y x := by
  unfold inGrid at h
  rw [Bool.and_eq_true, Bool.and_eq_true, Bool.and_eq_true] at h
  obtain ⟨⟨hx1, hx2⟩, hy1, hy2⟩ := h
  exact ⟨of_decide_eq_true hy1, of_decide_eq_true hy2,
    of_decide_eq_true hx1, of_decide_eq_true hx2⟩

theorem mouseWall_border {W H : Nat} {g : Grid} {y x : Int} {ct : Nat} {g2 : Grid}
    (h : mouseWall W H g y x ct = some g2) (hb : BorderWalls W H g) :
    BorderWalls W H g2 := by
  unfold mouseWall at h
  by_cases hin : inGrid W H x y = true
  · rw [if_pos hin] at h
    have hint : InteriorC W H y x := inGrid_interior hin
    cases hv : gridGet g y x with
    | none =>
      simp only [hv] at h
      exact absurd h (by simp)
    | some v =>
      simp only [hv] at h
      split at h
      · split at h
        · exact border_write_int hint h hb
        · split at h
          · exact border_write_int hint h hb
          · injection h with h2
            rw [← h2]
            exact hb
      · injection h with h2
        rw [← h2]
        exact hb
  · rw [if_neg hin] at h
    injection h with h2
    rw [← h2]
    exact hb

theorem clear_border {cfg : Config} {W H : Nat} {g g2 : Grid}
    (hS : InteriorC W H cfg.START.y cfg.START.x)
    (hE : InteriorC W H cfg.END.y cfg.END.x)
    (h : clear cfg W H g = some g2) (hb : BorderWalls W H g) : BorderWalls W H g2 := by
  unfold clear at h
  cases hfold : (interiorSweep W H).foldlM (fun g2 yx => gridSet g2 yx.1 yx.2 0) g with
  | none =>
    simp only [hfold] at h
    exact absurd h (by simp)
  | some g1 =>
    simp only [hfold] at h
    have hb1 : BorderWalls W H g1 :=
      foldlM_border_pres _ (fun gg yx gg2 hint hset hbb => border_write_int hint hset hbb)
        _ (fun yx hm => interiorSweep_mem hm) g g1 hfold hb
    cases hsS : gridSet g1 cfg.START.y cfg.START.x 2 with
    | none =>
      simp only [hsS] at h
      exact absurd h (by simp)
    | some gS =>
      simp only [hsS] at h
      exact border_write_int hE h (border_write_int hS hsS hb1)

theorem resetSweep_border {cfg : Config} {W H : Nat} {g g2 : Grid}
    (hS : InteriorC W H cfg.START.y cfg.START.x)
    (hE : InteriorC W H cfg.END.y cfg.END.x)
    (h : resetSweep cfg W H g = some g2) (hb : BorderWalls W H g) :
    BorderWalls W H g2 := by
  unfold resetSweep at h
  cases hfold : (interiorSweep W H).foldlM (fun g2 yx =>
      match gridGet g2 yx.1 yx.2 with
      | none => none
      | some v => if v = 4 ∨ v = 5 ∨ v = 6 then gridSet g2 yx.1 yx.2 0 else some g2) g with
  | none =>
    simp only [hfold] at h
    exact absurd h (by simp)
  | some g1 =>
    simp only [hfold] at h
    have hb1 : BorderWalls W H g1 := by
      refine foldlM_border_pres _ ?_ _ (fun yx hm => interiorSweep_mem hm) g g1 hfold hb
      intro gg yx gg2 hint hset hbb
      cases hv : gridGet gg yx.1 yx.2 with
      | none =>
        simp only [hv] at hset
        exact absurd hset (by simp)
      | some v =>
        simp only [hv] at hset
        split at hset
        · exact border_write_int hint hset hbb
        · injection hset with h2
          rw [← h2]
          exact hbb
    cases hsS : gridSet g1 cfg.START.y cfg.START.x 2 with
    | none =>
      simp only [hsS] at h
      exact absurd h (by simp)
    | some gS =>
      simp only [hsS] at h
      exact border_write_int hE h (border_write_int hS hsS hb1)

/-- **C10.**  Border safety.  (1) The grid `main` builds (30×30, from
`GRID_WIDTH = GRID_HEIGHT = WINDOW_HEIGHT // TILE_SIZE`) is
well-dimensioned with every border cell a wall.  (2) Mouse wall
drawing/erasing, (3) `clear()` and (4) the `reset()`/`start()` sweep
(given interior start/end tiles) keep every border cell a wall.  (5) On
any state satisfying the run invariant (which `start()` establishes and,
by (4) and `runInv_step`, every strategy preserves): every frontier node
— in particular the one a step removes — is interior, every neighbor
generated from it has coordinates inside `[0, H-1] × [0, W-1]`, and a
step never raises an index error (it returns a result) and leaves all
border cells walls. -/
theorem claim_border_safety :
    (initGrid GRID_WIDTH GRID_HEIGHT = some initGrid30 ∧
      dimsOK initGrid30 GRID_WIDTH GRID_HEIGHT ∧
      BorderWalls GRID_WIDTH GRID_HEIGHT initGrid30) ∧
    (∀ (W H : Nat) (g : Grid) (y x : Int) (ct : Nat) (g2 : Grid),
      mouseWall W H g y x ct = some g2 → BorderWalls W H g → BorderWalls W H g2) ∧
    (∀ (cfg : Config) (W H : Nat) (g g2 : Grid),
      InteriorC W H cfg.START.y cfg.START.x → InteriorC W H cfg.END.y cfg.END.x →
      clear cfg W H g = some g2 → BorderWalls W H g → BorderWalls W H g2) ∧
    (∀ (cfg : Config) (W H : Nat) (g g2 : Grid),
      InteriorC W H cfg.START.y cfg.START.x → InteriorC W H cfg.END.y cfg.END.x →
      resetSweep cfg W H g = some g2 → BorderWalls W H g → BorderWalls W H g2) ∧
    (∀ (strat : Strat) (g0 : Grid) (cfg : Config) (W H : Nat) (s : SearchState),
      RunInv g0 cfg W H s →
      (∀ n ∈ s.openL, InteriorC W H n.y n.x ∧
        ∀ nb ∈ getNeighbors cfg.DIAGONAL n, InBoundsC W H nb.y nb.x) ∧
      ∃ r s2, strategyStep strat cfg s = some (r, s2) ∧
        BorderWalls W H s2.grid ∧ RunInv g0 cfg W H s2) := by
  refine ⟨⟨by decide, ⟨by decide, by decide⟩, borderWalls_of_check (by decide)⟩,
    fun W H g y x ct g2 h hb => mouseWall_border h hb,
    fun cfg W H g g2 hS hE h hb => clear_border hS hE h hb,
    fun cfg W H g g2 hS hE h hb => resetSweep_border hS hE h hb,
    fun strat g0 cfg W H s inv => ⟨?_, ?_⟩⟩
  · intro n hn
    exact ⟨inv.openInt n hn, getNeighbors_inBounds (inv.openInt n hn)⟩
  · obtain ⟨r, s2, hstep, inv2, _⟩ := runInv_step strat inv
    exact ⟨r, s2, hstep, inv2.border, inv2⟩

theorem claim_border_safety_witness :
    ∃ g2, mouseWall 4 4 demoGrid 2 1 1 = some g2 ∧ BorderWalls 4 4 g2 ∧
      ∃ gc, clear demoCfg 4 4 g2 = some gc ∧ BorderWalls 4 4 gc ∧
      ∃ r s1, strategyStep Strat.dfs demoCfg demoState = some (r, s1) ∧
        BorderWalls 4 4 s1.grid := by
  have hmw : mouseWall 4 4 demoGrid 2 1 1 =
      some [[1, 1, 1, 1], [1, 2, 0, 1], [1, 1, 3, 1], [1, 1, 1, 1]] := by decide
  have hcl : clear demoCfg 4 4 [[1, 1, 1, 1], [1, 2, 0, 1], [1, 1, 3, 1], [1, 1, 1, 1]] =
      some [[1, 1, 1, 1], [1, 2, 0, 1], [1, 0, 3, 1], [1, 1, 1, 1]] := by decide
  refine ⟨_, hmw,
    claim_border_safety.2.1 4 4 demoGrid 2 1 1 _ hmw (borderWalls_of_check (by decide)),
    _, hcl,
    claim_border_safety.2.2.1 demoCfg 4 4 _ _ ⟨by decide, by decide, by decide, by decide⟩
      ⟨by decide, by decide, by decide, by decide⟩ hcl
      (borderWalls_of_check (by decide)), ?_⟩
  obtain ⟨_, r, s1, hstep, hbord, _⟩ :=
    (claim_border_safety.2.2.2.2 Strat.dfs demoGrid demoCfg 4 4 demoState
      (runInv_seed demo_seedOK))
  exact ⟨r, s1, hstep, hbord⟩

/-! ## Claim C6: termination within `W * H` step calls -/

/-- Driver: make at most `n` `step()` calls, stopping at the first
non-continuing result; `none` means the budget ran out (or a call
raised). -/
def runUntil (strat : Strat) (cfg : Config) : Nat → SearchState → Option (StepRes × SearchState)
  | 0, _ => none
  | n + 1, s =>
    match strategyStep strat cfg s with
    | none => none
    | some (StepRes.cont, s2) => runUntil strat cfg n s2
    | some (r, s2) => some (r, s2)

/-- The visited list of an invariant-satisfying state has pairwise
distinct interior coordinates, so its length is at most the number
`(H-2) * (W-2)` of interior cells. -/
theorem closed_card_bound {g0 : Grid} {cfg : Config} {W H : Nat} {s : SearchState}
    (inv : RunInv g0 cfg W H s) : s.closed.length ≤ (H - 2) * (W - 2) := by
  have hnd : (coordsOf s.closed).Nodup := (List.nodup_append.mp inv.nodups).2.1
  have hsub : (coordsOf s.closed).toFinset ⊆
      (Finset.Ioo (0 : Int) ((H : Int) - 1)) ×ˢ (Finset.Ioo (0 : Int) ((W : Int) - 1)) := by
    intro c hc
    obtain ⟨n, hn, hc2⟩ := List.mem_map.mp (List.mem_toFinset.mp hc)
    obtain ⟨i1, i2, i3, i4⟩ := inv.closedInt n hn
    rw [Finset.mem_product, Finset.mem_Ioo, Finset.mem_Ioo, ← hc2]
    exact ⟨⟨i1, i2⟩, i3, i4⟩
  have hlen : s.closed.length = (coordsOf s.closed).length := (List.length_map ..).symm
  have hcard : (coordsOf s.closed).toFinset.card = (coordsOf s.closed).length :=
    List.toFinset_card_of_nodup hnd
  have hle := Finset.card_le_card hsub
  rw [hcard] at hle
  rw [Finset.card_product, Int.card_Ioo, Int.card_Ioo] at hle
  have e1 : ((H : Int) - 1 - 0 - 1).toNat = H - 2 := by omega
  have e2 : ((W : Int) - 1 - 0 - 1).toNat = W - 2 := by omega
  rw [e1, e2] at hle
  omega

/-- Budget sufficiency: once the remaining budget covers the interior
cells not yet visited, the driver reaches a terminal result, the run
invariant still holds there, and the terminal is either a Failure on an
empty frontier or a Success whose last visited node carries the End
coordinates (and is marked 5). -/
theorem runUntil_total {g0 : Grid} {cfg : Config} {W H : Nat} (strat : Strat) :
    ∀ (k : Nat) (s : SearchState), RunInv g0 cfg W H s →
      (H - 2) * (W - 2) + 1 ≤ s.closed.length + k →
      ∃ r s2, runUntil strat cfg k s = some (r, s2) ∧ r ≠ StepRes.cont ∧
        RunInv g0 cfg W H s2 ∧
        ((r = StepRes.failure ∧ s2.openL = []) ∨
         (r = StepRes.success ∧ ∃ pre curr, s2.closed = pre ++ [curr] ∧
           nodeEq curr cfg.END = true ∧ gridGet s2.grid curr.y curr.x = some 5)) := by
  intro k
  induction k with
  | zero =>
    intro s inv hbound
    have := closed_card_bound inv
    omega
  | succ m ih =>
    intro s inv hbound
    obtain ⟨r, s2, hstep, inv2, hcases⟩ := runInv_step strat inv
    rcases hcases with ⟨hf, hseq, hopen⟩ | ⟨hnf, curr, hc, hcl, h5, hsucc, _⟩
    · subst hf
      refine ⟨StepRes.failure, s2, ?_, by simp, inv2, Or.inl ⟨rfl, ?_⟩⟩
      · show runUntil strat cfg (m + 1) s = some (StepRes.failure, s2)
        simp only [runUntil, hstep]
      · rw [hseq]
        exact hopen
    · cases r with
      | failure => exact absurd rfl hnf
      | success =>
        refine ⟨StepRes.success, s2, ?_, by simp, inv2,
          Or.inr ⟨rfl, s.closed, curr, hcl, hsucc.mp rfl, h5⟩⟩
        show runUntil strat cfg (m + 1) s = some (StepRes.success, s2)
        simp only [runUntil, hstep]
      | cont =>
        have hlen2 : s2.closed.length = s.closed.length + 1 := by
          rw [hcl, List.length_append, List.length_singleton]
        obtain ⟨r3, s3, hrun, hr3, inv3, hdisj⟩ := ih s2 inv2 (by omega)
        refine ⟨r3, s3, ?_, hr3, inv3, hdisj⟩
        show runUntil strat cfg (m + 1) s = some (r3, s3)
        simp only [runUntil, hstep]
        exact hrun

/-- **C6.**  For every strategy, starting from the state `start()` leaves
behind (frontier seeded with the Start node, visited empty) on a
well-formed bordered `W × H` grid, repeated `step()` calls reach a
terminal Success or Failure within at most `W * H` calls: each
continuing call appends a node with fresh interior coordinates to the
visited list, and there are only `(H-2) * (W-2) < W * H` interior
cells. -/
theorem claim_termination (strat : Strat) (cfg : Config) (W H : Nat) (g0 : Grid)
    (h : SeedOK cfg W H g0) :
    ∃ r s2, runUntil strat cfg (W * H) ⟨g0, [cfg.START], []⟩ = some (r, s2) ∧
      r ≠ StepRes.cont := by
  have inv := runInv_seed h
  have hWH : 3 ≤ W ∧ 3 ≤ H := by
    obtain ⟨_, _, _, hint, _⟩ := h
    obtain ⟨i1, i2, i3, i4⟩ := hint
    exact ⟨by omega, by omega⟩
  obtain ⟨hW3, hH3⟩ := hWH
  have hbound : (H - 2) * (W - 2) + 1 ≤
      (SearchState.mk g0 [cfg.START] []).closed.length + W * H := by
    show (H - 2) * (W - 2) + 1 ≤ ([] : List Node).length + W * H
    rw [List.length_nil]
    obtain ⟨a, rfl⟩ := Nat.exists_eq_add_of_le hW3
    obtain ⟨b, rfl⟩ := Nat.exists_eq_add_of_le hH3
    have e1 : 3 + b - 2 = b + 1 := by omega
    have e2 : 3 + a - 2 = a + 1 := by omega
    rw [e1, e2]
    nlinarith
  obtain ⟨r, s2, hrun, hr, _, _⟩ := runUntil_total strat (W * H) _ inv hbound
  exact ⟨r, s2, hrun, hr⟩

theorem claim_termination_witness :
    ∃ r s2, runUntil Strat.bfs demoCfg (4 * 4) ⟨demoGrid, [demoCfg.START], []⟩ =
      some (r, s2) ∧ r ≠ StepRes.cont :=
  claim_termination Strat.bfs demoCfg 4 4 demoGrid demo_seedOK

/-! ## Claim C7: path reconstruction -/

/-- The structural discoverer chain hanging off a node: the node itself,
then its parent's chain, down to the parentless node. -/
def structChain : Node → List Node
  | Node.mk y x none gc hc => [Node.mk y x none gc hc]
  | Node.mk y x (some p) gc hc => Node.mk y x (some p) gc hc :: structChain p

/-- The parentless node at the end of the discoverer chain. -/
def structLast : Node → Node
  | Node.mk y x none gc hc => Node.mk y x none gc hc
  | Node.mk _ _ (some p) _ _ => structLast p

/-- The coordinates `reconstructPath`'s walk sets to 6: every chain node
that still has a discoverer (all chain nodes except the parentless
last). -/
def markedOf : Node → List (Int × Int)
  | Node.mk _ _ none _ _ => []
  | Node.mk y x (some p) _ _ => (y, x) :: markedOf p

theorem structLast_parent : (n : Node) → (structLast n).parent = none
  | Node.mk _ _ none _ _ => rfl
  | Node.mk _ _ (some p) _ _ => structLast_parent p

theorem structLast_mem : (n : Node) → structLast n ∈ structChain n
  | Node.mk y x none gc hc => List.mem_singleton.mpr rfl
  | Node.mk y x (some p) gc hc => List.mem_cons_of_mem _ (structLast_mem p)

theorem coords_structChain : (n : Node) →
    coordsOf (structChain n) = markedOf n ++ [((structLast n).y, (structLast n).x)]
  | Node.mk y x none gc hc => rfl
  | Node.mk y x (some p) gc hc => by
    show ((y, x) :: coordsOf (structChain p) : List (Int × Int)) =
      (y, x) :: (markedOf p ++ [((structLast p).y, (structLast p).x)])
    rw [coords_structChain p]

/-- On a list with pairwise distinct coordinates, the linear search
`for node in closed: if parent == node` finds the parent itself. -/
theorem find_nodeEq_self {p : Node} : ∀ {pre : List Node}, p ∈ pre →
    (coordsOf pre).Nodup → pre.find? (fun node => nodeEq p node) = some p := by
  intro pre
  induction pre with
  | nil => exact fun hmem _ => absurd hmem (List.not_mem_nil _)
  | cons a rest ih =>
    intro hmem hnd
    by_cases hpa : nodeEq p a = true
    · rw [List.find?_cons_of_pos _ hpa]
      rcases List.mem_cons.mp hmem with rfl | hrest
      · rfl
      · exfalso
        have hco : (p.y, p.x) = (a.y, a.x) := by
          obtain ⟨h1, h2⟩ := nodeEq_iff.mp hpa
          rw [h1, h2]
        have hmm : (a.y, a.x) ∈ coordsOf rest := by
          rw [← hco]
          exact List.mem_map_of_mem _ hrest
        have hnd2 : ((a.y, a.x) :: coordsOf rest).Nodup := hnd
        exact (List.nodup_cons.mp hnd2).1 hmm
    · rw [List.find?_cons_of_neg _ hpa]
      rcases List.mem_cons.mp hmem with rfl | hrest
      · exact absurd (nodeEq_refl p) hpa
      · have hnd2 : ((a.y, a.x) :: coordsOf rest).Nodup := hnd
        exact ih hrest (List.nodup_cons.mp hnd2).2

/-- Distinct positions of a coordinate-duplicate-free node list carry
distinct coordinates. -/
theorem coords_get_ne {cl : List Node} (hnd : (coordsOf cl).Nodup)
    {i j : Nat} (hi : i < cl.length) (hj : j < cl.length) (hij : i ≠ j) :
    ¬(((cl.get ⟨i, hi⟩).y, (cl.get ⟨i, hi⟩).x) =
      ((cl.get ⟨j, hj⟩).y, (cl.get ⟨j, hj⟩).x)) := by
  intro heq
  have hlen : (coordsOf cl).length = cl.length := List.length_map ..
  have h1 : (coordsOf cl).get ⟨i, by omega⟩ =
      ((cl.get ⟨i, hi⟩).y, (cl.get ⟨i, hi⟩).x) := List.get_map ..
  have h2 : (coordsOf cl).get ⟨j, by omega⟩ =
      ((cl.get ⟨j, hj⟩).y, (cl.get ⟨j, hj⟩).x) := List.get_map ..
  have hg : (coordsOf cl).get ⟨i, by omega⟩ = (coordsOf cl).get ⟨j, by omega⟩ := by
    rw [h1, h2, heq]
  have := (List.Nodup.get_inj_iff hnd).mp hg
  rw [Fin.mk.injEq] at this
  exact hij this

/-- Master lemma for `reconstructPath`'s walk: from any node of the
visited list `pre ++ [curr]` (which satisfies the index-ordered parent
invariant, has duplicate-free interior coordinates, and whose parentless
entries carry the Start coordinates), with fuel at least the node's
index, the chain walk succeeds and follows exactly the structural parent
chain, whose nodes all sit at non-increasing indices (so their
coordinates are pairwise distinct), whose last node is Start-coordinated,
and the marking walk sets exactly the chain-minus-last coordinates to 6. -/
theorem recon_build {cfg : Config} {W H : Nat} {pre : List Node} {curr : Node}
    (hpar : ClosedParentInv cfg (pre ++ [curr]))
    (hnd : (coordsOf (pre ++ [curr])).Nodup)
    (hint : ∀ m ∈ pre ++ [curr], InteriorC W H m.y m.x) :
    ∀ (iv : Nat), ∀ (hi : iv < (pre ++ [curr]).length) (fuel : Nat), iv ≤ fuel →
      chainWalk pre fuel ((pre ++ [curr]).get ⟨iv, hi⟩) =
        some (structChain ((pre ++ [curr]).get ⟨iv, hi⟩)) ∧
      (∀ m ∈ structChain ((pre ++ [curr]).get ⟨iv, hi⟩),
        ∃ jv, ∃ hj : jv < (pre ++ [curr]).length, jv ≤ iv ∧
          (pre ++ [curr]).get ⟨jv, hj⟩ = m) ∧
      (coordsOf (structChain ((pre ++ [curr]).get ⟨iv, hi⟩))).Nodup ∧
      nodeEq (structLast ((pre ++ [curr]).get ⟨iv, hi⟩)) cfg.START = true ∧
      (∀ g : Grid, dimsOK g W H →
        ∃ gOut, reconWalk pre fuel ((pre ++ [curr]).get ⟨iv, hi⟩) g = some gOut ∧
          dimsOK gOut W H ∧
          ∀ y2 x2 : Int, InBoundsC W H y2 x2 →
            gridGet gOut y2 x2 =
              if (y2, x2) ∈ markedOf ((pre ++ [curr]).get ⟨iv, hi⟩) then some 6
              else gridGet g y2 x2) := by
  have hndpre : (coordsOf pre).Nodup := by
    rw [coordsOf_append] at hnd
    exact (List.nodup_append.mp hnd).1
  have hlen : (pre ++ [curr]).length = pre.length + 1 := by
    rw [List.length_append, List.length_singleton]
  intro iv
  induction iv using Nat.strong_induction_on with
  | _ iv ih =>
  intro hi fuel hfuel
  have hinti : InteriorC W H ((pre ++ [curr]).get ⟨iv, hi⟩).y
      ((pre ++ [curr]).get ⟨iv, hi⟩).x :=
    hint _ (List.get_mem _ _ _)
  have hparthis := hpar ⟨iv, hi⟩
  generalize hn : (pre ++ [curr]).get ⟨iv, hi⟩ = n at *
  obtain ⟨y, x, par, gc, hc⟩ := n
  cases par with
  | none =>
    have hstart : nodeEq (Node.mk y x none gc hc) cfg.START = true := hparthis.1 rfl
    refine ⟨?_, ?_, ?_, hstart, ?_⟩
    · cases fuel with
      | zero => rfl
      | succ f => rfl
    · intro m hm
      have hm2 : m = Node.mk y x none gc hc := List.mem_singleton.mp hm
      exact ⟨iv, hi, le_refl _, by rw [hn, hm2]⟩
    · exact List.nodup_singleton _
    · intro g hdims
      refine ⟨g, ?_, hdims, ?_⟩
      · cases fuel with
        | zero => rfl
        | succ f => rfl
      · intro y2 x2 hb
        rw [show markedOf (Node.mk y x none gc hc) = ([] : List (Int × Int)) from rfl]
        rw [if_neg (List.not_mem_nil _)]
  | some p =>
    obtain ⟨j, hjlt, hjp⟩ := hparthis.2 p rfl
    have hjlt2 : j.val < iv := hjlt
    have hi2 : iv < pre.length + 1 := by rw [← hlen]; exact hi
    have hjpre : j.val < pre.length := by omega
    have hget? : (pre ++ [curr]).get? j.val = some p := by
      rw [List.get?_eq_get j.isLt]
      exact congrArg some hjp
    have hppre : p ∈ pre := by
      rw [List.get?_append hjpre] at hget?
      exact List.get?_mem hget?
    have hfind : pre.find? (fun node => nodeEq p node) = some p :=
      find_nodeEq_self hppre hndpre
    cases fuel with
    | zero => omega
    | succ f =>
      have IH := ih j.val hjlt j.isLt f (by omega)
      rw [show (pre ++ [curr]).get ⟨j.val, j.isLt⟩ = p from hjp] at IH
      obtain ⟨ihA, ihB, ihC, ihD, ihE⟩ := IH
      have hchainstep : chainWalk pre (f + 1) (Node.mk y x (some p) gc hc) =
          some (Node.mk y x (some p) gc hc :: structChain p) := by
        show (match pre.find? (fun node => nodeEq p node) with
          | none => none
          | some node => (chainWalk pre f node).map (Node.mk y x (some p) gc hc :: ·)) =
          some (Node.mk y x (some p) gc hc :: structChain p)
        rw [hfind]
        show (chainWalk pre f p).map (Node.mk y x (some p) gc hc :: ·) =
          some (Node.mk y x (some p) gc hc :: structChain p)
        rw [ihA, Option.map_some']
      have hheadnotin : ((Node.mk y x (some p) gc hc).y, (Node.mk y x (some p) gc hc).x) ∉
          coordsOf (structChain p) := by
        intro hmm
        obtain ⟨m, hmmem, hmc⟩ := List.mem_map.mp hmm
        obtain ⟨jm, hjm, hjmle, hjmeq⟩ := ihB m hmmem
        refine coords_get_ne hnd hi hjm (by omega) ?_
        rw [hn, hjmeq, hmc]
      refine ⟨?_, ?_, ?_, ihD, ?_⟩
      · show chainWalk pre (f + 1) (Node.mk y x (some p) gc hc) =
          some (structChain (Node.mk y x (some p) gc hc))
        rw [hchainstep]
        rfl
      · intro m hm
        rcases List.mem_cons.mp hm with rfl | hm2
        · exact ⟨iv, hi, le_refl _, hn⟩
        · obtain ⟨jv, hj, hjle, hje⟩ := ihB m hm2
          exact ⟨jv, hj, by omega, hje⟩
      · show ((((Node.mk y x (some p) gc hc).y, (Node.mk y x (some p) gc hc).x)) ::
          coordsOf (structChain p)).Nodup
        exact List.nodup_cons.mpr ⟨hheadnotin, ihC⟩
      · intro g hdims
        have hbn : InBoundsC W H y x := by
          have hinti2 : InteriorC W H y x := by simpa using hinti
          obtain ⟨i1, i2, i3, i4⟩ := hinti2
          exact ⟨by omega, by omega, by omega, by omega⟩
        obtain ⟨g1, hset⟩ := gridSet_total hdims hbn 6
        have hdims1 := gridSet_dims hbn.1 hbn.2.2.1 hset hdims
        obtain ⟨gOut, hrw, hdimsOut, hchar⟩ := ihE g1 hdims1
        refine ⟨gOut, ?_, hdimsOut, ?_⟩
        · show (match gridSet g y x 6 with
            | none => none
            | some g1 =>
              match pre.find? (fun node => nodeEq p node) with
              | none => none
              | some node => reconWalk pre f node g1) = some gOut
          rw [hset]
          show (match pre.find? (fun node => nodeEq p node) with
            | none => none
            | some node => reconWalk pre f node g1) = some gOut
          rw [hfind]
          exact hrw
        · intro y2 x2 hb2
          rw [show markedOf (Node.mk y x (some p) gc hc) =
            ((y, x) :: markedOf p : List (Int × Int)) from rfl]
          have hch := hchar y2 x2 hb2
          by_cases hmem : (y2, x2) ∈ markedOf p
          · rw [if_pos (List.mem_cons_of_mem _ hmem)]
            rw [if_pos hmem] at hch
            exact hch
          · by_cases heq : (y2, x2) = (y, x)
            · rw [if_pos (by rw [heq]; exact List.mem_cons_self _ _)]
              rw [if_neg hmem] at hch
              rw [hch]
              rw [Prod.mk.injEq] at heq
              rw [heq.1, heq.2]
              exact gridGet_gridSet_self hbn.1 hbn.2.2.1 hset
            · rw [if_neg (by
                intro hc2
                rcases List.mem_cons.mp hc2 with hc3 | hc3
                · exact heq hc3
                · exact hmem hc3)]
              rw [if_neg hmem] at hch
              rw [hch]
              refine gridGet_gridSet_ne hbn.1 hbn.2.2.1 hset hb2.1 hb2.2.2.1 ?_
              intro ⟨h1, h2⟩
              exact heq (by rw [h1, h2])

/-- **C7.**  Invoked on a state (satisfying the run invariant) whose
visited list ends with an End-coordinated node — the state a Success step
leaves — `reconstructPath` pops that node, follows the discoverer chain
back to the parentless (Start-coordinated) node, and returns a grid in
which the Start tile holds 2, the End tile holds 3, a tile holds 6
exactly when it belongs to the walked chain minus the parentless node
and is not the End tile (i.e. the intermediate chain tiles), and every
other tile is unchanged. -/
theorem claim_reconstruct {g0 : Grid} {cfg : Config} {W H : Nat} {s : SearchState}
    {pre : List Node} {curr : Node}
    (inv : RunInv g0 cfg W H s) (hcl : s.closed = pre ++ [curr])
    (hend : nodeEq curr cfg.END = true) (hSE : nodeEq cfg.START cfg.END = false) :
    chainWalk pre pre.length curr = some (structChain curr) ∧
    (structLast curr).parent = none ∧
    nodeEq (structLast curr) cfg.START = true ∧
    ∃ g2, reconstructPath cfg s = some g2 ∧
      gridGet g2 cfg.START.y cfg.START.x = some 2 ∧
      gridGet g2 cfg.END.y cfg.END.x = some 3 ∧
      ∀ y2 x2 : Int, InBoundsC W H y2 x2 →
        (gridGet g2 y2 x2 = some 6 ↔
          ((y2, x2) ∈ markedOf curr ∧ ¬(y2 = cfg.END.y ∧ x2 = cfg.END.x))) ∧
        (¬(y2 = cfg.START.y ∧ x2 = cfg.START.x) → ¬(y2 = cfg.END.y ∧ x2 = cfg.END.x) →
          (y2, x2) ∉ markedOf curr → gridGet g2 y2 x2 = gridGet s.grid y2 x2) := by
  have hnd : (coordsOf (pre ++ [curr])).Nodup := by
    have h2 := (List.nodup_append.mp inv.nodups).2.1
    rw [hcl] at h2
    exact h2
  have hpar : ClosedParentInv cfg (pre ++ [curr]) := by
    have h2 := inv.closedParent
    rw [hcl] at h2
    exact h2
  have hint : ∀ m ∈ pre ++ [curr], InteriorC W H m.y m.x := by
    intro m hm
    exact inv.closedInt m (by rw [hcl]; exact hm)
  have hi : pre.length < (pre ++ [curr]).length := by
    rw [List.length_append, List.length_singleton]
    omega
  have hgetc : (pre ++ [curr]).get ⟨pre.length, hi⟩ = curr := by
    have h2 : (pre ++ [curr]).get? pre.length = some curr := by
      rw [List.get?_append_right (le_refl _)]
      simp
    have h3 := List.get?_eq_get hi
    rw [h3] at h2
    exact Option.some_inj.mp h2
  obtain ⟨hA, hB, hC, hD, hE⟩ :=
    recon_build hpar hnd hint pre.length hi pre.length (le_refl _)
  rw [hgetc] at hA hB hC hD hE
  refine ⟨hA, structLast_parent curr, hD, ?_⟩
  obtain ⟨g1, hwalk, hdims1, hchar⟩ := hE s.grid inv.dims
  have hendc := nodeEq_iff.mp hend
  have hlastc := nodeEq_iff.mp hD
  have hintc : InteriorC W H cfg.END.y cfg.END.x := by
    have h2 := hint curr (by simp)
    rw [hendc.1, hendc.2] at h2
    exact h2
  have hintS : InteriorC W H cfg.START.y cfg.START.x := by
    obtain ⟨jv, hj, _, hje⟩ := hB (structLast curr) (structLast_mem curr)
    have h2 := hint _ (List.get_mem _ jv hj)
    rw [hje, hlastc.1, hlastc.2] at h2
    exact h2
  have hbS : InBoundsC W H cfg.START.y cfg.START.x := by
    obtain ⟨i1, i2, i3, i4⟩ := hintS
    exact ⟨by omega, by omega, by omega, by omega⟩
  have hbE : InBoundsC W H cfg.END.y cfg.END.x := by
    obtain ⟨i1, i2, i3, i4⟩ := hintc
    exact ⟨by omega, by omega, by omega, by omega⟩
  obtain ⟨g2s, hsetS⟩ := gridSet_total hdims1 hbS 2
  have hdims2 := gridSet_dims hbS.1 hbS.2.2.1 hsetS hdims1
  obtain ⟨g2, hsetE⟩ := gridSet_total hdims2 hbE 3
  have hpop : popLast (pre ++ [curr]) = some (curr, pre) := by
    unfold popLast
    rw [List.getLast?_concat]
    rw [List.dropLast_concat]
  have hrp : reconstructPath cfg s = some g2 := by
    unfold reconstructPath
    rw [hcl]
    simp only [hpop, hwalk, hsetS]
    exact hsetE
  have hSEc : ¬(cfg.START.y = cfg.END.y ∧ cfg.START.x = cfg.END.x) := by
    intro h2
    rw [nodeEq_iff.mpr ⟨h2.1, h2.2⟩] at hSE
    exact Bool.noConfusion hSE
  have hlastnot : ((structLast curr).y, (structLast curr).x) ∉ markedOf curr := by
    have hndc := hC
    rw [coords_structChain curr] at hndc
    have hdisj := (List.nodup_append.mp hndc).2.2
    intro hmm
    exact hdisj hmm (List.mem_singleton.mpr rfl)
  have hSnot : (cfg.START.y, cfg.START.x) ∉ markedOf curr := by
    rw [← hlastc.1, ← hlastc.2]
    exact hlastnot
  have hgS : gridGet g2 cfg.START.y cfg.START.x = some 2 := by
    rw [gridGet_gridSet_ne hbE.1 hbE.2.2.1 hsetE hbS.1 hbS.2.2.1 hSEc]
    exact gridGet_gridSet_self hbS.1 hbS.2.2.1 hsetS
  have hgE : gridGet g2 cfg.END.y cfg.END.x = some 3 :=
    gridGet_gridSet_self hbE.1 hbE.2.2.1 hsetE
  refine ⟨g2, hrp, hgS, hgE, ?_⟩
  intro y2 x2 hb2
  constructor
  · constructor
    · intro h6
      by_cases hEc : y2 = cfg.END.y ∧ x2 = cfg.END.x
      · exfalso
        rw [hEc.1, hEc.2, hgE] at h6
        exact absurd (Option.some_inj.mp h6) (by decide)
      · have hstep1 : gridGet g2 y2 x2 = gridGet g2s y2 x2 :=
          gridGet_gridSet_ne hbE.1 hbE.2.2.1 hsetE hb2.1 hb2.2.2.1 hEc
        by_cases hSc : y2 = cfg.START.y ∧ x2 = cfg.START.x
        · exfalso
          rw [hSc.1, hSc.2, hgS] at h6
          exact absurd (Option.some_inj.mp h6) (by decide)
        · have hstep2 : gridGet g2s y2 x2 = gridGet g1 y2 x2 :=
            gridGet_gridSet_ne hbS.1 hbS.2.2.1 hsetS hb2.1 hb2.2.2.1 hSc
          rw [hstep1, hstep2, hchar y2 x2 hb2] at h6
          by_cases hmem : (y2, x2) ∈ markedOf curr
          · exact ⟨hmem, hEc⟩
          · exfalso
            rw [if_neg hmem] at h6
            exact inv.no6 y2 x2 hb2 h6
    · intro ⟨hmem, hEc⟩
      have hSc : ¬(y2 = cfg.START.y ∧ x2 = cfg.START.x) := by
        intro h2
        rw [h2.1, h2.2] at hmem
        exact hSnot hmem
      rw [gridGet_gridSet_ne hbE.1 hbE.2.2.1 hsetE hb2.1 hb2.2.2.1 hEc,
        gridGet_gridSet_ne hbS.1 hbS.2.2.1 hsetS hb2.1 hb2.2.2.1 hSc,
        hchar y2 x2 hb2, if_pos hmem]
  · intro hSc hEc hmem
    rw [gridGet_gridSet_ne hbE.1 hbE.2.2.1 hsetE hb2.1 hb2.2.2.1 hEc,
      gridGet_gridSet_ne hbS.1 hbS.2.2.1 hsetS hb2.1 hb2.2.2.1 hSc,
      hchar y2 x2 hb2, if_neg hmem]

/-- The Success state BFS reaches on `demoGrid` after 4 steps. -/
def demoSucc : SearchState :=
  ⟨[[1, 1, 1, 1], [1, 5, 5, 1], [1, 5, 5, 1], [1, 1, 1, 1]], [],
   [Node.mk 1 1 none 0 0,
    Node.mk 1 2 (some (Node.mk 1 1 none 0 0)) 0 0,
    Node.mk 2 1 (some (Node.mk 1 1 none 0 0)) 0 0,
    Node.mk 2 2 (some (Node.mk 1 2 (some (Node.mk 1 1 none 0 0)) 0 0)) 0 0]⟩

/-- The visited prefix of `demoSucc` (everything before the End node). -/
def demoPre : List Node :=
  [Node.mk 1 1 none 0 0,
   Node.mk 1 2 (some (Node.mk 1 1 none 0 0)) 0 0,
   Node.mk 2 1 (some (Node.mk 1 1 none 0 0)) 0 0]

/-- The End node `demoSucc` closes with. -/
def demoCurr : Node :=
  Node.mk 2 2 (some (Node.mk 1 2 (some (Node.mk 1 1 none 0 0)) 0 0)) 0 0

theorem claim_reconstruct_witness :
    chainWalk demoPre demoPre.length demoCurr = some (structChain demoCurr) ∧
    (structLast demoCurr).parent = none ∧
    nodeEq (structLast demoCurr) demoCfg.START = true ∧
    ∃ g2, reconstructPath demoCfg demoSucc = some g2 ∧
      gridGet g2 demoCfg.START.y demoCfg.START.x = some 2 ∧
      gridGet g2 demoCfg.END.y demoCfg.END.x = some 3 ∧
      ∀ y2 x2 : Int, InBoundsC 4 4 y2 x2 →
        (gridGet g2 y2 x2 = some 6 ↔
          ((y2, x2) ∈ markedOf demoCurr ∧ ¬(y2 = demoCfg.END.y ∧ x2 = demoCfg.END.x))) ∧
        (¬(y2 = demoCfg.START.y ∧ x2 = demoCfg.START.x) →
          ¬(y2 = demoCfg.END.y ∧ x2 = demoCfg.END.x) →
          (y2, x2) ∉ markedOf demoCurr → gridGet g2 y2 x2 = gridGet demoSucc.grid y2 x2) := by
  obtain ⟨s2, hiter, inv⟩ := runInv_iter Strat.bfs 4 (runInv_seed demo_seedOK)
  have hs2 : s2 = demoSucc := by
    have hd : iterSteps Strat.bfs demoCfg 4 ⟨demoGrid, [demoCfg.START], []⟩ =
        some demoSucc := by decide
    rw [hiter] at hd
    exact Option.some_inj.mp hd
  subst hs2
  exact claim_reconstruct inv (by decide) (by decide) (by decide)

/-! ## Claim C2: BFS optimality -/

theorem reach_zero_inv {g : Grid} {a b : Int × Int} (h : ReachN g 0 a b) :
    a = b ∧ passableG g a := by
  cases h with
  | refl a ha => exact ⟨rfl, ha⟩

/-- A passable path extends by one passable adjacent step at its end. -/
theorem reach_snoc {g : Grid} {n : Nat} {a b c : Int × Int} (h : ReachN g n a b) :
    adjO b c → passableG g c → ReachN g (n + 1) a c := by
  induction h with
  | refl a ha =>
    intro hadj hc
    exact ReachN.step a c c 0 ha hadj (ReachN.refl c hc)
  | step a b0 b n ha hadj0 hr ih =>
    intro hadj hc
    exact ReachN.step a b0 c (n + 1) ha hadj0 (ih hadj hc)

/-- A passable path of positive length decomposes at its last edge. -/
theorem reach_last {g : Grid} {c : Int × Int} :
    ∀ {n : Nat} {a : Int × Int}, ReachN g (n + 1) a c →
      ∃ b, ReachN g n a b ∧ adjO b c ∧ passableG g c := by
  intro n
  induction n with
  | zero =>
    intro a h
    cases h with
    | step a b c2 n2 ha hadj hr =>
      cases hr with
      | refl b hb => exact ⟨a, ReachN.refl a ha, hadj, hb⟩
  | succ m ih =>
    intro a h
    cases h with
    | step a b c2 n2 ha hadj hr =>
      obtain ⟨b2, hr2, hadj2, hc⟩ := ih hr
      exact ⟨b2, ReachN.step a b b2 m ha hadj hr2, hadj2, hc⟩

theorem pairwise_of_all {α : Type} {R : α → α → Prop} :
    ∀ {l : List α}, (∀ a ∈ l, ∀ b ∈ l, R a b) → l.Pairwise R := by
  intro l
  induction l with
  | nil => exact fun _ => List.Pairwise.nil
  | cons a t ih =>
    intro h
    exact List.Pairwise.cons
      (fun b hb => h a (List.mem_cons_self _ _) b (List.mem_cons_of_mem _ hb))
      (ih fun u hu v hv =>
        h u (List.mem_cons_of_mem _ hu) v (List.mem_cons_of_mem _ hv))

/-- The BFS level invariant: on top of the run invariant, every
discovered node's backpointer depth is the length of a passable route
from Start to it (`reach`) and is minimal among all such routes (`low`);
the queue is depth-sorted (`sorted`) and spans at most two consecutive
levels (`band`); visited depths never exceed queued depths (`closedLe`);
every passable neighbor of a visited node is discovered (`expanded`);
and Start is discovered at depth 0 (`startD`). -/
structure BFSInv (g0 : Grid) (cfg : Config) (W H : Nat) (s : SearchState) : Prop where
  run : RunInv g0 cfg W H s
  g0dims : dimsOK g0 W H
  reach : ∀ n ∈ s.openL ++ s.closed,
    ReachN g0 n.depth (cfg.START.y, cfg.START.x) (n.y, n.x)
  low : ∀ n ∈ s.openL ++ s.closed, ∀ k,
    ReachN g0 k (cfg.START.y, cfg.START.x) (n.y, n.x) → n.depth ≤ k
  sorted : s.openL.Pairwise (fun a b => a.depth ≤ b.depth)
  band : ∀ a ∈ s.openL, ∀ b ∈ s.openL, b.depth ≤ a.depth + 1
  closedLe : ∀ m ∈ s.closed, ∀ n ∈ s.openL, m.depth ≤ n.depth
  expanded : ∀ m ∈ s.closed, ∀ c : Int × Int, adjO (m.y, m.x) c → passableG g0 c →
    ∃ n, (n ∈ s.openL ++ s.closed) ∧ (n.y, n.x) = c
  startD : ∃ n, (n ∈ s.openL ++ s.closed) ∧
    (n.y, n.x) = (cfg.START.y, cfg.START.x) ∧ n.depth = 0

theorem bfsInv_seed {cfg : Config} {W H : Nat} {g0 : Grid} (h : SeedOK cfg W H g0) :
    BFSInv g0 cfg W H ⟨g0, [cfg.START], []⟩ := by
  have hrun := runInv_seed h
  obtain ⟨hdims, hborder, hno6, hintS, hpass, hparent⟩ := h
  have hbS : InBoundsC W H cfg.START.y cfg.START.x := by
    obtain ⟨i1, i2, i3, i4⟩ := hintS
    exact ⟨by omega, by omega, by omega, by omega⟩
  have hpassS : passableG g0 (cfg.START.y, cfg.START.x) := by
    obtain ⟨v, hv⟩ := gridGet_total hdims hbS
    refine ⟨v, hv, ?_⟩
    intro h1
    rw [h1] at hv
    exact hpass hv
  have hdep0 : cfg.START.depth = 0 := Node.depth_parent_none hparent
  have hmem : ∀ n : Node, n ∈ ([cfg.START] ++ [] : List Node) → n = cfg.START := by
    intro n hn
    rw [List.append_nil] at hn
    exact List.mem_singleton.mp hn
  constructor
  · exact hrun
  · exact hdims
  · intro n hn
    rw [hmem n hn, hdep0]
    exact ReachN.refl _ hpassS
  · intro n hn k _
    rw [hmem n hn, hdep0]
    omega
  · exact List.pairwise_singleton _ _
  · intro a ha b hb
    rw [List.mem_singleton.mp ha, List.mem_singleton.mp hb]
    omega
  · intro m hm
    exact absurd hm (List.not_mem_nil _)
  · intro m hm
    exact absurd hm (List.not_mem_nil _)
  · exact ⟨cfg.START, by simp, rfl, hdep0⟩

/-- While the queue holds a minimum-level node `curr`, every cell
reachable in at most `curr.depth` steps is already discovered at a depth
not exceeding its route length. -/
theorem discoveredLow {g0 : Grid} {cfg : Config} {W H : Nat} {s : SearchState}
    (binv : BFSInv g0 cfg W H s) {curr : Node} {rest : List Node}
    (hpop : s.openL = curr :: rest) :
    ∀ j, j ≤ curr.depth → ∀ c, ReachN g0 j (cfg.START.y, cfg.START.x) c →
      ∃ n, (n ∈ s.openL ++ s.closed) ∧ (n.y, n.x) = c ∧ n.depth ≤ j := by
  intro j
  induction j with
  | zero =>
    intro _ c hr
    obtain ⟨heq2, _⟩ := reach_zero_inv hr
    obtain ⟨n, hn, hcoords, hdep⟩ := binv.startD
    exact ⟨n, hn, hcoords.trans heq2, by omega⟩
  | succ m2 ih =>
    intro hle c hr
    obtain ⟨b, hrb, hadj, hpc⟩ := reach_last hr
    obtain ⟨n, hn, hcoords, hdep⟩ := ih (by omega) b hrb
    have hnclosed : n ∈ s.closed := by
      rcases List.mem_append.mp hn with h2 | h2
      · exfalso
        rw [hpop] at h2
        rcases List.mem_cons.mp h2 with rfl | h3
        · omega
        · have h4 := binv.sorted
          rw [hpop] at h4
          have h5 := (List.pairwise_cons.mp h4).1 n h3
          omega
      · exact h2
    obtain ⟨n2, hn2, hc2⟩ := binv.expanded n hnclosed c (by rw [hcoords]; exact hadj) hpc
    have h6 := binv.low n2 hn2 (m2 + 1) (by rw [hc2]; exact hr)
    exact ⟨n2, hn2, hc2, h6⟩

/-- One continuing BFS step preserves the BFS level invariant; the popped
node is the queue head and is not End-coordinated. -/
theorem bfsInv_step {g0 : Grid} {cfg : Config} {W H : Nat} {s : SearchState}
    (hdiag : cfg.DIAGONAL = false) (binv : BFSInv g0 cfg W H s) {s2 : SearchState}
    (hstep : BFS cfg s = some (StepRes.cont, s2)) :
    BFSInv g0 cfg W H s2 ∧ ∃ curr rest, s.openL = curr :: rest ∧
      nodeEq curr cfg.END = false ∧ s2.closed = s.closed ++ [curr] := by
  by_cases hsl : s.openL = []
  · rw [BFS_fail cfg s hsl] at hstep
    exact absurd (congrArg Prod.fst (Option.some_inj.mp hstep)) (by simp)
  · obtain ⟨curr, rest, hpop⟩ : ∃ curr rest, s.openL = curr :: rest := by
      cases h2 : s.openL with
      | nil => exact absurd h2 hsl
      | cons a l2 => exact ⟨a, l2, rfl⟩
    obtain ⟨g1, hset, hcases⟩ := BFS_step_spec cfg s binv.run.dims binv.run.openInt hpop
    rcases hcases with ⟨hEnd, heq⟩ | ⟨hEndf, A, s2x, heq, post⟩
    · rw [heq] at hstep
      exact absurd (congrArg Prod.fst (Option.some_inj.mp hstep)) (by simp)
    · rw [heq] at hstep
      have hs2 : s2x = s2 := congrArg Prod.snd (Option.some_inj.mp hstep)
      subst hs2
      obtain ⟨r3, s3, hstep3, inv3, _⟩ := runInv_step Strat.bfs binv.run
      have hstep3' : BFS cfg s = some (r3, s3) := hstep3
      rw [heq] at hstep3'
      have hs3 : s3 = s2x := (congrArg Prod.snd (Option.some_inj.mp hstep3')).symm
      rw [hs3] at inv3
      rw [hdiag] at post
      have hopen2 : s2x.openL = rest ++ A := post.open_eq
      have hclosed2 : s2x.closed = s.closed ++ [curr] := post.closed_eq
      have hcurr_mem : curr ∈ s.openL := by
        rw [hpop]
        exact List.mem_cons_self _ _
      have hcurr_int := binv.run.openInt curr hcurr_mem
      have hA : ∀ nb2 ∈ A, nb2.parent = some curr ∧ nb2.depth = curr.depth + 1 ∧
          adjO (curr.y, curr.x) (nb2.y, nb2.x) ∧ InBoundsC W H nb2.y nb2.x ∧
          passableG g0 (nb2.y, nb2.x) := by
        intro nb2 hnb2
        obtain ⟨nb, hnbL, hy, hx, hparEq⟩ := post.a_src nb2 hnb2
        have hpar2 : nb2.parent = some curr := by
          rw [hparEq]
          exact (getNeighbors_spec false curr nb hnbL).1
        have hdep : nb2.depth = curr.depth + 1 := Node.depth_parent_some hpar2
        have hadj : adjO (curr.y, curr.x) (nb2.y, nb2.x) := by
          have hc : (nb.y, nb.x) ∈ coordsOf (getNeighbors false curr) :=
            List.mem_map_of_mem _ hnbL
          rw [getNeighbors_false_adj] at hc
          rw [hy, hx]
          exact hc
        have hb : InBoundsC W H nb2.y nb2.x := by
          have h4 := getNeighbors_inBounds hcurr_int nb hnbL
          rw [hy, hx]
          exact h4
        have hmark := post.grid_mark nb2 hnb2
        have hnw : ¬(gridGet g0 nb2.y nb2.x = some 1) := by
          intro h1
          have h5 := (inv3.wallEq nb2.y nb2.x hb).mpr h1
          rw [hmark] at h5
          exact absurd (Option.some_inj.mp h5) (by decide)
        obtain ⟨v, hv⟩ := gridGet_total binv.g0dims hb
        refine ⟨hpar2, hdep, hadj, hb, v, hv, ?_⟩
        intro h1
        rw [h1] at hv
        exact hnw hv
      have hAdep : ∀ nb2 ∈ A, nb2.depth = curr.depth + 1 :=
        fun nb2 h2 => (hA nb2 h2).2.1
      have hsplit : ∀ n, n ∈ s2x.openL ++ s2x.closed →
          n ∈ s.openL ++ s.closed ∨ n ∈ A := by
        intro n hn
        rw [hopen2, hclosed2] at hn
        rcases List.mem_append.mp hn with hn | hn
        · rcases List.mem_append.mp hn with hn | hn
          · left
            exact List.mem_append_left _ (by rw [hpop]; exact List.mem_cons_of_mem _ hn)
          · right
            exact hn
        · rcases List.mem_append.mp hn with hn | hn
          · left
            exact List.mem_append_right _ hn
          · left
            rw [List.mem_singleton.mp hn]
            exact List.mem_append_left _ hcurr_mem
      have hmap : ∀ n, n ∈ s.openL ++ s.closed → n ∈ s2x.openL ++ s2x.closed := by
        intro n hn
        rcases List.mem_append.mp hn with hn | hn
        · rw [hpop] at hn
          rcases List.mem_cons.mp hn with rfl | hn
          · apply List.mem_append_right
            rw [hclosed2]
            exact List.mem_append_right _ (List.mem_singleton.mpr rfl)
          · apply List.mem_append_left
            rw [hopen2]
            exact List.mem_append_left _ hn
        · apply List.mem_append_right
          rw [hclosed2]
          exact List.mem_append_left _ hn
      have hlowA : ∀ nb2 ∈ A, ∀ k,
          ReachN g0 k (cfg.START.y, cfg.START.x) (nb2.y, nb2.x) →
          curr.depth + 1 ≤ k := by
        intro nb2 hnb2 k hk
        by_contra hlt
        push_neg at hlt
        obtain ⟨n, hn, hcoords, hdep⟩ :=
          discoveredLow binv hpop k (by omega) _ hk
        have hync : n.y = nb2.y ∧ n.x = nb2.x :=
          ⟨congrArg Prod.fst hcoords, congrArg Prod.snd hcoords⟩
        rcases List.mem_append.mp hn with hn | hn
        · rw [hpop] at hn
          rcases List.mem_cons.mp hn with rfl | hn
          · exact (memNode_false_coords (post.a_not_closed nb2 hnb2)
              (List.mem_append_right _ (List.mem_singleton.mpr rfl))) hync
          · exact (memNode_false_coords (post.a_not_open nb2 hnb2) hn) hync
        · exact (memNode_false_coords (post.a_not_closed nb2 hnb2)
            (List.mem_append_left _ hn)) hync
      have hheadle : ∀ n ∈ rest, curr.depth ≤ n.depth := by
        have h4 := binv.sorted
        rw [hpop] at h4
        exact (List.pairwise_cons.mp h4).1
      have hrest_sorted : rest.Pairwise (fun a b => a.depth ≤ b.depth) := by
        have h4 := binv.sorted
        rw [hpop] at h4
        exact (List.pairwise_cons.mp h4).2
      have hbandc : ∀ b ∈ s.openL, b.depth ≤ curr.depth + 1 := fun b hb =>
        binv.band curr hcurr_mem b hb
      refine ⟨⟨inv3, binv.g0dims, ?_, ?_, ?_, ?_, ?_, ?_, ?_⟩,
        curr, rest, hpop, hEndf, hclosed2⟩
      · intro n hn
        rcases hsplit n hn with hn | hn
        · exact binv.reach n hn
        · obtain ⟨_, hdep, hadj, _, hpass⟩ := hA n hn
          rw [hdep]
          exact reach_snoc
            (binv.reach curr (List.mem_append_left _ hcurr_mem)) hadj hpass
      · intro n hn k hk
        rcases hsplit n hn with hn | hn
        · exact binv.low n hn k hk
        · rw [hAdep n hn]
          exact hlowA n hn k hk
      · rw [hopen2]
        apply List.pairwise_append.mpr
        refine ⟨hrest_sorted, pairwise_of_all ?_, ?_⟩
        · intro a ha b hb
          rw [hAdep a ha, hAdep b hb]
        · intro a ha b hb
          rw [hAdep b hb]
          exact hbandc a (by rw [hpop]; exact List.mem_cons_of_mem _ ha)
      · intro a ha b hb
        rw [hopen2] at ha hb
        rcases List.mem_append.mp hb with hb2 | hb2
        · rcases List.mem_append.mp ha with ha2 | ha2
          · exact binv.band a (by rw [hpop]; exact List.mem_cons_of_mem _ ha2) b
              (by rw [hpop]; exact List.mem_cons_of_mem _ hb2)
          · have h5 := hbandc b (by rw [hpop]; exact List.mem_cons_of_mem _ hb2)
            rw [hAdep a ha2]
            omega
        · rw [hAdep b hb2]
          rcases List.mem_append.mp ha with ha2 | ha2
          · have h5 := hheadle a ha2
            omega
          · rw [hAdep a ha2]
            omega
      · intro m hm n hn
        rw [hclosed2] at hm
        rw [hopen2] at hn
        rcases List.mem_append.mp hm with hm2 | hm2
        · rcases List.mem_append.mp hn with hn2 | hn2
          · exact binv.closedLe m hm2 n (by rw [hpop]; exact List.mem_cons_of_mem _ hn2)
          · have h5 := binv.closedLe m hm2 curr hcurr_mem
            rw [hAdep n hn2]
            omega
        · rw [List.mem_singleton.mp hm2]
          rcases List.mem_append.mp hn with hn2 | hn2
          · exact hheadle n hn2
          · rw [hAdep n hn2]
            omega
      · intro m hm c hadj hpassc
        rw [hclosed2] at hm
        rcases List.mem_append.mp hm with hm2 | hm2
        · obtain ⟨n, hn, hc⟩ := binv.expanded m hm2 c hadj hpassc
          exact ⟨n, hmap n hn, hc⟩
        · rw [List.mem_singleton.mp hm2] at hadj
          have hcmem : c ∈ coordsOf (getNeighbors false curr) :=
            (getNeighbors_false_adj curr c).mpr hadj
          obtain ⟨nb, hnbL, hnbc⟩ := List.mem_map.mp hcmem
          have hnbB := getNeighbors_inBounds hcurr_int nb hnbL
          obtain ⟨v0, hv0, hv0ne⟩ := hpassc
          have hg0nb : gridGet g0 nb.y nb.x = some v0 := by
            have h6 : nb.y = c.1 := congrArg Prod.fst hnbc
            have h7 : nb.x = c.2 := congrArg Prod.snd hnbc
            rw [h6, h7]
            exact hv0
          have hnw2 : ¬(gridGet s2x.grid nb.y nb.x = some 1) := by
            intro h1
            have h5 := (inv3.wallEq nb.y nb.x hnbB).mp h1
            rw [hg0nb] at h5
            exact hv0ne (Option.some_inj.mp h5)
          obtain ⟨w, hw⟩ := gridGet_total inv3.dims hnbB
          have hpath2 : isPath s2x.grid nb = some true := by
            refine isPath_of_nonwall hw ?_
            intro h1
            rw [h1] at hw
            exact hnw2 hw
          have hpath0 : isPath (SearchState.mk g1 rest (s.closed ++ [curr])).grid nb =
              some true := by
            rw [← post.pass2]
            exact hpath2
          by_cases hmem : memNode nb (s.closed ++ [curr]) = true
          · rw [memNode_iff] at hmem
            obtain ⟨m2, hm2mem, hm2c⟩ := List.mem_map.mp hmem
            refine ⟨m2, ?_, hm2c.trans hnbc⟩
            apply List.mem_append_right
            rw [hclosed2]
            exact hm2mem
          · have hmemf : memNode nb (s.closed ++ [curr]) = false :=
              Bool.eq_false_iff.mpr hmem
            have hcomp := post.complete nb hnbL hpath0 hmemf
            rw [memNode_iff] at hcomp
            obtain ⟨m2, hm2mem, hm2c⟩ := List.mem_map.mp hcomp
            exact ⟨m2, List.mem_append_left _ hm2mem, hm2c.trans hnbc⟩
      · obtain ⟨n, hn, hc, hd⟩ := binv.startD
        exact ⟨n, hmap n hn, hc, hd⟩

/-- BFS driver: with enough budget, the run terminates; on Failure no
passable route from Start to End exists at all, and on Success the last
visited node carries the End coordinates, its backpointer depth is the
length of a passable route, and no shorter passable route exists. -/
theorem bfs_runUntil {g0 : Grid} {cfg : Config} {W H : Nat}
    (hdiag : cfg.DIAGONAL = false) :
    ∀ (k : Nat) (s : SearchState), BFSInv g0 cfg W H s →
      (∀ m ∈ s.closed, nodeEq m cfg.END = false) →
      (H - 2) * (W - 2) + 1 ≤ s.closed.length + k →
      ∃ r s2, runUntil Strat.bfs cfg k s = some (r, s2) ∧
        ((r = StepRes.failure ∧
           ∀ kk, ¬ReachN g0 kk (cfg.START.y, cfg.START.x) (cfg.END.y, cfg.END.x)) ∨
         (r = StepRes.success ∧ ∃ pre curr, s2.closed = pre ++ [curr] ∧
           nodeEq curr cfg.END = true ∧
           ReachN g0 curr.depth (cfg.START.y, cfg.START.x) (curr.y, curr.x) ∧
           ∀ kk, ReachN g0 kk (cfg.START.y, cfg.START.x) (curr.y, curr.x) →
             curr.depth ≤ kk)) := by
  intro k
  induction k with
  | zero =>
    intro s binv _ hbound
    have := closed_card_bound binv.run
    omega
  | succ m ih =>
    intro s binv hnoEnd hbound
    obtain ⟨r, s2, hstep, inv2, hout⟩ := runInv_step Strat.bfs binv.run
    rcases hout with ⟨hf, hseq, hopen⟩ | ⟨hnf, curr, hc, hcl, h5, hsucc, _⟩
    · subst hf
      refine ⟨StepRes.failure, s2, ?_, Or.inl ⟨rfl, ?_⟩⟩
      · show runUntil Strat.bfs cfg (m + 1) s = some (StepRes.failure, s2)
        simp only [runUntil, hstep]
      · intro kk hroute
        have hall : ∀ j c, ReachN g0 j (cfg.START.y, cfg.START.x) c →
            ∃ n, n ∈ s.closed ∧ (n.y, n.x) = c := by
          intro j
          induction j with
          | zero =>
            intro c hr
            obtain ⟨heq2, _⟩ := reach_zero_inv hr
            obtain ⟨n, hn, hcoords, _⟩ := binv.startD
            rw [hopen] at hn
            exact ⟨n, by simpa using hn, hcoords.trans heq2⟩
          | succ j2 ih2 =>
            intro c hr
            obtain ⟨b, hrb, hadj, hpc⟩ := reach_last hr
            obtain ⟨n, hn, hcoords⟩ := ih2 b hrb
            obtain ⟨n2, hn2, hc2⟩ :=
              binv.expanded n hn c (by rw [hcoords]; exact hadj) hpc
            rw [hopen] at hn2
            exact ⟨n2, by simpa using hn2, hc2⟩
        obtain ⟨n, hn, hcoords⟩ := hall kk _ hroute
        have h6 := hnoEnd n hn
        rw [nodeEq_iff.mpr
          ⟨congrArg Prod.fst hcoords, congrArg Prod.snd hcoords⟩] at h6
        exact Bool.noConfusion h6
    · cases r with
      | failure => exact absurd rfl hnf
      | success =>
        have hend : nodeEq curr cfg.END = true := hsucc.mp rfl
        have hcmem : curr ∈ s.openL ++ s.closed := List.mem_append_left _ hc
        refine ⟨StepRes.success, s2, ?_,
          Or.inr ⟨rfl, s.closed, curr, hcl, hend, binv.reach curr hcmem,
            binv.low curr hcmem⟩⟩
        show runUntil Strat.bfs cfg (m + 1) s = some (StepRes.success, s2)
        simp only [runUntil, hstep]
      | cont =>
        have hstepB : BFS cfg s = some (StepRes.cont, s2) := hstep
        obtain ⟨binv2, curr2, rest2, hpop2, hend2, hcl2⟩ := bfsInv_step hdiag binv hstepB
        have hnoEnd2 : ∀ mm ∈ s2.closed, nodeEq mm cfg.END = false := by
          intro mm hmm
          rw [hcl2] at hmm
          rcases List.mem_append.mp hmm with h7 | h7
          · exact hnoEnd mm h7
          · rw [List.mem_singleton.mp h7]
            exact hend2
        have hlen2 : s2.closed.length = s.closed.length + 1 := by
          rw [hcl, List.length_append, List.length_singleton]
        obtain ⟨r3, s3, hrun, hdisj⟩ := ih s2 binv2 hnoEnd2 (by omega)
        refine ⟨r3, s3, ?_, hdisj⟩
        show runUntil Strat.bfs cfg (m + 1) s = some (r3, s3)
        simp only [runUntil, hstep]
        exact hrun

/-- **C2.**  With diagonal movement off and a passable orthogonal route
from Start to End, running BFS steps from the seeded state terminates
(within the `W * H` budget) with Success, and the backpointer depth of
the closing End node — the number of edges of the chain `reconstructPath`
walks — is exactly the length of a true shortest passable orthogonal
path from Start to End (`IsLeast`: it is attained and it bounds every
route length from below). -/
theorem claim_bfs_optimal {cfg : Config} {W H : Nat} {g0 : Grid}
    (hseed : SeedOK cfg W H g0) (hdiag : cfg.DIAGONAL = false) {kk : Nat}
    (hroute : ReachN g0 kk (cfg.START.y, cfg.START.x) (cfg.END.y, cfg.END.x)) :
    ∃ s2 pre curr, runUntil Strat.bfs cfg (W * H) ⟨g0, [cfg.START], []⟩ =
        some (StepRes.success, s2) ∧
      s2.closed = pre ++ [curr] ∧ nodeEq curr cfg.END = true ∧
      IsLeast {n : Nat | ReachN g0 n (cfg.START.y, cfg.START.x)
        (cfg.END.y, cfg.END.x)} curr.depth := by
  have binv := bfsInv_seed hseed
  have hWH : 3 ≤ W ∧ 3 ≤ H := by
    obtain ⟨_, _, _, hint, _⟩ := hseed
    obtain ⟨i1, i2, i3, i4⟩ := hint
    exact ⟨by omega, by omega⟩
  obtain ⟨hW3, hH3⟩ := hWH
  have hbound : (H - 2) * (W - 2) + 1 ≤
      (SearchState.mk g0 [cfg.START] []).closed.length + W * H := by
    show (H - 2) * (W - 2) + 1 ≤ ([] : List Node).length + W * H
    rw [List.length_nil]
    obtain ⟨a, rfl⟩ := Nat.exists_eq_add_of_le hW3
    obtain ⟨b, rfl⟩ := Nat.exists_eq_add_of_le hH3
    have e1 : 3 + b - 2 = b + 1 := by omega
    have e2 : 3 + a - 2 = a + 1 := by omega
    rw [e1, e2]
    nlinarith
  obtain ⟨r, s2, hrun, hdisj⟩ := bfs_runUntil hdiag (W * H) _ binv
    (fun m hm => absurd hm (List.not_mem_nil _)) hbound
  rcases hdisj with ⟨hf, hno⟩ | ⟨hs, pre, curr, hcl, hend, hreach, hlow⟩
  · exact absurd hroute (hno kk)
  · subst hs
    have hcoords := nodeEq_iff.mp hend
    refine ⟨s2, pre, curr, hrun, hcl, hend, ?_, ?_⟩
    · show ReachN g0 curr.depth (cfg.START.y, cfg.START.x) (cfg.END.y, cfg.END.x)
      rw [← hcoords.1, ← hcoords.2]
      exact hreach
    · intro b hb
      apply hlow
      rw [hcoords.1, hcoords.2]
      exact hb

theorem claim_bfs_optimal_witness :
    ∃ s2 pre curr, runUntil Strat.bfs demoCfg (4 * 4) ⟨demoGrid, [demoCfg.START], []⟩ =
        some (StepRes.success, s2) ∧
      s2.closed = pre ++ [curr] ∧ nodeEq curr demoCfg.END = true ∧
      IsLeast {n : Nat | ReachN demoGrid n (demoCfg.START.y, demoCfg.START.x)
        (demoCfg.END.y, demoCfg.END.x)} curr.depth := by
  have h1 : passableG demoGrid (1, 1) := ⟨2, by decide, by decide⟩
  have h2 : passableG demoGrid (1, 2) := ⟨0, by decide, by decide⟩
  have h3 : passableG demoGrid (2, 2) := ⟨3, by decide, by decide⟩
  have hroute : ReachN demoGrid 2 (1, 1) (2, 2) :=
    ReachN.step (1, 1) (1, 2) (2, 2) 1 h1 (Or.inr (Or.inl ⟨by decide, by decide⟩))
      (ReachN.step (1, 2) (2, 2) (2, 2) 0 h2 (Or.inr (Or.inr (Or.inl ⟨by decide, by decide⟩)))
        (ReachN.refl (2, 2) h3))
  exact claim_bfs_optimal demo_seedOK rfl hroute
